import Mathlib

/-!
CG-Homeworks: rasterisation, Bezier evaluation and camera model.

A shallow embedding of the algorithmic parts of the homework programs:

* `Homework 3/src/main.cpp`: `Bresenham_line`, `plotLineLow`, `plotLineHigh`,
  `plot8CirclePoints`, `Bresenham_circle`;
* `Homework 8/src/main.cpp`: `Bernstein`, the Bernstein evaluation loop and the
  de Casteljau subdivision loop of `main`;
* `Homework 5/src/camera.h`: the `Camera` class.

Conventions.  C++ `int` values are modelled by `Int` (every caller passes slider
values of small magnitude, and signed overflow has no defined behaviour to model);
the two products of `Bresenham_circle` that size and count its buffer are reduced to
32 bits by `int32`, since the buffer bound is stated for every radius.
C++ `float` values are modelled by elements of a field `K` in exact arithmetic; where
the range of `float` decides the result (the factorials of `Bernstein`), the code is
modelled a second time over `Flt`, which follows overflow to infinity and NaN.
A vertex buffer, which the code fills six floats per vertex and of which the
functions modelled here write the first two, is modelled by the list of the
`(x, y)` pairs written, in index order.
-/

namespace Homework3

/-- The constant `MESH_NUM` of `Homework 3/src/main.cpp`. -/
def MESH_NUM : Int := 21

/-- The `for (int i = 0; i <= dx; ++i)` loop of `plotLineLow`: `i`, `y`, `D` are the
loop variables, the result is the list of points written from index `i` on. -/
def plotLineLowLoop {K : Type} [Field K] (x0 dx dy yi : Int) (scale : K) :
    Nat → Int → Int → Int → List (K × K)
  | 0, _, _, _ => []
  | fuel + 1, i, y, D =>
    if i ≤ dx then
      (((x0 + i : Int) : K) * scale, (y : K) * scale) ::
        (if D > 0 then
          plotLineLowLoop x0 dx dy yi scale fuel (i + 1) (y + yi) (D - 2 * dx + 2 * dy)
        else
          plotLineLowLoop x0 dx dy yi scale fuel (i + 1) y (D + 2 * dy))
    else []

/-- Source function `plotLineLow`. -/
def plotLineLow {K : Type} [Field K] (x0 y0 x1 y1 : Int) (scale : K) : List (K × K) :=
  let dx := x1 - x0
  let dy := y1 - y0
  let yi : Int := if dy < 0 then -1 else 1
  let dy := if dy < 0 then -dy else dy
  let D := 2 * dy - dx
  plotLineLowLoop x0 dx dy yi scale (dx + 1).toNat 0 y0 D

/-- The `for (int i = 0; i <= dy; ++i)` loop of `plotLineHigh`. -/
def plotLineHighLoop {K : Type} [Field K] (y0 dx dy xi : Int) (scale : K) :
    Nat → Int → Int → Int → List (K × K)
  | 0, _, _, _ => []
  | fuel + 1, i, x, D =>
    if i ≤ dy then
      ((x : K) * scale, ((y0 + i : Int) : K) * scale) ::
        (if D > 0 then
          plotLineHighLoop y0 dx dy xi scale fuel (i + 1) (x + xi) (D - 2 * dy + 2 * dx)
        else
          plotLineHighLoop y0 dx dy xi scale fuel (i + 1) x (D + 2 * dx))
    else []

/-- Source function `plotLineHigh`. -/
def plotLineHigh {K : Type} [Field K] (x0 y0 x1 y1 : Int) (scale : K) : List (K × K) :=
  let dx := x1 - x0
  let dy := y1 - y0
  let xi : Int := if dx < 0 then -1 else 1
  let dx := if dx < 0 then -dx else dx
  let D := 2 * dx - dy
  plotLineHighLoop y0 dx dy xi scale (dy + 1).toNat 0 x0 D

/-- Source function `Bresenham_line`: the returned pair is the `int` return value
(the number of floats of the buffer) and the points written to `points`. -/
def Bresenham_line {K : Type} [Field K] (x0 y0 x1 y1 : Int) (scale : K) :
    Int × List (K × K) :=
  let scale := scale * 2 / ((MESH_NUM - 1 : Int) : K)
  if |y1 - y0| < |x1 - x0| then
    ((|x1 - x0| + 1) * 6,
      if x0 > x1 then plotLineLow x1 y1 x0 y0 scale else plotLineLow x0 y0 x1 y1 scale)
  else
    ((|y1 - y0| + 1) * 6,
      if y0 > y1 then plotLineHigh x1 y1 x0 y0 scale else plotLineHigh x0 y0 x1 y1 scale)

end Homework3


namespace Homework3

/-- Source function `plot8CirclePoints`: the eight vertices written at offsets
`0, 6, 12, ..., 42` of the buffer, in that order. -/
def plot8CirclePoints {K : Type} [Field K] (x y : K) : List (K × K) :=
  [(x, y), (-x, y), (-x, -y), (x, -y), (y, x), (-y, x), (-y, -x), (y, -x)]

/-- The local variables of `Bresenham_circle`, together with the vertices written so far. -/
structure CircleState (K : Type) where
  x : Int
  y : Int
  xchange : Int
  ychange : Int
  radius_error : Int
  count : Int
  points : List (K × K)

/-- One execution of the body of the `while (x >= y)` loop of `Bresenham_circle`. -/
def circleStep {K : Type} [Field K] (scale : K) (s : CircleState K) : CircleState K :=
  let points := s.points ++ plot8CirclePoints ((s.x : K) * scale) ((s.y : K) * scale)
  let y := s.y + 1
  let radius_error := s.radius_error + s.ychange
  let ychange := s.ychange + 2
  if 2 * radius_error + s.xchange > 0 then
    { x := s.x - 1, y := y, xchange := s.xchange + 2, ychange := ychange,
      radius_error := radius_error + s.xchange, count := s.count + 1, points := points }
  else
    { x := s.x, y := y, xchange := s.xchange, ychange := ychange,
      radius_error := radius_error, count := s.count + 1, points := points }

/-- The `while (x >= y)` loop of `Bresenham_circle`, run for at most `fuel` iterations. -/
def circleLoop {K : Type} [Field K] (scale : K) : Nat → CircleState K → CircleState K
  | 0, s => s
  | fuel + 1, s => if s.x ≥ s.y then circleLoop scale fuel (circleStep scale s) else s

/-- The value of a 32-bit `int` expression whose mathematical value is `v`: the
two's-complement representative of `v` modulo `2^32` in `[-2^31, 2^31)`.  It is `v` itself
when `v` fits in 32 bits; beyond that it is what the usual compilers compute (the C++
standard leaves signed overflow undefined). -/
def int32 (v : Int) : Int := (v + 2147483648) % 4294967296 - 2147483648

/-- What a call of `Bresenham_circle` does: `capacity` is the number of floats of the
buffer it allocates (`new float[radius * 48]`, the product computed in 32-bit `int`),
`ret` the value it returns (`count * 8 * 6`, computed in 32-bit `int`) and `points` the
vertices it writes. -/
structure CircleResult (K : Type) where
  capacity : Int
  ret : Int
  points : List (K × K)

/-- Source function `Bresenham_circle`.  The loop, which increments `y` at every
iteration and never increases `x`, is given `radius + 1` iterations of fuel. -/
def Bresenham_circle {K : Type} [Field K] (radius : Int) (scale : K) : CircleResult K :=
  let scale := scale * 2 / ((MESH_NUM - 1 : Int) : K)
  let s := circleLoop scale (radius + 1).toNat
    { x := radius, y := 0, xchange := 1 - 2 * radius, ychange := 1, radius_error := 0,
      count := 0, points := [] }
  { capacity := int32 (radius * 48), ret := int32 (s.count * 8 * 6), points := s.points }

end Homework3

namespace Homework8

/-- The `struct Point` of `Homework 8/src/main.cpp`. -/
structure Point (K : Type) where
  x : K
  y : K
deriving DecidableEq

/-- The `for (int k = n; k > 1; k--)` loop of `Bernstein`; the triple holds
`nFactorial`, `iFactorial` and `niFactorial`. -/
def BernsteinLoop {K : Type} [Field K] (i n : Int) : Nat → Int → K × K × K → K × K × K
  | 0, _, s => s
  | fuel + 1, k, (nFactorial, iFactorial, niFactorial) =>
    if k > 1 then
      let niFactorial := if k ≤ n - i then niFactorial * (k : K) else niFactorial
      let iFactorial := if k ≤ i then iFactorial * (k : K) else iFactorial
      let nFactorial := nFactorial * (k : K)
      BernsteinLoop i n fuel (k - 1) (nFactorial, iFactorial, niFactorial)
    else (nFactorial, iFactorial, niFactorial)

/-- Source function `Bernstein` in exact arithmetic.  `pow` with an `int` exponent is the
integer power of the field, for which `0 ^ 0 = 1` as for the C function.  The three
factorials are `float` in the source and leave its range from `n = 35` on: `Bernstein32`
is the same function with that range. -/
def Bernstein {K : Type} [Field K] (t : K) (i n : Int) : K :=
  let s := BernsteinLoop (K := K) i n (n - 1).toNat n (1, 1, 1)
  let nFactorial := s.1
  let iFactorial := s.2.1
  let niFactorial := s.2.2
  nFactorial * t ^ i * (1 - t) ^ (n - i) / (iFactorial * niFactorial)

/-- The inner loop `for (int i = 0; i < points.size(); ++i)` of the Bernstein evaluation in
`main`: `n` is `points.size() - 1`, the list holds `points[i], points[i+1], ...` and the
pair is `(currentX, currentY)`. -/
def evaluateLoop {K : Type} [Field K] (t : K) (n : Int) :
    List (Point K) → Int → K × K → K × K
  | [], _, current => current
  | p :: rest, i, (currentX, currentY) =>
    let b := Bernstein t i n
    evaluateLoop t n rest (i + 1) (currentX + p.x * b, currentY + p.y * b)

/-- The curve point that the Bernstein evaluation loop of `main` computes for the
parameter `t`. -/
def evaluate {K : Type} [Field K] (t : K) (points : List (Point K)) : Point K :=
  let current := evaluateLoop t ((points.length : Int) - 1) points 0 (0, 0)
  ⟨current.1, current.2⟩

/-- The inner loop `for (int i = 0; i < tmpPoints1.size() - 1; ++i)` of the subdivision
in `main`: the list `tmpPoints2` built from `tmpPoints1`. -/
def subdivideRow {K : Type} [Field K] (T : K) : List (Point K) → List (Point K)
  | p :: q :: rest =>
    let b0 := Bernstein T 0 1
    let b1 := Bernstein T 1 1
    ⟨b0 * p.x + b1 * q.x, b0 * p.y + b1 * q.y⟩ :: subdivideRow T (q :: rest)
  | _ => []

/-- The `while (tmpPoints1.size() > 1)` loop of the subdivision in `main`, run for at
most `fuel` iterations: the levels drawn, in order, and the final `tmpPoints1`. -/
def subdivideLoop {K : Type} [Field K] (T : K) :
    Nat → List (Point K) → List (List (Point K)) × List (Point K)
  | 0, tmpPoints1 => ([], tmpPoints1)
  | fuel + 1, tmpPoints1 =>
    if tmpPoints1.length > 1 then
      let tmpPoints2 := subdivideRow T tmpPoints1
      let r := subdivideLoop T fuel tmpPoints2
      (tmpPoints2 :: r.1, r.2)
    else ([], tmpPoints1)

/-- The de Casteljau subdivision of `main` on the control polygon `points`.  Every
iteration removes one point, so `points.size()` iterations of fuel are enough. -/
def subdivide {K : Type} [Field K] (T : K) (points : List (Point K)) :
    List (List (Point K)) × List (Point K) :=
  subdivideLoop T points.length points

end Homework8

namespace Homework5

/-- The type `glm::vec3`. -/
structure Vec3 (K : Type) where
  x : K
  y : K
  z : K
deriving DecidableEq

/-- The functions of `<math.h>` that `camera.h` calls, and the constant pi. -/
structure MathLib (K : Type) where
  cos : K → K
  sin : K → K
  sqrt : K → K
  pi : K

namespace Vec3
variable {K : Type} [Field K]

/-- Componentwise sum, `operator+` of `glm::vec3`. -/
def add (a b : Vec3 K) : Vec3 K := ⟨a.x + b.x, a.y + b.y, a.z + b.z⟩

/-- Componentwise difference, `operator-` of `glm::vec3`. -/
def sub (a b : Vec3 K) : Vec3 K := ⟨a.x - b.x, a.y - b.y, a.z - b.z⟩

/-- Product with a scalar, `operator*` of `glm::vec3`. -/
def smul (a : Vec3 K) (c : K) : Vec3 K := ⟨a.x * c, a.y * c, a.z * c⟩

/-- Modelled from the spec: `glm::dot`, the standard inner product. -/
def dot (a b : Vec3 K) : K := a.x * b.x + a.y * b.y + a.z * b.z

/-- Modelled from the spec: `glm::cross`, the standard cross product. -/
def cross (a b : Vec3 K) : Vec3 K :=
  ⟨a.y * b.z - b.y * a.z, a.z * b.x - b.z * a.x, a.x * b.y - b.x * a.y⟩

/-- Modelled from the spec: `glm::normalize`, the vector times the inverse square
root of its squared length.  For the zero vector the factor is `1 / 0` (which is `0` in a
Lean field); the product is the zero vector whatever the factor is taken to be. -/
def normalize (M : MathLib K) (v : Vec3 K) : Vec3 K := smul v (1 / M.sqrt (dot v v))

end Vec3

/-- Modelled from the spec: `glm::radians`, degrees to radians. -/
def radians {K : Type} [Field K] (M : MathLib K) (degrees : K) : K := degrees * (M.pi / 180)

/-- The default camera options of `camera.h`. -/
def PITCH {K : Type} [Field K] : K := 0
/-- Default yaw. -/
def YAW {K : Type} [Field K] : K := -90
/-- Default movement speed. -/
def SPEED {K : Type} [Field K] : K := 5
/-- Default mouse sensitivity, `0.1f`. -/
def SENSITIVITY {K : Type} [Field K] : K := 1 / 10
/-- Default zoom. -/
def ZOOM {K : Type} [Field K] : K := 45

/-- The `enum Camera_Movement`. -/
inductive Camera_Movement where
  | FORWARD
  | BACKWARD
  | LEFT
  | RIGHT
deriving DecidableEq

/-- The data members of `class Camera`. -/
structure Camera (K : Type) where
  Position : Vec3 K
  Front : Vec3 K
  Up : Vec3 K
  Right : Vec3 K
  WorldUp : Vec3 K
  Pitch : K
  Yaw : K
  MovementSpeed : K
  MouseSensitivity : K
  Zoom : K

namespace Camera
variable {K : Type} [LinearOrderedField K]

/-- Source method `Camera::updateCameraVectors`. -/
def updateCameraVectors (M : MathLib K) (c : Camera K) : Camera K :=
  let front : Vec3 K :=
    ⟨M.cos (radians M c.Pitch) * M.cos (radians M c.Yaw),
     M.sin (radians M c.Pitch),
     M.cos (radians M c.Pitch) * M.sin (radians M c.Yaw)⟩
  let Front := Vec3.normalize M front
  let Right := Vec3.normalize M (Vec3.cross Front c.WorldUp)
  let Up := Vec3.normalize M (Vec3.cross Right Front)
  { c with Front := Front, Right := Right, Up := Up }

/-- The constructor of `Camera` "with vectors".  `Up` and `Right`, which the constructor
leaves to `updateCameraVectors`, start as the zero vector. -/
def new (M : MathLib K) (position up : Vec3 K) (yaw pitch : K) : Camera K :=
  updateCameraVectors M
    { Position := position, Front := ⟨0, 0, -1⟩, Up := ⟨0, 0, 0⟩, Right := ⟨0, 0, 0⟩,
      WorldUp := up, Pitch := pitch, Yaw := yaw, MovementSpeed := SPEED,
      MouseSensitivity := SENSITIVITY, Zoom := ZOOM }

/-- Source method `Camera::processKeyboard`. -/
def processKeyboard (c : Camera K) (direction : Camera_Movement) (deltaTime : K) : Camera K :=
  let velocity := c.MovementSpeed * deltaTime
  let c := if direction = .FORWARD then
    { c with Position := Vec3.add c.Position (Vec3.smul c.Front velocity) } else c
  let c := if direction = .BACKWARD then
    { c with Position := Vec3.sub c.Position (Vec3.smul c.Front velocity) } else c
  let c := if direction = .LEFT then
    { c with Position := Vec3.sub c.Position (Vec3.smul c.Right velocity) } else c
  let c := if direction = .RIGHT then
    { c with Position := Vec3.add c.Position (Vec3.smul c.Right velocity) } else c
  c

/-- Source method `Camera::processMouseMovement`. -/
def processMouseMovement (M : MathLib K) (c : Camera K) (xoffset yoffset : K)
    (constrainPitch : Bool) : Camera K :=
  let xoffset := xoffset * c.MouseSensitivity
  let yoffset := yoffset * c.MouseSensitivity
  let Pitch := c.Pitch + yoffset
  let Yaw := c.Yaw + xoffset
  let Pitch :=
    if constrainPitch then
      let Pitch := if Pitch > 89 then 89 else Pitch
      if Pitch < -89 then -89 else Pitch
    else Pitch
  updateCameraVectors M { c with Pitch := Pitch, Yaw := Yaw }

/-- Source method `Camera::processMouseScroll`. -/
def processMouseScroll (c : Camera K) (yoffset : K) : Camera K :=
  let Zoom := if c.Zoom ≥ 1 ∧ c.Zoom ≤ 60 then c.Zoom - yoffset else c.Zoom
  let Zoom := if Zoom < 1 then 1 else Zoom
  let Zoom := if Zoom > 60 then 60 else Zoom
  { c with Zoom := Zoom }

/-- A sequence of `processMouseMovement` calls, each given by its three arguments. -/
def processMouseMovements (M : MathLib K) (c : Camera K) (calls : List (K × K × Bool)) :
    Camera K :=
  calls.foldl (fun c a => processMouseMovement M c a.1 a.2.1 a.2.2) c

end Camera

end Homework5

/-! Predicates used to state invariants and properties. -/

namespace Homework3
variable {K : Type} [Field K]

/-- A lattice point `(a, b)` whose squared distance from the origin differs from
`radius ^ 2` by at most `radius`. -/
def NearCircle (radius a b : Int) : Prop :=
  -radius ≤ a ^ 2 + b ^ 2 - radius ^ 2 ∧ a ^ 2 + b ^ 2 - radius ^ 2 ≤ radius

/-- The invariant of the octant loop of `Bresenham_circle`. -/
structure CircleInv (radius : Int) (scale : K) (s : CircleState K) : Prop where
  herr : s.radius_error = s.x ^ 2 + s.y ^ 2 - radius ^ 2
  hxc : s.xchange = 1 - 2 * s.x
  hyc : s.ychange = 2 * s.y + 1
  hx : s.x ≤ radius
  hy : 0 ≤ s.y
  hbound : s.y ≤ s.x → -s.x ≤ s.radius_error ∧ s.radius_error ≤ s.x
  hpts : ∀ p ∈ s.points, ∃ a b : Int,
    p = ((a : K) * scale, (b : K) * scale) ∧ NearCircle radius a b

end Homework3

namespace Homework8

/-- The Bernstein weight in closed form, `C(k,i) * t^i * (1-t)^(k-i)`, for natural
indices; it is zero for `i > k`. -/
def bweight {K : Type} [Field K] (t : K) (k i : Nat) : K :=
  (k.choose i : K) * t ^ i * (1 - t) ^ (k - i)

end Homework8

namespace Homework5

/-- The vectors `Front`, `Right`, `Up` of a camera are mutually orthogonal and each of
unit length (a vector has unit length exactly when its inner product with itself is 1). -/
def Camera.Orthonormal {K : Type} [Field K] (c : Camera K) : Prop :=
  Vec3.dot c.Front c.Front = 1 ∧ Vec3.dot c.Right c.Right = 1 ∧ Vec3.dot c.Up c.Up = 1 ∧
  Vec3.dot c.Front c.Right = 0 ∧ Vec3.dot c.Front c.Up = 0 ∧ Vec3.dot c.Right c.Up = 0

end Homework5

namespace Homework3

/-- The lattice points `(x0 + i, y)` visited by the loop of `plotLineLow` from the state
`i`, `y`, `D` on, before they are multiplied by the scale. -/
def plotLineLowLattice (x0 dx dy yi : Int) : Nat → Int → Int → Int → List (Int × Int)
  | 0, _, _, _ => []
  | fuel + 1, i, y, D =>
    if i ≤ dx then
      (x0 + i, y) ::
        (if D > 0 then plotLineLowLattice x0 dx dy yi fuel (i + 1) (y + yi) (D - 2 * dx + 2 * dy)
        else plotLineLowLattice x0 dx dy yi fuel (i + 1) y (D + 2 * dy))
    else []

end Homework3

namespace Homework3
variable {K : Type} [Field K]

/-- The state in which `Bresenham_circle` enters its loop. -/
def circleInit (radius : Int) : CircleState K :=
  { x := radius, y := 0, xchange := 1 - 2 * radius, ychange := 1, radius_error := 0,
    count := 0, points := [] }

/-- The eight reflections of the octant step `q = (x, y)`, each multiplied by the scale,
in the order in which `plot8CirclePoints` stores them. -/
def octantGroup (scale : K) (q : Int × Int) : List (K × K) :=
  [((q.1 : K) * scale, (q.2 : K) * scale), (-((q.1 : K) * scale), (q.2 : K) * scale),
   (-((q.1 : K) * scale), -((q.2 : K) * scale)), ((q.1 : K) * scale, -((q.2 : K) * scale)),
   ((q.2 : K) * scale, (q.1 : K) * scale), (-((q.2 : K) * scale), (q.1 : K) * scale),
   (-((q.2 : K) * scale), -((q.1 : K) * scale)), ((q.2 : K) * scale, -((q.1 : K) * scale))]

/-- Bookkeeping invariant of the octant loop: `count` equals `y`, both are at most
`radius + 1`, and eight points have been written per step. -/
structure CircleCount (radius : Int) (s : CircleState K) : Prop where
  hcount : s.count = s.y
  hx : s.x ≤ radius
  hy0 : 0 ≤ s.y
  hy : s.y ≤ radius + 1
  hlen : (s.points.length : Int) = 8 * s.count

end Homework3

namespace Homework8

/-- The list `next` is the level that follows `prev` in the subdivision: it has one point
fewer, and its `j`-th point is `(1-t) * P_j + t * P_{j+1}` for the points `P` of `prev`. -/
def InterpolatedLevel {K : Type} [Field K] (t : K) (prev next : List (Point K)) : Prop :=
  next.length + 1 = prev.length ∧
  ∀ (j : Nat) (p q : Point K), prev[j]? = some p → prev[j + 1]? = some q →
    next[j]? = some ⟨(1 - t) * p.x + t * q.x, (1 - t) * p.y + t * q.y⟩

end Homework8

namespace Homework3

/-- After the first octant step the error term is at most `x - 1` whenever the loop
condition holds, and `y` never exceeds `radius` (for `radius >= 1`). -/
def CircleTight {K : Type} (radius : Int) (s : CircleState K) : Prop :=
  (1 ≤ s.y → s.y ≤ s.x → s.radius_error ≤ s.x - 1) ∧ s.y ≤ radius

end Homework3

namespace Homework3

/-- The lattice points written by `plotLineLow`, before scaling: `plotLineLow` with the
loop replaced by `plotLineLowLattice`. -/
def plotLineLowPoints (x0 y0 x1 y1 : Int) : List (Int × Int) :=
  let dx := x1 - x0
  let dy := y1 - y0
  let yi : Int := if dy < 0 then -1 else 1
  let dy := if dy < 0 then -dy else dy
  let D := 2 * dy - dx
  plotLineLowLattice x0 dx dy yi (dx + 1).toNat 0 y0 D

/-- The lattice points written by `Bresenham_line`, before scaling; the steep branch is the
shallow one with the two coordinates exchanged. -/
def Bresenham_linePoints (x0 y0 x1 y1 : Int) : List (Int × Int) :=
  if |y1 - y0| < |x1 - x0| then
    (if x0 > x1 then plotLineLowPoints x1 y1 x0 y0 else plotLineLowPoints x0 y0 x1 y1)
  else
    (if y0 > y1 then (plotLineLowPoints y1 x1 y0 x0).map Prod.swap
     else (plotLineLowPoints y0 x0 y1 x1).map Prod.swap)

end Homework3

namespace Homework3

/-- The octant steps `(x, y)` for which the loop of `Bresenham_circle` executes its body,
from the state `s` on: the lattice point passed (scaled) to `plot8CirclePoints` at each
iteration. -/
def circleWalk {K : Type} [Field K] (scale : K) : Nat → CircleState K → List (Int × Int)
  | 0, _ => []
  | fuel + 1, s =>
    if s.x ≥ s.y then (s.x, s.y) :: circleWalk scale fuel (circleStep scale s) else []

end Homework3

namespace Homework8

/-- A `float` or `double` value as far as its range is concerned: a finite value, kept
exact (rounding of finite results is not modelled), an infinity with its sign, or NaN.
This is what is needed to follow the factorials of `Bernstein` beyond the range of
`float`, where the exact model `Bernstein` no longer describes the code. -/
inductive Flt where
  | fin (q : ℚ)
  | inf (negative : Bool)
  | nan
deriving DecidableEq

/-- The largest finite `float` (32 bits), `2^128 - 2^104`. -/
def FLT_MAX : ℚ := 340282346638528859811704183484516925440

/-- The largest finite `double`, `2^1024 - 2^971`. -/
def DBL_MAX : ℚ := 2 ^ 1024 - 2 ^ 971

namespace Flt

/-- The value stored for the exact result `q` in a format whose largest finite value is
`max`: infinity when `q` is out of range.  (IEEE rounding still gives `max` for a `q` less
than half a unit in the last place beyond it; none of the values followed here is that
close to `max`.) -/
def ofRat (max q : ℚ) : Flt :=
  if q > max then inf false else if q < -max then inf true else fin q

/-- IEEE product in the format with largest finite value `max`. -/
def mul (max : ℚ) : Flt → Flt → Flt
  | fin a, fin b => ofRat max (a * b)
  | fin a, inf s => if a = 0 then nan else inf (if a < 0 then !s else s)
  | inf s, fin b => if b = 0 then nan else inf (if b < 0 then !s else s)
  | inf s, inf r => inf (s != r)
  | nan, _ => nan
  | _, nan => nan

/-- IEEE quotient in the format with largest finite value `max` (zero is taken positive). -/
def div (max : ℚ) : Flt → Flt → Flt
  | fin a, fin b =>
    if b = 0 then (if a = 0 then nan else inf (decide (a < 0))) else ofRat max (a / b)
  | fin _, inf _ => fin 0
  | inf s, fin b => inf (if b < 0 then !s else s)
  | inf _, inf _ => nan
  | nan, _ => nan
  | _, nan => nan

/-- IEEE sum in the format with largest finite value `max`. -/
def add (max : ℚ) : Flt → Flt → Flt
  | fin a, fin b => ofRat max (a + b)
  | fin _, inf s => inf s
  | inf s, fin _ => inf s
  | inf s, inf r => if s = r then inf s else nan
  | nan, _ => nan
  | _, nan => nan

/-- IEEE difference in the format with largest finite value `max`. -/
def sub (max : ℚ) : Flt → Flt → Flt
  | fin a, fin b => ofRat max (a - b)
  | fin _, inf s => inf (!s)
  | inf s, fin _ => inf s
  | inf s, inf r => if s = r then nan else inf s
  | nan, _ => nan
  | _, nan => nan

/-- The C function `pow` for an integral exponent, in the format with largest finite
value `max`: `pow(x, 0)` is 1 for every `x`. -/
def pow (max : ℚ) (x : Flt) (n : Int) : Flt :=
  if n = 0 then fin 1
  else
    match x with
    | fin q => if q = 0 ∧ n < 0 then inf false else ofRat max (q ^ n)
    | inf s => if n < 0 then fin 0 else inf (s && decide (n % 2 = 1))
    | nan => nan

/-- Conversion of a `double` to `float`. -/
def narrow : Flt → Flt
  | fin q => ofRat FLT_MAX q
  | inf s => inf s
  | nan => nan

end Flt

/-- The loop of `Bernstein` with its three `float` accumulators followed in their range:
each `*= k` is a `float` product. -/
def BernsteinLoop32 (i n : Int) : Nat → Int → Flt × Flt × Flt → Flt × Flt × Flt
  | 0, _, s => s
  | fuel + 1, k, (nFactorial, iFactorial, niFactorial) =>
    if k > 1 then
      let niFactorial :=
        if k ≤ n - i then Flt.mul FLT_MAX niFactorial (Flt.fin (k : ℚ)) else niFactorial
      let iFactorial :=
        if k ≤ i then Flt.mul FLT_MAX iFactorial (Flt.fin (k : ℚ)) else iFactorial
      let nFactorial := Flt.mul FLT_MAX nFactorial (Flt.fin (k : ℚ))
      BernsteinLoop32 i n fuel (k - 1) (nFactorial, iFactorial, niFactorial)
    else (nFactorial, iFactorial, niFactorial)

/-- Source function `Bernstein` with the range of its number types: `1 - t` and
`iFactorial * niFactorial` are `float` operations, `pow` and the other products and the
quotient are `double` operations, and the result is converted to `float`. -/
def Bernstein32 (t : Flt) (i n : Int) : Flt :=
  let s := BernsteinLoop32 i n (n - 1).toNat n (Flt.fin 1, Flt.fin 1, Flt.fin 1)
  let nFactorial := s.1
  let iFactorial := s.2.1
  let niFactorial := s.2.2
  Flt.narrow
    (Flt.div DBL_MAX
      (Flt.mul DBL_MAX (Flt.mul DBL_MAX nFactorial (Flt.pow DBL_MAX t i))
        (Flt.pow DBL_MAX (Flt.sub FLT_MAX (Flt.fin 1) t) (n - i)))
      (Flt.mul FLT_MAX iFactorial niFactorial))

/-- The inner loop of the Bernstein evaluation in `main`, as `evaluateLoop`, with `float`
operations followed in their range. -/
def evaluateLoop32 (t : Flt) (n : Int) : List (Point Flt) → Int → Flt × Flt → Flt × Flt
  | [], _, current => current
  | p :: rest, i, (currentX, currentY) =>
    let b := Bernstein32 t i n
    evaluateLoop32 t n rest (i + 1)
      (Flt.add FLT_MAX currentX (Flt.mul FLT_MAX p.x b),
       Flt.add FLT_MAX currentY (Flt.mul FLT_MAX p.y b))

/-- The curve point computed by the Bernstein evaluation loop of `main`, as `evaluate`,
with `float` operations followed in their range. -/
def evaluate32 (t : Flt) (points : List (Point Flt)) : Point Flt :=
  let current :=
    evaluateLoop32 t ((points.length : Int) - 1) points 0 (Flt.fin 0, Flt.fin 0)
  ⟨current.1, current.2⟩

/-- A control point with finite coordinates as a point with `float` coordinates. -/
def Point.toFlt (p : Point ℚ) : Point Flt := ⟨Flt.fin p.x, Flt.fin p.y⟩

/-- A control polygon of 36 points, as 36 clicks along a horizontal line leave it in
`points`. -/
def controlPolygon36 : List (Point ℚ) :=
  (List.range 36).map (fun (j : Nat) => (⟨(j : ℚ) / 100, 0⟩ : Point ℚ))

end Homework8

/-! ## Bresenham line rasteriser -/

namespace Homework3
variable {K : Type} [Field K]

theorem plotLineHighLoop_eq_swap (y0 dx dy xi : Int) (scale : K) (fuel : Nat) (i x D : Int) :
    plotLineHighLoop y0 dx dy xi scale fuel i x D =
      (plotLineLowLoop y0 dy dx xi scale fuel i x D).map Prod.swap := by
  induction fuel generalizing i x D with
  | zero => simp [plotLineHighLoop, plotLineLowLoop]
  | succ fuel ih =>
    simp only [plotLineHighLoop, plotLineLowLoop]
    split_ifs <;> simp [ih]

theorem plotLineHigh_eq_swap (x0 y0 x1 y1 : Int) (scale : K) :
    plotLineHigh x0 y0 x1 y1 scale = (plotLineLow y0 x0 y1 x1 scale).map Prod.swap := by
  simp only [plotLineHigh, plotLineLow, plotLineHighLoop_eq_swap]

theorem plotLineLowLoop_length (x0 dx dy yi : Int) (scale : K) (fuel : Nat) (i y D : Int) :
    (plotLineLowLoop x0 dx dy yi scale fuel i y D).length = min fuel (dx + 1 - i).toNat := by
  induction fuel generalizing i y D with
  | zero => simp [plotLineLowLoop]
  | succ fuel ih =>
    simp only [plotLineLowLoop]
    split_ifs with h1 h2
    · simp only [List.length_cons, ih]; omega
    · simp only [List.length_cons, ih]; omega
    · simp only [List.length_nil]; omega

/-- More fuel than the remaining `dx + 1 - i` iterations does not change the result. -/
theorem plotLineLowLoop_fuel (x0 dx dy yi : Int) (scale : K) (fuel extra : Nat) (i y D : Int)
    (h : (dx + 1 - i).toNat ≤ fuel) :
    plotLineLowLoop x0 dx dy yi scale (fuel + extra) i y D =
      plotLineLowLoop x0 dx dy yi scale fuel i y D := by
  induction fuel generalizing i y D with
  | zero =>
    have hlt : ¬ i ≤ dx := by omega
    cases extra with
    | zero => rfl
    | succ e => simp [plotLineLowLoop, hlt]
  | succ fuel ih =>
    rw [Nat.add_right_comm]
    simp only [plotLineLowLoop]
    split_ifs with h1 h2
    · rw [ih _ _ _ (by omega)]
    · rw [ih _ _ _ (by omega)]
    · rfl

theorem plotLineLow_length (x0 y0 x1 y1 : Int) (scale : K) :
    (plotLineLow x0 y0 x1 y1 scale).length = (x1 - x0 + 1).toNat := by
  simp [plotLineLow, plotLineLowLoop_length]

theorem plotLineLow_head (x0 y0 x1 y1 : Int) (scale : K) (h : x0 ≤ x1) :
    (plotLineLow x0 y0 x1 y1 scale).head? = some ((x0 : K) * scale, (y0 : K) * scale) := by
  obtain ⟨n, hn⟩ : ∃ n : Nat, (x1 - x0 + 1).toNat = n + 1 := ⟨(x1 - x0).toNat, by omega⟩
  have h0 : (0 : Int) ≤ x1 - x0 := by omega
  simp [plotLineLow, hn, plotLineLowLoop, h0]

theorem plotLineLowLoop_nil (x0 dx dy yi : Int) (scale : K) (fuel : Nat) (i y D : Int)
    (h : dx < i) : plotLineLowLoop x0 dx dy yi scale fuel i y D = [] := by
  cases fuel with
  | zero => rfl
  | succ fuel => simp [plotLineLowLoop, h]

theorem plotLineLowLoop_getLast (x0 y0 dx dy yi : Int) (scale : K) (hdx : 0 < dx)
    (hdy0 : 0 ≤ dy) (hdy : dy ≤ dx) (fuel : Nat) (i y D k : Int)
    (hi0 : 0 ≤ i) (hi : i ≤ dx) (hfuel : (dx + 1 - i).toNat ≤ fuel)
    (hy : y = y0 + yi * k) (hD : D = 2 * dy * (i + 1) - dx - 2 * dx * k)
    (hlo : 2 * dy - 2 * dx < D) (hhi : D ≤ 2 * dy) :
    (plotLineLowLoop x0 dx dy yi scale fuel i y D).getLast? =
      some (((x0 + dx : Int) : K) * scale, ((y0 + yi * dy : Int) : K) * scale) := by
  induction fuel generalizing i y D k with
  | zero => omega
  | succ fuel ih =>
    simp only [plotLineLowLoop, if_pos hi]
    rw [List.getLast?_cons]
    rcases eq_or_lt_of_le hi with hlast | hlt
    · -- the last iteration: the number of minor-axis steps taken is exactly `dy`
      have hk : k = dy := by
        have h3 : 0 < 2 * (dy - k) + 1 := by
          by_contra hc
          push_neg at hc
          nlinarith
        have h4 : 2 * (dy - k) - 1 ≤ 0 := by
          by_contra hc
          push_neg at hc
          nlinarith
        omega
      have hnil := fun y' D' =>
        plotLineLowLoop_nil x0 dx dy yi scale fuel (i + 1) y' D' (by omega)
      split_ifs <;> (rw [hnil]; simp [hlast, hy, hk])
    · split_ifs with hpos
      · rw [ih (i + 1) (y + yi) (D - 2 * dx + 2 * dy) (k + 1) (by omega) (by omega)
          (by omega) (by rw [hy]; ring) (by rw [hD]; ring) (by omega) (by omega)]
        simp
      · rw [ih (i + 1) y (D + 2 * dy) k (by omega) (by omega)
          (by omega) hy (by rw [hD]; ring) (by omega) (by omega)]
        simp

theorem plotLineLow_getLast (x0 y0 x1 y1 : Int) (scale : K) (h : x0 ≤ x1)
    (hs : |y1 - y0| ≤ x1 - x0) :
    (plotLineLow x0 y0 x1 y1 scale).getLast? = some ((x1 : K) * scale, (y1 : K) * scale) := by
  rcases eq_or_lt_of_le h with heq | hlt
  · have hy : y1 = y0 := by
      have : |y1 - y0| ≤ 0 := by rw [heq] at hs; simpa using hs
      have := abs_nonpos_iff.mp this
      omega
    subst heq hy
    simp [plotLineLow, plotLineLowLoop]
  · unfold plotLineLow
    simp only []
    by_cases hneg : y1 - y0 < 0
    · simp only [if_pos hneg]
      rw [abs_of_neg hneg] at hs
      rw [plotLineLowLoop_getLast x0 y0 (x1 - x0) (-(y1 - y0)) (-1) scale (by omega) (by omega)
        hs _ 0 y0 _ 0 le_rfl (by omega) (by omega) (by ring) (by ring) (by omega) (by omega)]
      have e1 : x0 + (x1 - x0) = x1 := by ring
      have e2 : y0 + -1 * -(y1 - y0) = y1 := by ring
      rw [e1, e2]
    · simp only [if_neg hneg]
      rw [abs_of_nonneg (not_lt.mp hneg)] at hs
      rw [plotLineLowLoop_getLast x0 y0 (x1 - x0) (y1 - y0) 1 scale (by omega) (by omega)
        hs _ 0 y0 _ 0 le_rfl (by omega) (by omega) (by ring) (by ring) (by omega) (by omega)]
      have e1 : x0 + (x1 - x0) = x1 := by ring
      have e2 : y0 + 1 * (y1 - y0) = y1 := by ring
      rw [e1, e2]

theorem plotLineHigh_length (x0 y0 x1 y1 : Int) (scale : K) :
    (plotLineHigh x0 y0 x1 y1 scale).length = (y1 - y0 + 1).toNat := by
  rw [plotLineHigh_eq_swap, List.length_map, plotLineLow_length]

theorem plotLineHigh_head (x0 y0 x1 y1 : Int) (scale : K) (h : y0 ≤ y1) :
    (plotLineHigh x0 y0 x1 y1 scale).head? = some ((x0 : K) * scale, (y0 : K) * scale) := by
  rw [plotLineHigh_eq_swap, List.head?_map, plotLineLow_head _ _ _ _ _ h]
  rfl

theorem plotLineHigh_getLast (x0 y0 x1 y1 : Int) (scale : K) (h : y0 ≤ y1)
    (hs : |x1 - x0| ≤ y1 - y0) :
    (plotLineHigh x0 y0 x1 y1 scale).getLast? = some ((x1 : K) * scale, (y1 : K) * scale) := by
  rw [plotLineHigh_eq_swap, List.getLast?_map, plotLineLow_getLast _ _ _ _ _ h hs]
  rfl

/-- C1: for all integer endpoints `Bresenham_line` writes exactly
`max(|x1-x0|, |y1-y0|) + 1` points and returns six times that number (the float count);
when the two endpoints coincide it writes exactly one point. -/
theorem Bresenham_line_point_count (x0 y0 x1 y1 : Int) (scale : K) :
    ((Bresenham_line x0 y0 x1 y1 scale).2.length : Int) = max |x1 - x0| |y1 - y0| + 1 ∧
    (Bresenham_line x0 y0 x1 y1 scale).1 = 6 * (max |x1 - x0| |y1 - y0| + 1) ∧
    (Bresenham_line x0 y0 x0 y0 scale).2.length = 1 := by
  refine ⟨?_, ?_, ?_⟩
  · unfold Bresenham_line
    simp only []
    split_ifs with h1 h2 h3
    · rw [plotLineLow_length, max_eq_left h1.le, abs_of_neg (by omega)]; omega
    · rw [plotLineLow_length, max_eq_left h1.le, abs_of_nonneg (by omega)]; omega
    · rw [plotLineHigh_length, max_eq_right (not_lt.mp h1), abs_of_neg (by omega)]; omega
    · rw [plotLineHigh_length, max_eq_right (not_lt.mp h1), abs_of_nonneg (by omega)]; omega
  · unfold Bresenham_line
    simp only []
    by_cases h1 : |y1 - y0| < |x1 - x0|
    · simp only [if_pos h1]; rw [max_eq_left h1.le]; ring
    · simp only [if_neg h1]; rw [max_eq_right (not_lt.mp h1)]; ring
  · simp [Bresenham_line, plotLineHigh_length]

/-- C2: for all integer endpoints the first point written by `Bresenham_line` is the
(scaled) endpoint with the smaller coordinate on the driving axis, `x` when
`|dy| < |dx|` and `y` otherwise, and the last point written is the other (scaled)
endpoint. -/
theorem Bresenham_line_first_last (x0 y0 x1 y1 : Int) (scale : K) :
    (Bresenham_line x0 y0 x1 y1 scale).2.head? =
      some (if |y1 - y0| < |x1 - x0| then
          (if x0 > x1 then
            ((x1 : K) * (scale * 2 / ((MESH_NUM - 1 : Int) : K)),
             (y1 : K) * (scale * 2 / ((MESH_NUM - 1 : Int) : K)))
          else
            ((x0 : K) * (scale * 2 / ((MESH_NUM - 1 : Int) : K)),
             (y0 : K) * (scale * 2 / ((MESH_NUM - 1 : Int) : K))))
        else
          (if y0 > y1 then
            ((x1 : K) * (scale * 2 / ((MESH_NUM - 1 : Int) : K)),
             (y1 : K) * (scale * 2 / ((MESH_NUM - 1 : Int) : K)))
          else
            ((x0 : K) * (scale * 2 / ((MESH_NUM - 1 : Int) : K)),
             (y0 : K) * (scale * 2 / ((MESH_NUM - 1 : Int) : K))))) ∧
    (Bresenham_line x0 y0 x1 y1 scale).2.getLast? =
      some (if |y1 - y0| < |x1 - x0| then
          (if x0 > x1 then
            ((x0 : K) * (scale * 2 / ((MESH_NUM - 1 : Int) : K)),
             (y0 : K) * (scale * 2 / ((MESH_NUM - 1 : Int) : K)))
          else
            ((x1 : K) * (scale * 2 / ((MESH_NUM - 1 : Int) : K)),
             (y1 : K) * (scale * 2 / ((MESH_NUM - 1 : Int) : K))))
        else
          (if y0 > y1 then
            ((x0 : K) * (scale * 2 / ((MESH_NUM - 1 : Int) : K)),
             (y0 : K) * (scale * 2 / ((MESH_NUM - 1 : Int) : K)))
          else
            ((x1 : K) * (scale * 2 / ((MESH_NUM - 1 : Int) : K)),
             (y1 : K) * (scale * 2 / ((MESH_NUM - 1 : Int) : K))))) := by
  unfold Bresenham_line
  simp only []
  constructor
  · split_ifs with h1 h2 h3
    · exact plotLineLow_head _ _ _ _ _ (by omega)
    · exact plotLineLow_head _ _ _ _ _ (by omega)
    · exact plotLineHigh_head _ _ _ _ _ (by omega)
    · exact plotLineHigh_head _ _ _ _ _ (by omega)
  · split_ifs with h1 h2 h3
    · refine plotLineLow_getLast _ _ _ _ _ (by omega) ?_
      rw [abs_sub_comm y0 y1]
      rw [abs_of_neg (show x1 - x0 < 0 by omega)] at h1
      have : -(x1 - x0) = x0 - x1 := by ring
      omega
    · refine plotLineLow_getLast _ _ _ _ _ (by omega) ?_
      rw [abs_of_nonneg (show 0 ≤ x1 - x0 by omega)] at h1
      omega
    · refine plotLineHigh_getLast _ _ _ _ _ (by omega) ?_
      rw [abs_sub_comm x0 x1]
      have h1 := not_lt.mp h1
      rw [abs_of_neg (show y1 - y0 < 0 by omega)] at h1
      omega
    · refine plotLineHigh_getLast _ _ _ _ _ (by omega) ?_
      have h1 := not_lt.mp h1
      rw [abs_of_nonneg (show 0 ≤ y1 - y0 by omega)] at h1
      omega

end Homework3

/-! ## Bresenham circle rasteriser -/

namespace Homework3
variable {K : Type} [Field K]

theorem plot8CirclePoints_near (radius x y : Int) (scale : K) (h : NearCircle radius x y)
    (p : K × K) (hp : p ∈ plot8CirclePoints ((x : K) * scale) ((y : K) * scale)) :
    ∃ a b : Int, p = ((a : K) * scale, (b : K) * scale) ∧ NearCircle radius a b := by
  have hn : ∀ a b : Int, a ^ 2 + b ^ 2 = x ^ 2 + y ^ 2 → NearCircle radius a b := by
    intro a b e
    unfold NearCircle at *
    rw [e]
    exact h
  simp only [plot8CirclePoints, List.mem_cons, List.mem_singleton, List.not_mem_nil,
    or_false] at hp
  rcases hp with e | e | e | e | e | e | e | e
  · exact ⟨x, y, e, hn _ _ (by ring)⟩
  · exact ⟨-x, y, by rw [e]; push_cast; ring_nf, hn _ _ (by ring)⟩
  · exact ⟨-x, -y, by rw [e]; push_cast; ring_nf, hn _ _ (by ring)⟩
  · exact ⟨x, -y, by rw [e]; push_cast; ring_nf, hn _ _ (by ring)⟩
  · exact ⟨y, x, e, hn _ _ (by ring)⟩
  · exact ⟨-y, x, by rw [e]; push_cast; ring_nf, hn _ _ (by ring)⟩
  · exact ⟨-y, -x, by rw [e]; push_cast; ring_nf, hn _ _ (by ring)⟩
  · exact ⟨y, -x, by rw [e]; push_cast; ring_nf, hn _ _ (by ring)⟩

theorem circleStep_inv (radius : Int) (scale : K) (s : CircleState K)
    (hinv : CircleInv radius scale s) (hguard : s.y ≤ s.x) :
    CircleInv radius scale (circleStep scale s) := by
  obtain ⟨herr, hxc, hyc, hx, hy, hbound, hpts⟩ := hinv
  obtain ⟨hlo, hhi⟩ := hbound hguard
  have hnear : NearCircle radius s.x s.y := by
    unfold NearCircle
    rw [← herr]
    constructor <;> omega
  have hpts' : ∀ p ∈ s.points ++ plot8CirclePoints ((s.x : K) * scale) ((s.y : K) * scale),
      ∃ a b : Int, p = ((a : K) * scale, (b : K) * scale) ∧ NearCircle radius a b := by
    intro p hp
    rcases List.mem_append.mp hp with h | h
    · exact hpts p h
    · exact plot8CirclePoints_near radius s.x s.y scale hnear p h
  unfold circleStep
  simp only []
  split_ifs with hdec
  · refine ⟨?_, ?_, ?_, ?_, ?_, ?_, hpts'⟩
    · simp only [herr, hxc, hyc]; ring
    · simp only [hxc]; ring
    · simp only [hyc]; ring
    · simp only []; omega
    · simp only []; omega
    · simp only []
      intro hg
      constructor <;> omega
  · refine ⟨?_, ?_, ?_, ?_, ?_, ?_, hpts'⟩
    · simp only [herr, hyc]; ring
    · exact hxc
    · simp only [hyc]; ring
    · exact hx
    · simp only []; omega
    · simp only []
      intro hg
      constructor <;> omega

theorem circleLoop_inv (radius : Int) (scale : K) (fuel : Nat) (s : CircleState K)
    (hinv : CircleInv radius scale s) : CircleInv radius scale (circleLoop scale fuel s) := by
  induction fuel generalizing s with
  | zero => exact hinv
  | succ fuel ih =>
    simp only [circleLoop]
    split_ifs with hg
    · exact ih _ (circleStep_inv radius scale s hinv hg)
    · exact hinv

theorem circleStep_x_le (scale : K) (s : CircleState K) : (circleStep scale s).x ≤ s.x := by
  unfold circleStep
  simp only []
  split_ifs <;> simp

theorem circleStep_y (scale : K) (s : CircleState K) : (circleStep scale s).y = s.y + 1 := by
  unfold circleStep
  simp only []
  split_ifs <;> rfl

/-- With at least `x - y + 1` iterations of fuel the octant loop stops because its
condition `x >= y` fails, not for lack of fuel. -/
theorem circleLoop_exit (scale : K) (fuel : Nat) (s : CircleState K)
    (h : s.x - s.y + 1 ≤ (fuel : Int)) :
    (circleLoop scale fuel s).x < (circleLoop scale fuel s).y := by
  induction fuel generalizing s with
  | zero => simp only [circleLoop]; omega
  | succ fuel ih =>
    simp only [circleLoop]
    split_ifs with hg
    · apply ih
      have h1 := circleStep_x_le scale s
      have h2 := circleStep_y scale s
      push_cast at h
      omega
    · omega

/-- More fuel than needed does not change the result of the octant loop. -/
theorem circleLoop_fuel (scale : K) (fuel extra : Nat) (s : CircleState K)
    (h : s.x - s.y + 1 ≤ (fuel : Int)) :
    circleLoop scale (fuel + extra) s = circleLoop scale fuel s := by
  induction fuel generalizing s with
  | zero =>
    cases extra with
    | zero => rfl
    | succ e =>
      have : ¬ s.x ≥ s.y := by push_cast at h; omega
      simp [circleLoop, this]
  | succ fuel ih =>
    rw [Nat.add_right_comm]
    simp only [circleLoop]
    split_ifs with hg
    · apply ih
      have h1 := circleStep_x_le scale s
      have h2 := circleStep_y scale s
      push_cast at h
      omega
    · rfl


/-- The octant loop of `Bresenham_circle` always runs to the end with the fuel it is
given: the final state fails the loop condition `x >= y`. -/
theorem Bresenham_circle_loop_exit (radius : Int) (scale : K) :
    (circleLoop scale (radius + 1).toNat
      ({ x := radius, y := 0, xchange := 1 - 2 * radius, ychange := 1, radius_error := 0,
         count := 0, points := [] } : CircleState K)).x <
    (circleLoop scale (radius + 1).toNat
      ({ x := radius, y := 0, xchange := 1 - 2 * radius, ychange := 1, radius_error := 0,
         count := 0, points := [] } : CircleState K)).y := by
  apply circleLoop_exit
  simp only []
  omega

theorem NearCircle.dist_le (radius a b : Int) (hr : 0 ≤ radius) (h : NearCircle radius a b) :
    |Real.sqrt ((a : ℝ) ^ 2 + (b : ℝ) ^ 2) - (radius : ℝ)| ≤ 1 := by
  obtain ⟨hlo, hhi⟩ := h
  have hlo' : -(radius : ℝ) ≤ (a : ℝ) ^ 2 + (b : ℝ) ^ 2 - (radius : ℝ) ^ 2 := by
    exact_mod_cast hlo
  have hhi' : (a : ℝ) ^ 2 + (b : ℝ) ^ 2 - (radius : ℝ) ^ 2 ≤ (radius : ℝ) := by
    exact_mod_cast hhi
  have hr' : (0 : ℝ) ≤ (radius : ℝ) := by exact_mod_cast hr
  have hN : (0 : ℝ) ≤ (a : ℝ) ^ 2 + (b : ℝ) ^ 2 := by positivity
  rw [abs_le]
  constructor
  · rcases eq_or_lt_of_le hr with h0 | hpos
    · have : (radius : ℝ) = 0 := by exact_mod_cast h0.symm
      rw [this]
      have := Real.sqrt_nonneg ((a : ℝ) ^ 2 + (b : ℝ) ^ 2)
      linarith
    · have h1 : (1 : ℝ) ≤ (radius : ℝ) := by exact_mod_cast hpos
      have : (radius : ℝ) - 1 ≤ Real.sqrt ((a : ℝ) ^ 2 + (b : ℝ) ^ 2) := by
        rw [Real.le_sqrt (by linarith) hN]
        nlinarith
      linarith
  · have : Real.sqrt ((a : ℝ) ^ 2 + (b : ℝ) ^ 2) ≤ (radius : ℝ) + 1 := by
      rw [Real.sqrt_le_left (by linarith)]
      nlinarith
    linarith

/-- C6: for every `radius >= 0`, every point written by `Bresenham_circle` (all eight
reflections of every octant step) is a lattice point `(x, y)` multiplied by the scale,
and that lattice point lies within one unit of the ideal circle:
`|sqrt (x^2 + y^2) - radius| <= 1`. -/
theorem Bresenham_circle_within_one_unit (radius : Int) (hr : 0 ≤ radius) (scale : K)
    (p : K × K) (hp : p ∈ (Bresenham_circle radius scale).points) :
    ∃ x y : Int,
      p = ((x : K) * (scale * 2 / ((MESH_NUM - 1 : Int) : K)),
           (y : K) * (scale * 2 / ((MESH_NUM - 1 : Int) : K))) ∧
      |Real.sqrt ((x : ℝ) ^ 2 + (y : ℝ) ^ 2) - (radius : ℝ)| ≤ 1 := by
  have hinit : CircleInv radius (scale * 2 / ((MESH_NUM - 1 : Int) : K))
      ({ x := radius, y := 0, xchange := 1 - 2 * radius, ychange := 1, radius_error := 0,
         count := 0, points := [] } : CircleState K) := by
    refine ⟨?_, rfl, rfl, le_rfl, le_rfl, ?_, ?_⟩
    · simp
    · intro _
      simp only []
      constructor <;> omega
    · intro p hp
      simp at hp
  have hfin := circleLoop_inv radius _ (radius + 1).toNat _ hinit
  obtain ⟨a, b, hab, hnear⟩ := hfin.hpts p hp
  exact ⟨a, b, hab, NearCircle.dist_le radius a b hr hnear⟩

/-- Witness for C6: radius 1 at scale 10 (scale factor 1), the point `(0, -1)`. -/
theorem Bresenham_circle_within_one_unit_witness :
    ∃ x y : Int,
      ((0 : ℚ), (-1 : ℚ)) = ((x : ℚ) * ((10 : ℚ) * 2 / ((MESH_NUM - 1 : Int) : ℚ)),
           (y : ℚ) * ((10 : ℚ) * 2 / ((MESH_NUM - 1 : Int) : ℚ))) ∧
      |Real.sqrt ((x : ℝ) ^ 2 + (y : ℝ) ^ 2) - ((1 : Int) : ℝ)| ≤ 1 :=
  Bresenham_circle_within_one_unit 1 (by decide) (10 : ℚ) (0, -1)
    (by norm_num [Bresenham_circle, circleLoop, circleStep, plot8CirclePoints, MESH_NUM])

end Homework3

/-! ## Bernstein weights and Bezier evaluation -/

namespace Homework8
variable {K : Type} [Field K]

theorem BernsteinLoop_eq (i n : Nat) (hin : i ≤ n) (fuel k : Nat) (hk : k ≤ fuel + 1)
    (a b c : K) :
    BernsteinLoop (i : Int) (n : Int) fuel (k : Int) (a, b, c) =
      (a * (k.factorial : K), b * ((min k i).factorial : K), c * ((min k (n - i)).factorial : K)) := by
  induction fuel generalizing k a b c with
  | zero =>
    have h1 : k.factorial = 1 := by interval_cases k <;> rfl
    have h2 : (min k i).factorial = 1 := by
      have : min k i ≤ 1 := le_trans (min_le_left _ _) hk
      interval_cases (min k i) <;> rfl
    have h3 : (min k (n - i)).factorial = 1 := by
      have : min k (n - i) ≤ 1 := le_trans (min_le_left _ _) hk
      interval_cases (min k (n - i)) <;> rfl
    simp [BernsteinLoop, h1, h2, h3]
  | succ fuel ih =>
    by_cases hgt : 1 < k
    · obtain ⟨k', rfl⟩ : ∃ k', k = k' + 1 := ⟨k - 1, by omega⟩
      have hcast : (((k' + 1 : Nat) : Int) - 1) = (k' : Int) := by push_cast; ring
      have hg : ((k' + 1 : Nat) : Int) > 1 := by omega
      simp only [BernsteinLoop, if_pos hg, hcast]
      rw [ih k' (by omega)]
      have e1 : (((k' + 1 : Nat) : Int) : K) = ((k' + 1 : Nat) : K) := by norm_cast
      refine Prod.ext ?_ (Prod.ext ?_ ?_)
      · simp only [e1, Nat.factorial_succ]
        push_cast
        ring
      · by_cases hle : k' + 1 ≤ i
        · have hle' : ((k' + 1 : Nat) : Int) ≤ (i : Int) := by omega
          simp only [if_pos hle', e1]
          rw [min_eq_left hle, min_eq_left (by omega : k' ≤ i), Nat.factorial_succ]
          push_cast
          ring
        · have hle' : ¬ ((k' + 1 : Nat) : Int) ≤ (i : Int) := by omega
          simp only [if_neg hle']
          rw [min_eq_right (by omega : i ≤ k' + 1), min_eq_right (by omega : i ≤ k')]
      · by_cases hle : k' + 1 ≤ n - i
        · have hle' : ((k' + 1 : Nat) : Int) ≤ (n : Int) - (i : Int) := by omega
          simp only [if_pos hle', e1]
          rw [min_eq_left hle, min_eq_left (by omega : k' ≤ n - i), Nat.factorial_succ]
          push_cast
          ring
        · have hle' : ¬ ((k' + 1 : Nat) : Int) ≤ (n : Int) - (i : Int) := by omega
          simp only [if_neg hle']
          rw [min_eq_right (by omega : n - i ≤ k' + 1), min_eq_right (by omega : n - i ≤ k')]
    · have hg : ¬ ((k : Nat) : Int) > 1 := by omega
      have h1 : k.factorial = 1 := by interval_cases k <;> rfl
      have h2 : (min k i).factorial = 1 := by
        have : min k i ≤ 1 := le_trans (min_le_left _ _) (by omega)
        interval_cases (min k i) <;> rfl
      have h3 : (min k (n - i)).factorial = 1 := by
        have : min k (n - i) ≤ 1 := le_trans (min_le_left _ _) (by omega)
        interval_cases (min k (n - i)) <;> rfl
      simp [BernsteinLoop, hg, h1, h2, h3]

theorem BernsteinLoop_factorials (i n : Nat) (hin : i ≤ n) :
    BernsteinLoop (K := K) (i : Int) (n : Int) ((n : Int) - 1).toNat (n : Int) (1, 1, 1) =
      ((n.factorial : K), (i.factorial : K), ((n - i).factorial : K)) := by
  rw [BernsteinLoop_eq i n hin _ n (by omega)]
  rw [min_eq_right hin, min_eq_right (Nat.sub_le n i)]
  simp

theorem Bernstein_eq [CharZero K] (t : K) (i n : Nat) (hin : i ≤ n) :
    Bernstein t (i : Int) (n : Int) = (n.choose i : K) * t ^ i * (1 - t) ^ (n - i) := by
  unfold Bernstein
  simp only [BernsteinLoop_factorials i n hin]
  have e : (n : Int) - (i : Int) = ((n - i : Nat) : Int) := by omega
  rw [e, zpow_natCast, zpow_natCast, Nat.cast_choose K hin]
  ring

theorem evaluateLoop_eq (t : K) (n : Int) (points : List (Point K)) (i : Int) (cx cy : K) :
    evaluateLoop t n points i (cx, cy) =
      (cx + ∑ j in Finset.range points.length,
          (points.map Point.x).getD j 0 * Bernstein t (i + (j : Int)) n,
       cy + ∑ j in Finset.range points.length,
          (points.map Point.y).getD j 0 * Bernstein t (i + (j : Int)) n) := by
  induction points generalizing i cx cy with
  | nil => simp [evaluateLoop]
  | cons p rest ih =>
    simp only [evaluateLoop, ih, List.length_cons, List.map_cons]
    rw [Finset.sum_range_succ', Finset.sum_range_succ']
    have e : ∀ j : Nat, i + 1 + (j : Int) = i + ((j + 1 : Nat) : Int) := by
      intro j; push_cast; ring
    simp only [e, List.getD_cons_succ, List.getD_cons_zero, Nat.cast_zero, add_zero]
    refine Prod.ext ?_ ?_ <;> simp only [] <;> ring

/-- The Bernstein evaluation of `main` as a sum: `Σ_j P_j * Bernstein(t, j, size - 1)`. -/
theorem evaluate_eq_sum (t : K) (points : List (Point K)) :
    evaluate t points =
      ⟨∑ j in Finset.range points.length,
          (points.map Point.x).getD j 0 * Bernstein t (j : Int) ((points.length : Int) - 1),
       ∑ j in Finset.range points.length,
          (points.map Point.y).getD j 0 * Bernstein t (j : Int) ((points.length : Int) - 1)⟩ := by
  simp only [evaluate]
  rw [evaluateLoop_eq]
  simp only [zero_add]

theorem Bernstein_zero_one (t : K) : Bernstein t 0 1 = 1 - t := by
  simp [Bernstein, BernsteinLoop]

theorem Bernstein_one_one (t : K) : Bernstein t 1 1 = t := by
  simp [Bernstein, BernsteinLoop]

/-- C5: for all `0 <= i <= n` the loop of `Bernstein` computes `nFactorial = n!`,
`iFactorial = i!` and `niFactorial = (n-i)!`, and `Bernstein(t, i, n)` equals
`C(n,i) * t^i * (1-t)^(n-i)` with `C(n,i)` the binomial coefficient. -/
theorem Bernstein_eq_binomial [CharZero K] (t : K) (i n : Nat) (hin : i ≤ n) :
    BernsteinLoop (K := K) (i : Int) (n : Int) ((n : Int) - 1).toNat (n : Int) (1, 1, 1) =
      ((n.factorial : K), (i.factorial : K), ((n - i).factorial : K)) ∧
    Bernstein t (i : Int) (n : Int) =
      (n.factorial : K) * t ^ i * (1 - t) ^ (n - i) / ((i.factorial : K) * ((n - i).factorial : K)) ∧
    Bernstein t (i : Int) (n : Int) = (n.choose i : K) * t ^ i * (1 - t) ^ (n - i) := by
  refine ⟨BernsteinLoop_factorials i n hin, ?_, Bernstein_eq t i n hin⟩
  rw [Bernstein_eq t i n hin, Nat.cast_choose K hin]
  ring

/-- Witness for C5: `Bernstein(1/3, 2, 5) = C(5,2) (1/3)^2 (2/3)^3`. -/
theorem Bernstein_eq_binomial_witness :
    BernsteinLoop (K := ℚ) ((2 : Nat) : Int) ((5 : Nat) : Int) (((5 : Nat) : Int) - 1).toNat
        ((5 : Nat) : Int) (1, 1, 1) =
      (((5 : Nat).factorial : ℚ), ((2 : Nat).factorial : ℚ), (((5 : Nat) - 2).factorial : ℚ)) ∧
    Bernstein (1 / 3 : ℚ) ((2 : Nat) : Int) ((5 : Nat) : Int) =
      ((5 : Nat).factorial : ℚ) * (1 / 3 : ℚ) ^ 2 * (1 - 1 / 3 : ℚ) ^ (5 - 2) /
        (((2 : Nat).factorial : ℚ) * (((5 : Nat) - 2).factorial : ℚ)) ∧
    Bernstein (1 / 3 : ℚ) ((2 : Nat) : Int) ((5 : Nat) : Int) =
      ((5 : Nat).choose 2 : ℚ) * (1 / 3 : ℚ) ^ 2 * (1 - 1 / 3 : ℚ) ^ (5 - 2) :=
  Bernstein_eq_binomial (1 / 3 : ℚ) 2 5 (by decide)

/-- C10: for a control polygon of two points `P0, P1` and every `t`, the Bernstein
evaluation is the linear interpolation `(1-t)*P0 + t*P1`. -/
theorem evaluate_two_points (t : K) (P0 P1 : Point K) :
    evaluate t [P0, P1] =
      ⟨(1 - t) * P0.x + t * P1.x, (1 - t) * P0.y + t * P1.y⟩ := by
  have h0 : Bernstein t 0 1 = 1 - t := Bernstein_zero_one t
  have h1 : Bernstein t 1 1 = t := Bernstein_one_one t
  simp only [evaluate, evaluateLoop, List.length_cons, List.length_nil]
  norm_num [h0, h1]
  constructor <;> ring

theorem Bernstein_at_zero [CharZero K] (j n : Nat) (h : j ≤ n) :
    Bernstein (0 : K) (j : Int) (n : Int) = if j = 0 then 1 else 0 := by
  rw [Bernstein_eq _ j n h]
  rcases Nat.eq_zero_or_pos j with h0 | hpos
  · subst h0; simp
  · simp [Nat.pos_iff_ne_zero.mp hpos]

theorem Bernstein_at_one [CharZero K] (j n : Nat) (h : j ≤ n) :
    Bernstein (1 : K) (j : Int) (n : Int) = if j = n then 1 else 0 := by
  rw [Bernstein_eq _ j n h]
  rcases eq_or_lt_of_le h with h0 | hlt
  · subst h0; simp
  · have : n - j ≠ 0 := by omega
    simp [this, Nat.ne_of_lt hlt]

/-- In exact arithmetic, for a control polygon of at least two points the Bernstein
evaluation at `t = 0` is the first control point and at `t = 1` the last control point. -/
theorem evaluate_endpoints [CharZero K] (points : List (Point K)) (h : 2 ≤ points.length) :
    some (evaluate 0 points) = points.head? ∧ some (evaluate 1 points) = points.getLast? := by
  obtain ⟨m, hm⟩ : ∃ m : Nat, points.length = m + 1 := ⟨points.length - 1, by omega⟩
  have hn : (points.length : Int) - 1 = (m : Int) := by rw [hm]; push_cast; ring
  constructor
  · rw [evaluate_eq_sum, hn, hm]
    have hx : ∀ (f : Point K → K), ∑ j in Finset.range (m + 1),
        (points.map f).getD j 0 * Bernstein (0 : K) (j : Int) (m : Int) =
        (points.map f).getD 0 0 := by
      intro f
      rw [Finset.sum_eq_single 0]
      · rw [Bernstein_at_zero 0 m (Nat.zero_le _)]; simp
      · intro j hj hj0
        rw [Bernstein_at_zero j m (by simpa [Nat.lt_succ_iff] using hj)]
        simp [hj0]
      · intro h0; simp at h0
    rw [hx, hx]
    cases points with
    | nil => simp at hm
    | cons p rest => simp
  · rw [evaluate_eq_sum, hn, hm]
    have hx : ∀ (f : Point K → K), ∑ j in Finset.range (m + 1),
        (points.map f).getD j 0 * Bernstein (1 : K) (j : Int) (m : Int) =
        (points.map f).getD m 0 := by
      intro f
      rw [Finset.sum_eq_single m]
      · rw [Bernstein_at_one m m le_rfl]; simp
      · intro j hj hjm
        rw [Bernstein_at_one j m (by simpa [Nat.lt_succ_iff] using hj)]
        simp [hjm]
      · intro h0; simp at h0
    rw [hx, hx, List.getLast?_eq_getElem?, hm, Nat.add_sub_cancel]
    have hlt : m < points.length := by omega
    simp [List.getD_eq_getElem?_getD, List.getElem?_eq_getElem hlt]

/-- An instance of `evaluate_endpoints`: a control polygon of three points. -/
theorem evaluate_endpoints_witness :
    some (evaluate 0 [(⟨0, 0⟩ : Point ℚ), ⟨1, 2⟩, ⟨3, 1⟩]) =
        [(⟨0, 0⟩ : Point ℚ), ⟨1, 2⟩, ⟨3, 1⟩].head? ∧
      some (evaluate 1 [(⟨0, 0⟩ : Point ℚ), ⟨1, 2⟩, ⟨3, 1⟩]) =
        [(⟨0, 0⟩ : Point ℚ), ⟨1, 2⟩, ⟨3, 1⟩].getLast? :=
  evaluate_endpoints [(⟨0, 0⟩ : Point ℚ), ⟨1, 2⟩, ⟨3, 1⟩] (by decide)

end Homework8

/-! ## De Casteljau subdivision -/

namespace Homework8
variable {K : Type} [Field K]

theorem bweight_succ_succ (t : K) (k i : Nat) :
    bweight t (k + 1) (i + 1) = (1 - t) * bweight t k (i + 1) + t * bweight t k i := by
  unfold bweight
  rw [Nat.choose_succ_succ, Nat.succ_sub_succ]
  by_cases h : i < k
  · have e : k - i = (k - (i + 1)) + 1 := by omega
    rw [e]
    push_cast
    ring
  · have h0 : k.choose (i + 1) = 0 := Nat.choose_eq_zero_of_lt (by omega)
    rw [h0]
    push_cast
    ring

theorem bweight_succ_zero (t : K) (k : Nat) :
    bweight t (k + 1) 0 = (1 - t) * bweight t k 0 := by
  unfold bweight
  simp
  ring

theorem bweight_of_lt (t : K) (k i : Nat) (h : k < i) : bweight t k i = 0 := by
  unfold bweight
  rw [Nat.choose_eq_zero_of_lt h]
  simp

/-- Pascal's rule for the weighted sums: one interpolation step lowers the degree. -/
theorem bweight_sum_step (t : K) (k : Nat) (f : Nat → K) :
    ∑ i in Finset.range (k + 2), bweight t (k + 1) i * f i =
      ∑ i in Finset.range (k + 1), bweight t k i * ((1 - t) * f i + t * f (i + 1)) := by
  have h1 : ∑ i in Finset.range (k + 1), bweight t k i * f i =
      ∑ i in Finset.range k, bweight t k (i + 1) * f (i + 1) + bweight t k 0 * f 0 :=
    Finset.sum_range_succ' _ _
  have h2 : ∑ i in Finset.range (k + 1), bweight t k (i + 1) * f (i + 1) =
      ∑ i in Finset.range k, bweight t k (i + 1) * f (i + 1) := by
    rw [Finset.sum_range_succ, bweight_of_lt t k (k + 1) (Nat.lt_succ_self k)]
    simp
  rw [Finset.sum_range_succ']
  simp only [bweight_succ_succ, bweight_succ_zero, mul_add, add_mul, Finset.sum_add_distrib]
  simp only [mul_assoc, ← Finset.mul_sum]
  rw [h2]
  have h3 : ∑ i in Finset.range (k + 1), bweight t k i * (t * f (i + 1)) =
      t * ∑ i in Finset.range (k + 1), bweight t k i * f (i + 1) := by
    rw [Finset.mul_sum]
    exact Finset.sum_congr rfl (fun i _ => by ring)
  have h4 : ∑ i in Finset.range (k + 1), bweight t k i * ((1 - t) * f i) =
      (1 - t) * ∑ i in Finset.range (k + 1), bweight t k i * f i := by
    rw [Finset.mul_sum]
    exact Finset.sum_congr rfl (fun i _ => by ring)
  rw [h3, h4, h1]
  ring

theorem subdivideRow_length (T : K) (points : List (Point K)) :
    (subdivideRow T points).length = points.length - 1 := by
  induction points with
  | nil => rfl
  | cons p rest ih =>
    cases rest with
    | nil => rfl
    | cons q rest =>
      simp only [subdivideRow, List.length_cons, ih]
      rfl

theorem subdivideRow_getD (T : K) (c : Point K → K)
    (hc : ∀ (b0 b1 : K) (p q : Point K),
      c ⟨b0 * p.x + b1 * q.x, b0 * p.y + b1 * q.y⟩ = b0 * c p + b1 * c q)
    (points : List (Point K)) (i : Nat) (h : i + 1 < points.length) :
    ((subdivideRow T points).map c).getD i 0 =
      (1 - T) * (points.map c).getD i 0 + T * (points.map c).getD (i + 1) 0 := by
  induction points generalizing i with
  | nil => simp at h
  | cons p rest ih =>
    cases rest with
    | nil => simp at h
    | cons q rest =>
      cases i with
      | zero =>
        simp [subdivideRow, hc, Bernstein_zero_one, Bernstein_one_one]
      | succ i =>
        have h' : i + 1 < (q :: rest).length := by simpa using h
        have := ih i h'
        simp only [subdivideRow, List.map_cons, List.getD_cons_succ] at this ⊢
        exact this

/-- The point left by the subdivision loop, coordinate by coordinate. -/
theorem subdivideLoop_final (T : K) (m : Nat) (fuel : Nat) (points : List (Point K))
    (hlen : points.length = m + 1) (hfuel : m ≤ fuel) :
    ∃ q : Point K, (subdivideLoop T fuel points).2 = [q] ∧
      q.x = ∑ i in Finset.range (m + 1), bweight T m i * (points.map Point.x).getD i 0 ∧
      q.y = ∑ i in Finset.range (m + 1), bweight T m i * (points.map Point.y).getD i 0 := by
  induction m generalizing fuel points with
  | zero =>
    obtain ⟨p, rfl⟩ : ∃ p, points = [p] := by
      cases points with
      | nil => simp at hlen
      | cons p rest =>
        cases rest with
        | nil => exact ⟨p, rfl⟩
        | cons q rest => simp at hlen
    refine ⟨p, ?_, ?_, ?_⟩
    · cases fuel <;> simp [subdivideLoop]
    · simp [bweight]
    · simp [bweight]
  | succ m ih =>
    obtain ⟨fuel, rfl⟩ : ∃ f, fuel = f + 1 := ⟨fuel - 1, by omega⟩
    have hg : points.length > 1 := by omega
    have hrow : (subdivideRow T points).length = m + 1 := by
      rw [subdivideRow_length, hlen]; rfl
    obtain ⟨q, hq, hqx, hqy⟩ := ih fuel (subdivideRow T points) hrow (by omega)
    refine ⟨q, ?_, ?_, ?_⟩
    · simp only [subdivideLoop, if_pos hg]
      exact hq
    · rw [hqx, bweight_sum_step]
      refine Finset.sum_congr rfl (fun i hi => ?_)
      rw [subdivideRow_getD T Point.x (fun _ _ _ _ => rfl) points i
        (by have := Finset.mem_range.mp hi; omega)]
    · rw [hqy, bweight_sum_step]
      refine Finset.sum_congr rfl (fun i hi => ?_)
      rw [subdivideRow_getD T Point.y (fun _ _ _ _ => rfl) points i
        (by have := Finset.mem_range.mp hi; omega)]

/-- C3: for every non-empty control polygon and every `t` (in particular every `t` in
`[0,1]`), the subdivision loop ends with exactly one point, and that point is the direct
Bernstein sum `Σ_i P_i * Bernstein(t, i, n)`, `n = size - 1`, in exact arithmetic. -/
theorem subdivide_eq_evaluate [CharZero K] (t : K) (points : List (Point K))
    (h : points ≠ []) :
    (subdivide t points).2 = [evaluate t points] := by
  obtain ⟨m, hm⟩ : ∃ m : Nat, points.length = m + 1 :=
    ⟨points.length - 1, by have := List.length_pos.mpr h; omega⟩
  obtain ⟨q, hq, hqx, hqy⟩ := subdivideLoop_final t m points.length points hm (by omega)
  have hn : (points.length : Int) - 1 = (m : Int) := by rw [hm]; push_cast; ring
  unfold subdivide
  rw [hq, evaluate_eq_sum, hn, hm]
  have key : ∀ c : Point K → K,
      ∑ i in Finset.range (m + 1), bweight t m i * (points.map c).getD i 0 =
      ∑ j in Finset.range (m + 1), (points.map c).getD j 0 * Bernstein t (j : Int) (m : Int) := by
    intro c
    refine Finset.sum_congr rfl (fun i hi => ?_)
    rw [Bernstein_eq t i m (by have := Finset.mem_range.mp hi; omega)]
    unfold bweight
    ring
  rw [← key, ← key, ← hqx, ← hqy]

/-- Witness for C3: a control polygon of four points at `t = 1/3`. -/
theorem subdivide_eq_evaluate_witness :
    (subdivide (1 / 3 : ℚ) [⟨0, 0⟩, ⟨1, 2⟩, ⟨3, 1⟩, ⟨4, 4⟩]).2 =
      [evaluate (1 / 3 : ℚ) [⟨0, 0⟩, ⟨1, 2⟩, ⟨3, 1⟩, ⟨4, 4⟩]] :=
  subdivide_eq_evaluate (1 / 3 : ℚ) [⟨0, 0⟩, ⟨1, 2⟩, ⟨3, 1⟩, ⟨4, 4⟩] (by simp)

end Homework8

/-! ## Camera -/

namespace Homework5
namespace Camera
variable {K : Type} [LinearOrderedField K]

theorem updateCameraVectors_Pitch (M : MathLib K) (c : Camera K) :
    (updateCameraVectors M c).Pitch = c.Pitch := rfl

theorem updateCameraVectors_WorldUp (M : MathLib K) (c : Camera K) :
    (updateCameraVectors M c).WorldUp = c.WorldUp := rfl

theorem processMouseMovement_WorldUp (M : MathLib K) (c : Camera K) (xoffset yoffset : K)
    (constrainPitch : Bool) :
    (processMouseMovement M c xoffset yoffset constrainPitch).WorldUp = c.WorldUp := rfl

theorem processMouseMovements_append (M : MathLib K) (c : Camera K)
    (calls : List (K × K × Bool)) (a : K × K × Bool) :
    processMouseMovements M c (calls ++ [a]) =
      processMouseMovement M (processMouseMovements M c calls) a.1 a.2.1 a.2.2 := by
  simp [processMouseMovements, List.foldl_append]

theorem processMouseMovement_pitch_constrained (M : MathLib K) (c : Camera K)
    (xoffset yoffset : K) :
    -89 ≤ (processMouseMovement M c xoffset yoffset true).Pitch ∧
      (processMouseMovement M c xoffset yoffset true).Pitch ≤ 89 := by
  simp only [processMouseMovement, updateCameraVectors_Pitch, if_true]
  split_ifs with h1 h2 h3
  · exact ⟨le_rfl, by norm_num⟩
  · exact ⟨by norm_num, le_rfl⟩
  · exact ⟨le_rfl, by norm_num⟩
  · exact ⟨not_lt.mp h3, not_lt.mp h1⟩

/-- C7: for every prior camera state and all offsets, after `processMouseMovement` with
`constrainPitch = true` the field `Pitch` lies in `[-89, 89]`; hence the same holds after
every non-empty sequence of such calls, whatever the accumulated offsets. -/
theorem processMouseMovement_pitch_in_range (M : MathLib K) (c : Camera K)
    (xoffset yoffset : K) (more : List (K × K)) :
    (-89 ≤ (processMouseMovement M c xoffset yoffset true).Pitch ∧
      (processMouseMovement M c xoffset yoffset true).Pitch ≤ 89) ∧
    (-89 ≤ (processMouseMovements M c
        ((xoffset, yoffset, true) :: more.map (fun a => (a.1, a.2, true)))).Pitch ∧
      (processMouseMovements M c
        ((xoffset, yoffset, true) :: more.map (fun a => (a.1, a.2, true)))).Pitch ≤ 89) := by
  refine ⟨processMouseMovement_pitch_constrained M c xoffset yoffset, ?_⟩
  rcases List.eq_nil_or_concat more with hnil | ⟨init, a, rfl⟩
  · subst hnil
    exact processMouseMovement_pitch_constrained M c xoffset yoffset
  · rw [List.concat_eq_append, List.map_append, List.map_singleton, ← List.cons_append,
      processMouseMovements_append]
    exact processMouseMovement_pitch_constrained M _ _ _

/-- C8: for every prior value of `Zoom` and every `yoffset`, after `processMouseScroll`
the field `Zoom` lies in `[1, 60]`. -/
theorem processMouseScroll_zoom_in_range (c : Camera K) (yoffset : K) :
    1 ≤ (processMouseScroll c yoffset).Zoom ∧ (processMouseScroll c yoffset).Zoom ≤ 60 := by
  simp only [processMouseScroll]
  split_ifs with h1 h2 h3 h4 h5 h6 h7 <;> constructor <;> norm_num <;> linarith

end Camera
end Homework5

namespace Homework5

namespace Vec3
variable {K : Type} [Field K]

theorem dot_smul_left (a b : Vec3 K) (k : K) : dot (smul a k) b = k * dot a b := by
  simp only [dot, smul]; ring

theorem dot_smul_right (a b : Vec3 K) (k : K) : dot a (smul b k) = k * dot a b := by
  simp only [dot, smul]; ring

theorem dot_cross_self_left (a b : Vec3 K) : dot a (cross a b) = 0 := by
  simp only [dot, cross]; ring

theorem dot_cross_self_right (a b : Vec3 K) : dot b (cross a b) = 0 := by
  simp only [dot, cross]; ring

/-- Lagrange's identity. -/
theorem dot_cross_cross (a b : Vec3 K) :
    dot (cross a b) (cross a b) = dot a a * dot b b - dot a b ^ 2 := by
  simp only [dot, cross]; ring

theorem dot_comm (a b : Vec3 K) : dot a b = dot b a := by
  simp only [dot]; ring

theorem normalize_dot_self (M : MathLib K) (v : Vec3 K)
    (hs : M.sqrt (dot v v) * M.sqrt (dot v v) = dot v v) (hv : dot v v ≠ 0) :
    dot (normalize M v) (normalize M v) = 1 := by
  have hr : M.sqrt (dot v v) ≠ 0 := by
    intro h0
    rw [h0, mul_zero] at hs
    exact hv hs.symm
  unfold normalize
  rw [dot_smul_left, dot_smul_right]
  have : 1 / M.sqrt (dot v v) * (1 / M.sqrt (dot v v) * dot v v) =
      dot v v / (M.sqrt (dot v v) * M.sqrt (dot v v)) := by
    field_simp
  rw [this, hs, div_self hv]

end Vec3

namespace Camera
variable {K : Type} [LinearOrderedField K]

/-- Whenever `cos(radians(Pitch))` is not zero, `updateCameraVectors` on a camera with
world-up `(0,1,0)` yields an orthonormal triple.  The math library enters through the
two facts `sqrt a * sqrt a = a` for `a >= 0` and `cos^2 + sin^2 = 1`. -/
theorem updateCameraVectors_orthonormal (M : MathLib K)
    (hsqrt : ∀ a : K, 0 ≤ a → M.sqrt a * M.sqrt a = a)
    (htrig : ∀ a : K, M.cos a ^ 2 + M.sin a ^ 2 = 1)
    (c : Camera K) (hW : c.WorldUp = ⟨0, 1, 0⟩) (hcos : M.cos (radians M c.Pitch) ≠ 0) :
    Orthonormal (updateCameraVectors M c) := by
  set cp := M.cos (radians M c.Pitch) with hcp
  set sp := M.sin (radians M c.Pitch) with hsp
  set cy := M.cos (radians M c.Yaw) with hcy
  set sy := M.sin (radians M c.Yaw) with hsy
  have h1 : cp ^ 2 + sp ^ 2 = 1 := htrig _
  have h2 : cy ^ 2 + sy ^ 2 = 1 := htrig _
  set front : Vec3 K := ⟨cp * cy, sp, cp * sy⟩ with hfront
  have hff : Vec3.dot front front = 1 := by
    simp only [Vec3.dot, hfront]
    linear_combination cp ^ 2 * h2 + h1
  have hs1 : M.sqrt 1 * M.sqrt 1 = 1 := hsqrt 1 zero_le_one
  have hs1ne : M.sqrt 1 ≠ 0 := by
    intro h0; rw [h0, mul_zero] at hs1; exact zero_ne_one hs1
  set F := Vec3.normalize M front with hF
  have hFF : Vec3.dot F F = 1 :=
    Vec3.normalize_dot_self M front (by rw [hff]; exact hs1) (by rw [hff]; exact one_ne_zero)
  have hFy : F.y ^ 2 = sp ^ 2 := by
    simp only [hF, Vec3.normalize, Vec3.smul, hff]
    rw [mul_pow, div_pow, one_pow, sq (M.sqrt 1), hs1, div_one, mul_one]
  set v1 := Vec3.cross F c.WorldUp with hv1
  have hv1d : Vec3.dot v1 v1 = cp ^ 2 := by
    rw [hv1, Vec3.dot_cross_cross, hFF, hW]
    simp only [Vec3.dot]
    have : (1 : K) * (0 * 0 + 1 * 1 + 0 * 0) - (F.x * 0 + F.y * 1 + F.z * 0) ^ 2 =
        1 - F.y ^ 2 := by ring
    rw [this, hFy]
    linear_combination -h1
  have hcp2 : (0 : K) < cp ^ 2 := by positivity
  set R := Vec3.normalize M v1 with hR
  have hRR : Vec3.dot R R = 1 :=
    Vec3.normalize_dot_self M v1 (hsqrt _ (by rw [hv1d]; exact hcp2.le))
      (by rw [hv1d]; exact hcp2.ne')
  have hFR : Vec3.dot F R = 0 := by
    rw [hR, Vec3.normalize, Vec3.dot_smul_right, hv1, Vec3.dot_cross_self_left, mul_zero]
  set v2 := Vec3.cross R F with hv2
  have hv2d : Vec3.dot v2 v2 = 1 := by
    rw [hv2, Vec3.dot_cross_cross, hRR, hFF, Vec3.dot_comm R F, hFR]
    ring
  set U := Vec3.normalize M v2 with hU
  have hUU : Vec3.dot U U = 1 :=
    Vec3.normalize_dot_self M v2 (by rw [hv2d]; exact hs1) (by rw [hv2d]; exact one_ne_zero)
  have hFU : Vec3.dot F U = 0 := by
    rw [hU, Vec3.normalize, Vec3.dot_smul_right, hv2, Vec3.dot_cross_self_right, mul_zero]
  have hRU : Vec3.dot R U = 0 := by
    rw [hU, Vec3.normalize, Vec3.dot_smul_right, hv2, Vec3.dot_cross_self_left, mul_zero]
  exact ⟨hFF, hRR, hUU, hFR, hFU, hRU⟩

/-- When `cos(radians(Pitch))` is zero and world-up is `(0,1,0)`, `Front` is parallel to
world-up, their cross product vanishes and `Right` is the zero vector. -/
theorem updateCameraVectors_Right_zero (M : MathLib K) (c : Camera K)
    (hW : c.WorldUp = ⟨0, 1, 0⟩) (hcos : M.cos (radians M c.Pitch) = 0) :
    (updateCameraVectors M c).Right = ⟨0, 0, 0⟩ := by
  simp [updateCameraVectors, hW, hcos, Vec3.normalize, Vec3.cross, Vec3.smul]

theorem processMouseMovements_WorldUp (M : MathLib K) (c : Camera K)
    (calls : List (K × K × Bool)) :
    (processMouseMovements M c calls).WorldUp = c.WorldUp := by
  induction calls generalizing c with
  | nil => rfl
  | cons a rest ih =>
    simp only [processMouseMovements, List.foldl_cons] at ih ⊢
    rw [ih, processMouseMovement_WorldUp]

/-- Every state reached from a constructed camera is the result of
`updateCameraVectors` on a state with the same `WorldUp` and `Pitch`. -/
theorem processMouseMovements_eq_update (M : MathLib K) (position up : Vec3 K) (yaw pitch : K)
    (calls : List (K × K × Bool)) :
    ∃ c' : Camera K, c'.WorldUp = up ∧
      processMouseMovements M (Camera.new M position up yaw pitch) calls =
        updateCameraVectors M c' := by
  rcases List.eq_nil_or_concat calls with hnil | ⟨init, a, rfl⟩
  · subst hnil
    exact ⟨_, rfl, rfl⟩
  · rw [List.concat_eq_append, processMouseMovements_append]
    refine ⟨_, ?_, rfl⟩
    show (processMouseMovements M (Camera.new M position up yaw pitch) init).WorldUp = up
    rw [processMouseMovements_WorldUp]
    rfl

/-- Away from the pole: for a camera constructed with world-up `(0,1,0)`, after any
sequence of `processMouseMovement` calls (any offsets, any `constrainPitch` flags),
`Front`, `Right`, `Up` are mutually orthogonal and of unit length in exact real
arithmetic, provided `cos(radians(Pitch))` is not zero in the resulting state, that is,
`Front` is not parallel to world-up. -/
theorem processMouseMovements_orthonormal (position : Vec3 ℝ) (yaw pitch : ℝ)
    (calls : List (ℝ × ℝ × Bool))
    (h : Real.cos (radians ⟨Real.cos, Real.sin, Real.sqrt, Real.pi⟩
      (processMouseMovements ⟨Real.cos, Real.sin, Real.sqrt, Real.pi⟩
        (Camera.new ⟨Real.cos, Real.sin, Real.sqrt, Real.pi⟩ position ⟨0, 1, 0⟩ yaw pitch)
        calls).Pitch) ≠ 0) :
    Orthonormal (processMouseMovements ⟨Real.cos, Real.sin, Real.sqrt, Real.pi⟩
      (Camera.new ⟨Real.cos, Real.sin, Real.sqrt, Real.pi⟩ position ⟨0, 1, 0⟩ yaw pitch)
      calls) := by
  obtain ⟨c', hW, he⟩ := processMouseMovements_eq_update
    (⟨Real.cos, Real.sin, Real.sqrt, Real.pi⟩ : MathLib ℝ) position ⟨0, 1, 0⟩ yaw pitch calls
  rw [he] at h ⊢
  exact updateCameraVectors_orthonormal _ (fun a ha => Real.mul_self_sqrt ha)
    (fun a => Real.cos_sq_add_sin_sq a) c' hW h

/-- An instance of `processMouseMovements_orthonormal`: the default camera after one call
with zero offsets. -/
theorem processMouseMovements_orthonormal_witness :
    Orthonormal (processMouseMovements ⟨Real.cos, Real.sin, Real.sqrt, Real.pi⟩
      (Camera.new ⟨Real.cos, Real.sin, Real.sqrt, Real.pi⟩ ⟨0, 0, 0⟩ ⟨0, 1, 0⟩ YAW PITCH)
      [(0, 0, true)]) :=
  processMouseMovements_orthonormal ⟨0, 0, 0⟩ YAW PITCH [(0, 0, true)]
    (by norm_num [processMouseMovements, processMouseMovement, updateCameraVectors,
          Camera.new, radians, PITCH])

/-- The pole in exact real arithmetic: from the default camera with world-up `(0,1,0)`,
one call `processMouseMovement(0, 900, false)` gives `Pitch = 90`, where the real cosine
vanishes: `Front = (0,1,0)` is parallel to world-up and `Right` is the normalisation of
the zero vector.  This is a fact of the exact model only: in `float` the cosine of
`radians(90.0f)` is a small non-zero number, so the code does not divide by zero there,
and no call in `main` passes `constrainPitch = false`. -/
theorem processMouseMovements_not_orthonormal :
    ¬ Orthonormal (processMouseMovements ⟨Real.cos, Real.sin, Real.sqrt, Real.pi⟩
      (Camera.new ⟨Real.cos, Real.sin, Real.sqrt, Real.pi⟩ ⟨0, 0, 0⟩ ⟨0, 1, 0⟩ YAW PITCH)
      [(0, 900, false)]) := by
  intro h
  have hR := h.2.1
  have hpitch : (0 : ℝ) + 900 * (1 / 10) = 90 := by norm_num
  have hrad : (90 : ℝ) * (Real.pi / 180) = Real.pi / 2 := by ring
  have hz : (processMouseMovements (⟨Real.cos, Real.sin, Real.sqrt, Real.pi⟩ : MathLib ℝ)
      (Camera.new ⟨Real.cos, Real.sin, Real.sqrt, Real.pi⟩ ⟨0, 0, 0⟩ ⟨0, 1, 0⟩ YAW PITCH)
      [(0, 900, false)]).Right = ⟨0, 0, 0⟩ := by
    simp only [processMouseMovements, List.foldl_cons, List.foldl_nil, processMouseMovement]
    apply updateCameraVectors_Right_zero
    · rfl
    · simp only [Camera.new, updateCameraVectors, PITCH, SENSITIVITY, radians, hpitch, hrad,
        Bool.false_eq_true, if_false]
      exact Real.cos_pi_div_two
  rw [hz] at hR
  simp [Vec3.dot] at hR

end Camera
end Homework5

/-! ## Bresenham line rasteriser: axis-parallel segments and the scale factor -/

namespace Homework3
variable {K : Type} [Field K]

theorem plotLineLowLoop_eq_map_lattice (x0 dx dy yi : Int) (scale : K) (fuel : Nat)
    (i y D : Int) :
    plotLineLowLoop x0 dx dy yi scale fuel i y D =
      (plotLineLowLattice x0 dx dy yi fuel i y D).map
        (fun q => ((q.1 : K) * scale, (q.2 : K) * scale)) := by
  induction fuel generalizing i y D with
  | zero => rfl
  | succ fuel ih =>
    simp only [plotLineLowLoop, plotLineLowLattice]
    split_ifs <;> simp [ih]

/-- With `dy = 0` and `D <= 0` the decision variable never becomes positive, so the loop
of `plotLineLow` keeps `y` and walks along `x`. -/
theorem plotLineLowLoop_flat (x0 dx yi : Int) (scale : K) (fuel : Nat) (i y D : Int)
    (hD : D ≤ 0) :
    plotLineLowLoop x0 dx 0 yi scale fuel i y D =
      (List.range (min fuel (dx + 1 - i).toNat)).map
        (fun (j : Nat) => (((x0 + i + (j : Int) : Int) : K) * scale, (y : K) * scale)) := by
  induction fuel generalizing i D with
  | zero => simp [plotLineLowLoop]
  | succ fuel ih =>
    simp only [plotLineLowLoop]
    by_cases hi : i ≤ dx
    · have hn : min (fuel + 1) (dx + 1 - i).toNat = min fuel (dx + 1 - (i + 1)).toNat + 1 := by
        omega
      rw [if_pos hi, if_neg (by omega), hn, List.range_succ_eq_map, List.map_cons,
        List.map_map, ih (i + 1) (D + 2 * 0) (by omega)]
      congr 1
      · simp
      · apply List.map_congr_left
        intro j _
        simp only [Function.comp, Nat.succ_eq_add_one]
        have e : x0 + (i + 1) + (j : Int) = x0 + i + ((j + 1 : Nat) : Int) := by
          push_cast; ring
        rw [e]
    · have hn : min (fuel + 1) (dx + 1 - i).toNat = 0 := by omega
      rw [if_neg hi, hn]
      rfl

theorem plotLineLow_flat (x0 x1 y0 : Int) (scale : K) :
    plotLineLow x0 y0 x1 y0 scale =
      (List.range (x1 - x0 + 1).toNat).map
        (fun (j : Nat) => (((x0 + (j : Int) : Int) : K) * scale, (y0 : K) * scale)) := by
  unfold plotLineLow
  simp only [sub_self, lt_self_iff_false, if_false, mul_zero, zero_sub]
  by_cases h : x0 ≤ x1
  · rw [plotLineLowLoop_flat _ _ _ _ _ _ _ _ (by omega)]
    simp
  · have hz : (x1 - x0 + 1).toNat = 0 := by omega
    rw [hz]
    rfl

theorem plotLineHigh_flat (x0 y0 y1 : Int) (scale : K) :
    plotLineHigh x0 y0 x0 y1 scale =
      (List.range (y1 - y0 + 1).toNat).map
        (fun (j : Nat) => ((x0 : K) * scale, ((y0 + (j : Int) : Int) : K) * scale)) := by
  rw [plotLineHigh_eq_swap, plotLineLow_flat, List.map_map]
  rfl

/-- C11: for every horizontal segment (`y0 = y1`, `x0 ≠ x1`) `Bresenham_line` writes
exactly the lattice points `(min(x0,x1) + i, y0)`, `i = 0 .. |x1 - x0|`, in that order
(each multiplied by the scale factor), and it does so through the shallow branch
`plotLineLow`, without a special case. -/
theorem Bresenham_line_horizontal (x0 x1 y0 : Int) (h : x0 ≠ x1) (scale : K) :
    (Bresenham_line x0 y0 x1 y0 scale).2 =
      (List.range (|x1 - x0| + 1).toNat).map
        (fun (i : Nat) =>
          (((min x0 x1 + (i : Int) : Int) : K) * (scale * 2 / ((MESH_NUM - 1 : Int) : K)),
           (y0 : K) * (scale * 2 / ((MESH_NUM - 1 : Int) : K)))) ∧
    (Bresenham_line x0 y0 x1 y0 scale).2 =
      plotLineLow (min x0 x1) y0 (max x0 x1) y0 (scale * 2 / ((MESH_NUM - 1 : Int) : K)) := by
  have hs : |y0 - y0| < |x1 - x0| := by
    rw [sub_self, abs_zero]
    exact abs_pos.mpr (sub_ne_zero.mpr (Ne.symm h))
  unfold Bresenham_line
  simp only [if_pos hs]
  by_cases hgt : x0 > x1
  · simp only [if_pos hgt]
    rw [min_eq_right hgt.le, max_eq_left hgt.le, abs_of_neg (by omega)]
    refine ⟨?_, rfl⟩
    rw [plotLineLow_flat]
    have e : -(x1 - x0) + 1 = x0 - x1 + 1 := by ring
    rw [e]
  · simp only [if_neg hgt]
    rw [min_eq_left (not_lt.mp hgt), max_eq_right (not_lt.mp hgt),
      abs_of_nonneg (by omega)]
    exact ⟨plotLineLow_flat _ _ _ _, rfl⟩

/-- Witness for C11: the endpoints `(0,0)`, `(5,0)` at scale factor 1 give the six points
with `y = 0` and `x = 0 .. 5`. -/
theorem Bresenham_line_horizontal_witness :
    (Bresenham_line 0 0 5 0 (10 : ℚ)).2 = [(0, 0), (1, 0), (2, 0), (3, 0), (4, 0), (5, 0)] :=
  (Bresenham_line_horizontal 0 5 0 (by decide) (10 : ℚ)).1.trans
    (by
      have e : (|(5 : Int) - 0| + 1).toNat = 6 := by decide
      rw [e]
      norm_num [MESH_NUM, List.range_succ])

/-- C12: for every vertical segment (`x0 = x1`) `Bresenham_line` writes exactly the
lattice points `(x0, min(y0,y1) + i)`, `i = 0 .. |y1 - y0|`, in that order (each
multiplied by the scale factor), through the steep branch `plotLineHigh`, without a
special case; the endpoints `(0,0)`, `(0,5)` at scale factor 1 give the six points with
`x = 0` and `y = 0 .. 5`. -/
theorem Bresenham_line_vertical (x0 y0 y1 : Int) (scale : K) :
    (Bresenham_line x0 y0 x0 y1 scale).2 =
      (List.range (|y1 - y0| + 1).toNat).map
        (fun (i : Nat) =>
          ((x0 : K) * (scale * 2 / ((MESH_NUM - 1 : Int) : K)),
           ((min y0 y1 + (i : Int) : Int) : K) * (scale * 2 / ((MESH_NUM - 1 : Int) : K)))) ∧
    (Bresenham_line x0 y0 x0 y1 scale).2 =
      plotLineHigh x0 (min y0 y1) x0 (max y0 y1) (scale * 2 / ((MESH_NUM - 1 : Int) : K)) ∧
    (Bresenham_line 0 0 0 5 (10 : ℚ)).2 =
      [(0, 0), (0, 1), (0, 2), (0, 3), (0, 4), (0, 5)] := by
  have hgen : ∀ (a b c : Int) (s : K),
      (Bresenham_line a b a c s).2 =
        (List.range (|c - b| + 1).toNat).map
          (fun (i : Nat) =>
            ((a : K) * (s * 2 / ((MESH_NUM - 1 : Int) : K)),
             ((min b c + (i : Int) : Int) : K) * (s * 2 / ((MESH_NUM - 1 : Int) : K)))) ∧
      (Bresenham_line a b a c s).2 =
        plotLineHigh a (min b c) a (max b c) (s * 2 / ((MESH_NUM - 1 : Int) : K)) := by
    intro a b c s
    have hs : ¬ |c - b| < |a - a| := by
      rw [sub_self, abs_zero]
      exact not_lt.mpr (abs_nonneg _)
    unfold Bresenham_line
    simp only [if_neg hs]
    by_cases hgt : b > c
    · simp only [if_pos hgt]
      rw [min_eq_right hgt.le, max_eq_left hgt.le, abs_of_neg (by omega)]
      refine ⟨?_, rfl⟩
      rw [plotLineHigh_flat]
      have e : -(c - b) + 1 = b - c + 1 := by ring
      rw [e]
    · simp only [if_neg hgt]
      rw [min_eq_left (not_lt.mp hgt), max_eq_right (not_lt.mp hgt),
        abs_of_nonneg (by omega)]
      exact ⟨plotLineHigh_flat _ _ _ _, rfl⟩
  refine ⟨(hgen x0 y0 y1 scale).1, (hgen x0 y0 y1 scale).2, ?_⟩
  norm_num [Bresenham_line, plotLineHigh, plotLineHighLoop, MESH_NUM]

theorem plotLineLow_eq_map_lattice (x0 y0 x1 y1 : Int) :
    ∃ L : List (Int × Int), ∀ (F : Type) [Field F] (scale : F),
      plotLineLow x0 y0 x1 y1 scale = L.map (fun q => ((q.1 : F) * scale, (q.2 : F) * scale)) :=
  ⟨_, fun _ _ scale => plotLineLowLoop_eq_map_lattice _ _ _ _ scale _ _ _ _⟩

theorem plotLineHigh_eq_map_lattice (x0 y0 x1 y1 : Int) :
    ∃ L : List (Int × Int), ∀ (F : Type) [Field F] (scale : F),
      plotLineHigh x0 y0 x1 y1 scale = L.map (fun q => ((q.1 : F) * scale, (q.2 : F) * scale)) := by
  obtain ⟨L, hL⟩ := plotLineLow_eq_map_lattice y0 x0 y1 x1
  refine ⟨L.map Prod.swap, fun F _ scale => ?_⟩
  rw [plotLineHigh_eq_swap, hL F scale, List.map_map, List.map_map]
  rfl

theorem Bresenham_line_eq_map_lattice (x0 y0 x1 y1 : Int) :
    ∃ L : List (Int × Int), ∀ (F : Type) [Field F] (scale : F),
      (Bresenham_line x0 y0 x1 y1 scale).2 =
        L.map (fun q => ((q.1 : F) * (scale * 2 / ((MESH_NUM - 1 : Int) : F)),
                         (q.2 : F) * (scale * 2 / ((MESH_NUM - 1 : Int) : F)))) := by
  unfold Bresenham_line
  by_cases h1 : |y1 - y0| < |x1 - x0|
  · by_cases h2 : x0 > x1
    · obtain ⟨L, hL⟩ := plotLineLow_eq_map_lattice x1 y1 x0 y0
      exact ⟨L, fun F _ scale => by simp only [if_pos h1, if_pos h2]; exact hL F _⟩
    · obtain ⟨L, hL⟩ := plotLineLow_eq_map_lattice x0 y0 x1 y1
      exact ⟨L, fun F _ scale => by simp only [if_pos h1, if_neg h2]; exact hL F _⟩
  · by_cases h2 : y0 > y1
    · obtain ⟨L, hL⟩ := plotLineHigh_eq_map_lattice x1 y1 x0 y0
      exact ⟨L, fun F _ scale => by simp only [if_neg h1, if_pos h2]; exact hL F _⟩
    · obtain ⟨L, hL⟩ := plotLineHigh_eq_map_lattice x0 y0 x1 y1
      exact ⟨L, fun F _ scale => by simp only [if_neg h1, if_neg h2]; exact hL F _⟩

/-- C13 (as amended): there is a list of integer lattice points, the one `Bresenham_line`
returns for the scale argument 10, such that for every scale argument every returned
coordinate is the lattice coordinate multiplied by `scale * 2 / (MESH_NUM - 1)`, that is
by `scale / 10`, not by `scale` itself. -/
theorem Bresenham_line_scale_factor (x0 y0 x1 y1 : Int) (scale : K) :
    ∃ L : List (Int × Int),
      (Bresenham_line x0 y0 x1 y1 (10 : ℚ)).2 = L.map (fun q => ((q.1 : ℚ), (q.2 : ℚ))) ∧
      (Bresenham_line x0 y0 x1 y1 scale).2 =
        L.map (fun q => ((q.1 : K) * (scale * 2 / ((MESH_NUM - 1 : Int) : K)),
                         (q.2 : K) * (scale * 2 / ((MESH_NUM - 1 : Int) : K)))) := by
  obtain ⟨L, hL⟩ := Bresenham_line_eq_map_lattice x0 y0 x1 y1
  refine ⟨L, ?_, hL K scale⟩
  rw [hL ℚ 10]
  apply List.map_congr_left
  intro q _
  norm_num [MESH_NUM]

/-- C13 fails as stated: for the endpoints `(0,0)`, `(5,0)` and the scale argument 1 the
second point returned is `(1/10, 0)`, whose `x` is no integer multiplied by 1. -/
theorem Bresenham_line_scale_one_not_lattice :
    ¬ ∀ p ∈ (Bresenham_line 0 0 5 0 (1 : ℚ)).2,
        ∃ a b : Int, p = ((a : ℚ) * 1, (b : ℚ) * 1) := by
  intro h
  have hmem : ((1 / 10 : ℚ), (0 : ℚ)) ∈ (Bresenham_line 0 0 5 0 (1 : ℚ)).2 := by
    norm_num [Bresenham_line, plotLineLow, plotLineLowLoop, MESH_NUM]
  obtain ⟨a, b, hab⟩ := h _ hmem
  have h1 : (1 / 10 : ℚ) = (a : ℚ) * 1 := (Prod.ext_iff.mp hab).1
  have h2 : (10 * a : ℚ) = 1 := by rw [mul_one] at h1; rw [← h1]; norm_num
  have h3 : (10 * a : Int) = 1 := by exact_mod_cast h2
  omega

end Homework3

/-! ## Bresenham circle rasteriser: step count, buffer and octant groups -/

namespace Homework3
variable {K : Type} [Field K]

/-- C14: `Bresenham_circle` with radius 0 runs exactly one octant step (the loop stops
with `count = 1`, its condition false) and writes exactly 8 points, all equal to `(0,0)`;
it returns 48, for every scale. -/
theorem Bresenham_circle_zero (scale : K) :
    (Bresenham_circle 0 scale).points = List.replicate 8 ((0 : K), (0 : K)) ∧
    (Bresenham_circle 0 scale).ret = 48 ∧
    (circleLoop (scale * 2 / ((MESH_NUM - 1 : Int) : K)) ((0 : Int) + 1).toNat
      ({ x := 0, y := 0, xchange := 1 - 2 * 0, ychange := 1, radius_error := 0,
         count := 0, points := [] } : CircleState K)).count = 1 ∧
    ¬ (circleLoop (scale * 2 / ((MESH_NUM - 1 : Int) : K)) ((0 : Int) + 1).toNat
      ({ x := 0, y := 0, xchange := 1 - 2 * 0, ychange := 1, radius_error := 0,
         count := 0, points := [] } : CircleState K)).x ≥
      (circleLoop (scale * 2 / ((MESH_NUM - 1 : Int) : K)) ((0 : Int) + 1).toNat
      ({ x := 0, y := 0, xchange := 1 - 2 * 0, ychange := 1, radius_error := 0,
         count := 0, points := [] } : CircleState K)).y := by
  have e : ((0 : Int) + 1).toNat = 1 := by decide
  refine ⟨?_, ?_, ?_, ?_⟩
  · simp [Bresenham_circle, e, circleLoop, circleStep, plot8CirclePoints, List.replicate]
  · simp [Bresenham_circle, e, circleLoop, circleStep, int32]
  · simp [e, circleLoop, circleStep]
  · simp [e, circleLoop, circleStep]

theorem circleStep_count (radius : Int) (scale : K) (s : CircleState K)
    (hinv : CircleCount radius s) (hguard : s.y ≤ s.x) :
    CircleCount radius (circleStep scale s) := by
  obtain ⟨hcount, hx, hy0, hy, hlen⟩ := hinv
  unfold circleStep
  simp only []
  split_ifs with hdec
  · refine ⟨?_, ?_, ?_, ?_, ?_⟩ <;> simp only [] <;>
      first
      | omega
      | (simp only [List.length_append, plot8CirclePoints, List.length_cons, List.length_nil]
         push_cast
         omega)
  · refine ⟨?_, ?_, ?_, ?_, ?_⟩ <;> simp only [] <;>
      first
      | omega
      | (simp only [List.length_append, plot8CirclePoints, List.length_cons, List.length_nil]
         push_cast
         omega)

theorem circleLoop_count (radius : Int) (scale : K) (fuel : Nat) (s : CircleState K)
    (hinv : CircleCount radius s) : CircleCount radius (circleLoop scale fuel s) := by
  induction fuel generalizing s with
  | zero => exact hinv
  | succ fuel ih =>
    simp only [circleLoop]
    split_ifs with hg
    · exact ih _ (circleStep_count radius scale s hinv hg)
    · exact hinv

/-- C16: for every `radius >= 0` the octant loop of `Bresenham_circle`, however much fuel
it is given beyond `radius + 1` iterations, stops with its condition `x >= y` false after
at most `radius + 1` steps, having written 8 points per step; so `Bresenham_circle`
writes at most `(radius + 1) * 8` points. -/
theorem Bresenham_circle_step_bound (radius : Int) (hr : 0 ≤ radius) (scale : K)
    (extra : Nat) :
    (circleLoop (scale * 2 / ((MESH_NUM - 1 : Int) : K)) ((radius + 1).toNat + extra)
        (circleInit radius)).x <
      (circleLoop (scale * 2 / ((MESH_NUM - 1 : Int) : K)) ((radius + 1).toNat + extra)
        (circleInit radius)).y ∧
    (circleLoop (scale * 2 / ((MESH_NUM - 1 : Int) : K)) ((radius + 1).toNat + extra)
        (circleInit radius)).count ≤ radius + 1 ∧
    circleLoop (scale * 2 / ((MESH_NUM - 1 : Int) : K)) ((radius + 1).toNat + extra)
        (circleInit radius) =
      circleLoop (scale * 2 / ((MESH_NUM - 1 : Int) : K)) (radius + 1).toNat
        (circleInit radius) ∧
    ((Bresenham_circle radius scale).points.length : Int) ≤ (radius + 1) * 8 ∧
    (Bresenham_circle radius scale).ret ≤ (radius + 1) * 48 := by
  have hfuel : (circleInit radius : CircleState K).x - (circleInit radius : CircleState K).y + 1
      ≤ (((radius + 1).toNat : Nat) : Int) := by
    simp only [circleInit]; omega
  have hsame := circleLoop_fuel (scale * 2 / ((MESH_NUM - 1 : Int) : K)) (radius + 1).toNat
    extra (circleInit radius) hfuel
  have hexit := circleLoop_exit (scale * 2 / ((MESH_NUM - 1 : Int) : K)) (radius + 1).toNat
    (circleInit radius) hfuel
  have hc := circleLoop_count radius (scale * 2 / ((MESH_NUM - 1 : Int) : K))
    (radius + 1).toNat (circleInit radius)
    ⟨rfl, le_rfl, le_rfl, by simp only [circleInit]; omega, by simp [circleInit]⟩
  have hcnt : (circleLoop (scale * 2 / ((MESH_NUM - 1 : Int) : K)) (radius + 1).toNat
      (circleInit radius)).count ≤ radius + 1 := by
    rw [hc.hcount]; exact hc.hy
  refine ⟨by rw [hsame]; exact hexit, by rw [hsame]; exact hcnt, hsame, ?_, ?_⟩
  · have := hc.hlen
    show ((circleLoop (scale * 2 / ((MESH_NUM - 1 : Int) : K)) (radius + 1).toNat
      (circleInit radius)).points.length : Int) ≤ (radius + 1) * 8
    omega
  · show int32 ((circleLoop (scale * 2 / ((MESH_NUM - 1 : Int) : K)) (radius + 1).toNat
      (circleInit radius)).count * 8 * 6) ≤ (radius + 1) * 48
    have h0 : 0 ≤ (circleLoop (scale * 2 / ((MESH_NUM - 1 : Int) : K)) (radius + 1).toNat
        (circleInit radius)).count := by
      rw [hc.hcount]; exact hc.hy0
    unfold int32
    omega

/-- Witness for C16: radius 3 with seven iterations of fuel to spare. -/
theorem Bresenham_circle_step_bound_witness :
    (circleLoop ((10 : ℚ) * 2 / ((MESH_NUM - 1 : Int) : ℚ)) (((3 : Int) + 1).toNat + 7)
        (circleInit 3)).x <
      (circleLoop ((10 : ℚ) * 2 / ((MESH_NUM - 1 : Int) : ℚ)) (((3 : Int) + 1).toNat + 7)
        (circleInit 3)).y ∧
    (circleLoop ((10 : ℚ) * 2 / ((MESH_NUM - 1 : Int) : ℚ)) (((3 : Int) + 1).toNat + 7)
        (circleInit 3)).count ≤ (3 : Int) + 1 ∧
    circleLoop ((10 : ℚ) * 2 / ((MESH_NUM - 1 : Int) : ℚ)) (((3 : Int) + 1).toNat + 7)
        (circleInit 3) =
      circleLoop ((10 : ℚ) * 2 / ((MESH_NUM - 1 : Int) : ℚ)) ((3 : Int) + 1).toNat
        (circleInit 3) ∧
    ((Bresenham_circle 3 (10 : ℚ)).points.length : Int) ≤ ((3 : Int) + 1) * 8 ∧
    (Bresenham_circle 3 (10 : ℚ)).ret ≤ ((3 : Int) + 1) * 48 :=
  Bresenham_circle_step_bound 3 (by decide) (10 : ℚ) 7

theorem plot8CirclePoints_eq_octantGroup (scale : K) (x y : Int) :
    plot8CirclePoints ((x : K) * scale) ((y : K) * scale) = octantGroup scale (x, y) := rfl

theorem octantGroup_closed (scale : K) (q : Int × Int) (p : K × K)
    (hp : p ∈ octantGroup scale q) :
    (-p.1, p.2) ∈ octantGroup scale q ∧ (p.1, -p.2) ∈ octantGroup scale q ∧
      (p.2, p.1) ∈ octantGroup scale q := by
  simp only [octantGroup, List.mem_cons, List.mem_singleton, List.not_mem_nil, or_false] at hp
  rcases hp with e | e | e | e | e | e | e | e <;> subst e <;>
    simp [octantGroup]

end Homework3

/-! ## Bezier evaluation: small control polygons and subdivision levels -/

namespace Homework8
variable {K : Type} [Field K]

theorem Bernstein_zero_zero (t : K) : Bernstein t 0 0 = 1 := by
  simp [Bernstein, BernsteinLoop]

/-- C18 (as amended): on a control polygon with fewer than 2 points neither evaluator
signals an error.  With one point `p` the Bernstein evaluation yields `p` for every `t`
and the subdivision loop runs no iteration and leaves `p`; with no point the evaluation
yields `(0, 0)` and the subdivision leaves the empty list. -/
theorem evaluate_subdivide_small (t : K) (p : Point K) :
    evaluate t [p] = p ∧ subdivide t [p] = ([], [p]) ∧
    evaluate t ([] : List (Point K)) = ⟨0, 0⟩ ∧
    subdivide t ([] : List (Point K)) = ([], []) := by
  refine ⟨?_, ?_, ?_, ?_⟩
  · simp [evaluate, evaluateLoop, Bernstein_zero_zero]
  · simp [subdivide, subdivideLoop]
  · simp [evaluate, evaluateLoop]
  · simp [subdivide, subdivideLoop]

/-- C18 fails as stated: on the one-point control polygon `[(3, 4)]` at `t = 1/2` the
Bernstein evaluation produces the point `(3, 4)` and the subdivision leaves `(3, 4)`;
nothing is signalled. -/
theorem evaluate_single_point_produces_point :
    evaluate (1 / 2 : ℚ) [⟨3, 4⟩] = ⟨3, 4⟩ ∧
      subdivide (1 / 2 : ℚ) [⟨3, 4⟩] = ([], [⟨3, 4⟩]) := by
  constructor
  · simp [evaluate, evaluateLoop, Bernstein_zero_zero]
  · simp [subdivide, subdivideLoop]

theorem subdivideRow_getElem (t : K) (points : List (Point K)) (j : Nat) (p q : Point K)
    (hp : points[j]? = some p) (hq : points[j + 1]? = some q) :
    (subdivideRow t points)[j]? =
      some ⟨(1 - t) * p.x + t * q.x, (1 - t) * p.y + t * q.y⟩ := by
  induction points generalizing j with
  | nil => simp at hp
  | cons a rest ih =>
    cases rest with
    | nil => simp at hq
    | cons b rest =>
      cases j with
      | zero =>
        simp only [List.getElem?_cons_zero, List.getElem?_cons_succ, Option.some.injEq,
          zero_add] at hp hq
        subst hp hq
        simp [subdivideRow, Bernstein_zero_one, Bernstein_one_one]
      | succ j =>
        simp only [List.getElem?_cons_succ] at hp hq
        have := ih j hp (by simpa using hq)
        simpa [subdivideRow] using this

theorem subdivideRow_interpolated (t : K) (points : List (Point K)) (h : 1 ≤ points.length) :
    InterpolatedLevel t points (subdivideRow t points) :=
  ⟨by rw [subdivideRow_length]; omega, fun j p q hp hq => subdivideRow_getElem t points j p q hp hq⟩

theorem subdivideLoop_levels (t : K) (n fuel : Nat) (points : List (Point K))
    (hlen : points.length = n + 1) (hfuel : n ≤ fuel) :
    (subdivideLoop t fuel points).1.length = n ∧
    List.Chain' (InterpolatedLevel t) (points :: (subdivideLoop t fuel points).1) ∧
    (subdivideLoop t fuel points).2.length = 1 ∧
    (points :: (subdivideLoop t fuel points).1).getLast? =
      some (subdivideLoop t fuel points).2 ∧
    ∀ (k : Nat) (L : List (Point K)),
      (points :: (subdivideLoop t fuel points).1)[k]? = some L → L.length = n + 1 - k := by
  induction n generalizing fuel points with
  | zero =>
    have hr : subdivideLoop t fuel points = ([], points) := by
      cases fuel with
      | zero => rfl
      | succ f => simp [subdivideLoop, hlen]
    rw [hr]
    refine ⟨rfl, List.chain'_singleton _, hlen, rfl, ?_⟩
    intro k L hk
    cases k with
    | zero =>
      simp only [List.getElem?_cons_zero, Option.some.injEq] at hk
      subst hk
      simpa using hlen
    | succ k => simp at hk
  | succ n ih =>
    obtain ⟨f, rfl⟩ : ∃ f, fuel = f + 1 := ⟨fuel - 1, by omega⟩
    have hg : points.length > 1 := by omega
    have hrow : (subdivideRow t points).length = n + 1 := by
      rw [subdivideRow_length, hlen]; rfl
    obtain ⟨h1, h2, h3, h4, h5⟩ := ih f (subdivideRow t points) hrow (by omega)
    have hr : subdivideLoop t (f + 1) points =
        (subdivideRow t points :: (subdivideLoop t f (subdivideRow t points)).1,
          (subdivideLoop t f (subdivideRow t points)).2) := by
      simp only [subdivideLoop, if_pos hg]
    rw [hr]
    refine ⟨by simp [h1], ?_, h3, ?_, ?_⟩
    · exact List.Chain'.cons (subdivideRow_interpolated t points (by omega)) h2
    · rw [List.getLast?_cons_cons]
      exact h4
    · intro k L hk
      cases k with
      | zero =>
        simp only [List.getElem?_cons_zero, Option.some.injEq] at hk
        subst hk
        simpa using hlen
      | succ k =>
        simp only [List.getElem?_cons_succ] at hk
        have := h5 k L hk
        omega

/-- C19: for a control polygon of `n + 1 >= 1` points and any `t` the subdivision loop
draws exactly `n` further levels; each level has exactly one point fewer than the one
before (level `k` has `n + 1 - k` points) and its `j`-th point is
`(1-t) * P_j + t * P_{j+1}` of the level before, since `Bernstein(t,0,1) = 1 - t` and
`Bernstein(t,1,1) = t`; the loop stops with exactly one point, the last level. -/
theorem subdivide_levels (t : K) (points : List (Point K)) (n : Nat)
    (h : points.length = n + 1) :
    (subdivide t points).1.length = n ∧
    List.Chain' (InterpolatedLevel t) (points :: (subdivide t points).1) ∧
    (∀ (k : Nat) (L : List (Point K)),
      (points :: (subdivide t points).1)[k]? = some L → L.length = n + 1 - k) ∧
    (subdivide t points).2.length = 1 ∧
    (points :: (subdivide t points).1).getLast? = some (subdivide t points).2 ∧
    Bernstein t 0 1 = 1 - t ∧ Bernstein t 1 1 = t := by
  obtain ⟨h1, h2, h3, h4, h5⟩ := subdivideLoop_levels t n points.length points h (by omega)
  exact ⟨h1, h2, h5, h3, h4, Bernstein_zero_one t, Bernstein_one_one t⟩

/-- Witness for C19: a control polygon of four points at `t = 1/3`. -/
theorem subdivide_levels_witness :
    (subdivide (1 / 3 : ℚ) [⟨0, 0⟩, ⟨1, 2⟩, ⟨3, 1⟩, ⟨4, 4⟩]).1.length = 3 ∧
    List.Chain' (InterpolatedLevel (1 / 3 : ℚ))
      ([⟨0, 0⟩, ⟨1, 2⟩, ⟨3, 1⟩, ⟨4, 4⟩] ::
        (subdivide (1 / 3 : ℚ) [⟨0, 0⟩, ⟨1, 2⟩, ⟨3, 1⟩, ⟨4, 4⟩]).1) ∧
    (∀ (k : Nat) (L : List (Point ℚ)),
      ([⟨0, 0⟩, ⟨1, 2⟩, ⟨3, 1⟩, ⟨4, 4⟩] ::
        (subdivide (1 / 3 : ℚ) [⟨0, 0⟩, ⟨1, 2⟩, ⟨3, 1⟩, ⟨4, 4⟩]).1)[k]? = some L →
      L.length = 3 + 1 - k) ∧
    (subdivide (1 / 3 : ℚ) [⟨0, 0⟩, ⟨1, 2⟩, ⟨3, 1⟩, ⟨4, 4⟩]).2.length = 1 ∧
    ([⟨0, 0⟩, ⟨1, 2⟩, ⟨3, 1⟩, ⟨4, 4⟩] ::
        (subdivide (1 / 3 : ℚ) [⟨0, 0⟩, ⟨1, 2⟩, ⟨3, 1⟩, ⟨4, 4⟩]).1).getLast? =
      some (subdivide (1 / 3 : ℚ) [⟨0, 0⟩, ⟨1, 2⟩, ⟨3, 1⟩, ⟨4, 4⟩]).2 ∧
    Bernstein (1 / 3 : ℚ) 0 1 = 1 - 1 / 3 ∧ Bernstein (1 / 3 : ℚ) 1 1 = 1 / 3 :=
  subdivide_levels (1 / 3 : ℚ) [⟨0, 0⟩, ⟨1, 2⟩, ⟨3, 1⟩, ⟨4, 4⟩] 3 (by rfl)

end Homework8

/-! ## Camera: the effect of `processMouseMovement` -/

namespace Homework5
namespace Camera
variable {K : Type} [LinearOrderedField K]

theorem clamp_eq_max_min (p : K) :
    (if (if p > 89 then (89 : K) else p) < -89 then (-89 : K)
      else (if p > 89 then (89 : K) else p)) = max (-89) (min 89 p) := by
  by_cases h1 : p > 89
  · rw [if_pos h1, if_neg (by norm_num), min_eq_left h1.le, max_eq_right (by norm_num)]
  · rw [if_neg h1, min_eq_right (not_lt.mp h1)]
    by_cases h2 : p < -89
    · rw [if_pos h2, max_eq_left h2.le]
    · rw [if_neg h2, max_eq_right (not_lt.mp h2)]

/-- C20: `processMouseMovement(xoffset, yoffset, constrainPitch)` sets `Yaw` to
`Yaw + xoffset * MouseSensitivity` and `Pitch` to `Pitch + yoffset * MouseSensitivity`,
the latter clamped to `[-89, 89]` exactly when `constrainPitch` is true, and then
recomputes `Front`, `Right`, `Up` from the new `Yaw` and `Pitch`; the other fields are
left as they were. -/
theorem processMouseMovement_effect (M : MathLib K) (c : Camera K) (xoffset yoffset : K)
    (constrainPitch : Bool) :
    (processMouseMovement M c xoffset yoffset constrainPitch).Yaw =
      c.Yaw + xoffset * c.MouseSensitivity ∧
    (processMouseMovement M c xoffset yoffset constrainPitch).Pitch =
      (if constrainPitch = true then max (-89) (min 89 (c.Pitch + yoffset * c.MouseSensitivity))
        else c.Pitch + yoffset * c.MouseSensitivity) ∧
    (processMouseMovement M c xoffset yoffset constrainPitch).Front =
      Vec3.normalize M
        ⟨M.cos (radians M (processMouseMovement M c xoffset yoffset constrainPitch).Pitch) *
            M.cos (radians M (processMouseMovement M c xoffset yoffset constrainPitch).Yaw),
         M.sin (radians M (processMouseMovement M c xoffset yoffset constrainPitch).Pitch),
         M.cos (radians M (processMouseMovement M c xoffset yoffset constrainPitch).Pitch) *
            M.sin (radians M (processMouseMovement M c xoffset yoffset constrainPitch).Yaw)⟩ ∧
    (processMouseMovement M c xoffset yoffset constrainPitch).Right =
      Vec3.normalize M
        (Vec3.cross (processMouseMovement M c xoffset yoffset constrainPitch).Front c.WorldUp) ∧
    (processMouseMovement M c xoffset yoffset constrainPitch).Up =
      Vec3.normalize M
        (Vec3.cross (processMouseMovement M c xoffset yoffset constrainPitch).Right
          (processMouseMovement M c xoffset yoffset constrainPitch).Front) ∧
    (processMouseMovement M c xoffset yoffset constrainPitch).Position = c.Position ∧
    (processMouseMovement M c xoffset yoffset constrainPitch).WorldUp = c.WorldUp ∧
    (processMouseMovement M c xoffset yoffset constrainPitch).MovementSpeed =
      c.MovementSpeed ∧
    (processMouseMovement M c xoffset yoffset constrainPitch).MouseSensitivity =
      c.MouseSensitivity ∧
    (processMouseMovement M c xoffset yoffset constrainPitch).Zoom = c.Zoom := by
  refine ⟨rfl, ?_, rfl, rfl, rfl, rfl, rfl, rfl, rfl, rfl⟩
  cases constrainPitch with
  | false => rfl
  | true =>
    simp only [processMouseMovement, updateCameraVectors_Pitch, if_true]
    exact clamp_eq_max_min _

end Camera
end Homework5

/-! ## Camera: keyboard, scroll, and the basis of `updateCameraVectors` -/

namespace Homework5
namespace Camera
variable {K : Type} [LinearOrderedField K]

/-- C21: `processKeyboard(direction, deltaTime)` changes only `Position`: with
`v = MovementSpeed * deltaTime` the new `Position` is `Position + Front * v` for FORWARD,
`Position - Front * v` for BACKWARD, `Position - Right * v` for LEFT and
`Position + Right * v` for RIGHT; every other field is unchanged. -/
theorem processKeyboard_effect (c : Camera K) (direction : Camera_Movement) (deltaTime : K) :
    (processKeyboard c .FORWARD deltaTime).Position =
      Vec3.add c.Position (Vec3.smul c.Front (c.MovementSpeed * deltaTime)) ∧
    (processKeyboard c .BACKWARD deltaTime).Position =
      Vec3.sub c.Position (Vec3.smul c.Front (c.MovementSpeed * deltaTime)) ∧
    (processKeyboard c .LEFT deltaTime).Position =
      Vec3.sub c.Position (Vec3.smul c.Right (c.MovementSpeed * deltaTime)) ∧
    (processKeyboard c .RIGHT deltaTime).Position =
      Vec3.add c.Position (Vec3.smul c.Right (c.MovementSpeed * deltaTime)) ∧
    (processKeyboard c direction deltaTime).Yaw = c.Yaw ∧
    (processKeyboard c direction deltaTime).Pitch = c.Pitch ∧
    (processKeyboard c direction deltaTime).Zoom = c.Zoom ∧
    (processKeyboard c direction deltaTime).Front = c.Front ∧
    (processKeyboard c direction deltaTime).Right = c.Right ∧
    (processKeyboard c direction deltaTime).Up = c.Up ∧
    (processKeyboard c direction deltaTime).WorldUp = c.WorldUp ∧
    (processKeyboard c direction deltaTime).MovementSpeed = c.MovementSpeed ∧
    (processKeyboard c direction deltaTime).MouseSensitivity = c.MouseSensitivity := by
  refine ⟨rfl, rfl, rfl, rfl, ?_, ?_, ?_, ?_, ?_, ?_, ?_, ?_, ?_⟩ <;>
    cases direction <;> rfl

/-- C25: for every `Zoom` in `[1, 60]` and every `yoffset`, `processMouseScroll` sets
`Zoom` to `min(60, max(1, Zoom - yoffset))` and changes no other field. -/
theorem processMouseScroll_clamp (c : Camera K) (yoffset : K) (h1 : 1 ≤ c.Zoom)
    (h60 : c.Zoom ≤ 60) :
    processMouseScroll c yoffset = { c with Zoom := min 60 (max 1 (c.Zoom - yoffset)) } := by
  have hz : (processMouseScroll c yoffset).Zoom = min 60 (max 1 (c.Zoom - yoffset)) := by
    simp only [processMouseScroll, ge_iff_le, h1, h60, and_self, if_true]
    by_cases ha : c.Zoom - yoffset < 1
    · rw [if_pos ha, if_neg (by norm_num), max_eq_left ha.le, min_eq_right (by norm_num)]
    · rw [if_neg ha, max_eq_right (not_lt.mp ha)]
      by_cases hb : c.Zoom - yoffset > 60
      · rw [if_pos hb, min_eq_left hb.le]
      · rw [if_neg hb, min_eq_right (not_lt.mp hb)]
  rw [← hz]
  rfl

/-- Witness for C25: zoom 45 scrolled by 50 is clamped to 1. -/
theorem processMouseScroll_clamp_witness :
    processMouseScroll
        (⟨⟨0, 0, 0⟩, ⟨0, 0, -1⟩, ⟨0, 1, 0⟩, ⟨1, 0, 0⟩, ⟨0, 1, 0⟩, 0, -90, 5, 1 / 10, 45⟩ :
          Camera ℚ) 50 =
      { (⟨⟨0, 0, 0⟩, ⟨0, 0, -1⟩, ⟨0, 1, 0⟩, ⟨1, 0, 0⟩, ⟨0, 1, 0⟩, 0, -90, 5, 1 / 10, 45⟩ :
          Camera ℚ) with Zoom := min 60 (max 1 ((45 : ℚ) - 50)) } :=
  processMouseScroll_clamp _ 50 (by norm_num) (by norm_num)

end Camera
end Homework5

/-! ## Symmetry of the line rasteriser and partition of unity -/

namespace Homework3
variable {K : Type} [Field K]

/-- C27: `Bresenham_line` is symmetric in its endpoints: for all integers and any scale,
`Bresenham_line(x0,y0,x1,y1)` and `Bresenham_line(x1,y1,x0,y0)` return the same length
and the identical sequence of points in the same order. -/
theorem Bresenham_line_symmetric (x0 y0 x1 y1 : Int) (scale : K) :
    Bresenham_line x0 y0 x1 y1 scale = Bresenham_line x1 y1 x0 y0 scale := by
  unfold Bresenham_line
  simp only [abs_sub_comm y0 y1, abs_sub_comm x0 x1]
  by_cases h1 : |y1 - y0| < |x1 - x0|
  · simp only [if_pos h1]
    have hne : x0 ≠ x1 := by
      intro he
      rw [he, sub_self, abs_zero] at h1
      exact absurd h1 (not_lt.mpr (abs_nonneg _))
    by_cases h2 : x0 > x1
    · rw [if_pos h2, if_neg (by omega)]
    · rw [if_neg h2, if_pos (by omega)]
  · simp only [if_neg h1]
    by_cases h2 : y0 > y1
    · rw [if_pos h2, if_neg (by omega)]
    · rw [if_neg h2]
      by_cases h3 : y1 > y0
      · rw [if_pos h3]
      · rw [if_neg h3]
        have hy : y0 = y1 := by omega
        have hx : x0 = x1 := by
          rw [hy, sub_self, abs_zero] at h1
          have := abs_nonpos_iff.mp (not_lt.mp h1)
          omega
        rw [hx, hy]

end Homework3

namespace Homework8
variable {K : Type} [Field K]

theorem Bernstein_sum_eq_one [CharZero K] (t : K) (n : Nat) :
    ∑ i in Finset.range (n + 1), Bernstein t (i : Int) (n : Int) = 1 := by
  have h : ∀ i ∈ Finset.range (n + 1),
      Bernstein t (i : Int) (n : Int) = t ^ i * (1 - t) ^ (n - i) * (n.choose i : K) := by
    intro i hi
    rw [Bernstein_eq t i n (by have := Finset.mem_range.mp hi; omega)]
    ring
  rw [Finset.sum_congr rfl h, ← add_pow]
  simp

/-- C30: the Bernstein weights form a partition of unity: for every `n >= 0` and every
`t` the sum over `i = 0 .. n` of `Bernstein(t, i, n)` is 1 (exact arithmetic); the point
evaluated for a control polygon of `n + 1` points is the sum of the control points
weighted by these `n + 1` numbers, hence an affine combination of them. -/
theorem Bernstein_partition_of_unity [CharZero K] (t : K) (n : Nat) (p : Point K)
    (rest : List (Point K)) :
    ∑ i in Finset.range (n + 1), Bernstein t (i : Int) (n : Int) = 1 ∧
    ∑ i in Finset.range (rest.length + 1), Bernstein t (i : Int) (rest.length : Int) = 1 ∧
    evaluate t (p :: rest) =
      ⟨∑ i in Finset.range (rest.length + 1),
          ((p :: rest).map Point.x).getD i 0 * Bernstein t (i : Int) (rest.length : Int),
       ∑ i in Finset.range (rest.length + 1),
          ((p :: rest).map Point.y).getD i 0 * Bernstein t (i : Int) (rest.length : Int)⟩ := by
  refine ⟨Bernstein_sum_eq_one t n, Bernstein_sum_eq_one t rest.length, ?_⟩
  rw [evaluate_eq_sum]
  have e : (((p :: rest).length : Nat) : Int) - 1 = (rest.length : Int) := by
    rw [List.length_cons]; push_cast; ring
  rw [e, List.length_cons]

/-- Witness for C30: degree 3 at `t = 2/5`. -/
theorem Bernstein_partition_of_unity_witness :
    ∑ i in Finset.range (3 + 1), Bernstein (2 / 5 : ℚ) (i : Int) ((3 : Nat) : Int) = 1 ∧
    ∑ i in Finset.range (([⟨1, 2⟩, ⟨3, 1⟩] : List (Point ℚ)).length + 1),
      Bernstein (2 / 5 : ℚ) (i : Int) (([⟨1, 2⟩, ⟨3, 1⟩] : List (Point ℚ)).length : Int) = 1 ∧
    evaluate (2 / 5 : ℚ) (⟨0, 0⟩ :: [⟨1, 2⟩, ⟨3, 1⟩]) =
      ⟨∑ i in Finset.range (([⟨1, 2⟩, ⟨3, 1⟩] : List (Point ℚ)).length + 1),
          ((⟨0, 0⟩ :: [⟨1, 2⟩, ⟨3, 1⟩]).map Point.x).getD i 0 *
            Bernstein (2 / 5 : ℚ) (i : Int) (([⟨1, 2⟩, ⟨3, 1⟩] : List (Point ℚ)).length : Int),
       ∑ i in Finset.range (([⟨1, 2⟩, ⟨3, 1⟩] : List (Point ℚ)).length + 1),
          ((⟨0, 0⟩ :: [⟨1, 2⟩, ⟨3, 1⟩]).map Point.y).getD i 0 *
            Bernstein (2 / 5 : ℚ) (i : Int) (([⟨1, 2⟩, ⟨3, 1⟩] : List (Point ℚ)).length : Int)⟩ :=
  Bernstein_partition_of_unity (2 / 5 : ℚ) 3 ⟨0, 0⟩ [⟨1, 2⟩, ⟨3, 1⟩]

end Homework8

namespace Homework5

namespace Vec3
variable {K : Type} [Field K]

theorem smul_one_eq (v : Vec3 K) : smul v 1 = v := by
  cases v
  simp [smul]

/-- The vector triple product `a × (b × a) = b (a·a) - a (a·b)`. -/
theorem cross_cross_self (a b : Vec3 K) :
    cross a (cross b a) = sub (smul b (dot a a)) (smul a (dot a b)) := by
  simp only [cross, sub, smul, dot, Vec3.mk.injEq]
  refine ⟨?_, ?_, ?_⟩ <;> ring

/-- The vector triple product `a × (a × b) = a (a·b) - b (a·a)`. -/
theorem cross_self_cross (a b : Vec3 K) :
    cross a (cross a b) = sub (smul a (dot a b)) (smul b (dot a a)) := by
  simp only [cross, sub, smul, dot, Vec3.mk.injEq]
  refine ⟨?_, ?_, ?_⟩ <;> ring

/-- A unit vector `d` whose cross product with `w` vanishes has `w = d (d·w)`. -/
theorem eq_smul_of_cross_eq_zero (d w : Vec3 K) (hd : dot d d = 1)
    (h : cross d w = ⟨0, 0, 0⟩) : w = smul d (dot d w) := by
  have hc := cross_self_cross d w
  rw [h, hd] at hc
  cases d with
  | mk dx dy dz =>
    cases w with
    | mk wx wy wz =>
      simp only [cross, sub, smul, dot, Vec3.mk.injEq, mul_zero, zero_mul, sub_self,
        mul_one] at hc ⊢
      obtain ⟨h1, h2, h3⟩ := hc
      exact ⟨by linear_combination h1, by linear_combination h2, by linear_combination h3⟩

theorem normalize_real_of_unit (v : Vec3 ℝ) (hv : dot v v = 1) :
    normalize ⟨Real.cos, Real.sin, Real.sqrt, Real.pi⟩ v = v := by
  unfold normalize
  simp only [hv, Real.sqrt_one, div_one]
  exact smul_one_eq v

theorem dot_self_ne_zero_real (v : Vec3 ℝ) (hv : v ≠ ⟨0, 0, 0⟩) : dot v v ≠ 0 := by
  intro h
  apply hv
  cases v with
  | mk x y z =>
    simp only [dot] at h
    have hx : x = 0 := by nlinarith [mul_self_nonneg x, mul_self_nonneg y, mul_self_nonneg z]
    have hy : y = 0 := by nlinarith [mul_self_nonneg x, mul_self_nonneg y, mul_self_nonneg z]
    have hz : z = 0 := by nlinarith [mul_self_nonneg x, mul_self_nonneg y, mul_self_nonneg z]
    rw [hx, hy, hz]

theorem dot_self_nonneg_real (v : Vec3 ℝ) : 0 ≤ dot v v := by
  simp only [dot]
  nlinarith [mul_self_nonneg v.x, mul_self_nonneg v.y, mul_self_nonneg v.z]

end Vec3

namespace Camera

theorem direction_unit (p y : ℝ) :
    Vec3.dot (⟨Real.cos p * Real.cos y, Real.sin p, Real.cos p * Real.sin y⟩ : Vec3 ℝ)
      ⟨Real.cos p * Real.cos y, Real.sin p, Real.cos p * Real.sin y⟩ = 1 := by
  simp only [Vec3.dot]
  linear_combination Real.cos p ^ 2 * Real.cos_sq_add_sin_sq y + Real.cos_sq_add_sin_sq p

/-- C22: whenever `WorldUp` is non-zero and not parallel to the direction
`d = (cos(pitch)cos(yaw), sin(pitch), cos(pitch)sin(yaw))` (it is no multiple of `d`),
`updateCameraVectors` yields `Front = d`, the vectors `Front`, `Right`, `Up` are
orthonormal, and `cross(Right, Front) = Up`, `cross(Front, Up) = Right`,
`cross(Right, Up) = -Front`, in exact real arithmetic. -/
theorem updateCameraVectors_right_handed (c : Camera ℝ)
    (_hW : c.WorldUp ≠ ⟨0, 0, 0⟩)
    (hpar : ∀ k : ℝ, c.WorldUp ≠ Vec3.smul
      ⟨Real.cos (radians ⟨Real.cos, Real.sin, Real.sqrt, Real.pi⟩ c.Pitch) *
          Real.cos (radians ⟨Real.cos, Real.sin, Real.sqrt, Real.pi⟩ c.Yaw),
        Real.sin (radians ⟨Real.cos, Real.sin, Real.sqrt, Real.pi⟩ c.Pitch),
        Real.cos (radians ⟨Real.cos, Real.sin, Real.sqrt, Real.pi⟩ c.Pitch) *
          Real.sin (radians ⟨Real.cos, Real.sin, Real.sqrt, Real.pi⟩ c.Yaw)⟩ k) :
    (updateCameraVectors ⟨Real.cos, Real.sin, Real.sqrt, Real.pi⟩ c).Front =
      ⟨Real.cos (radians ⟨Real.cos, Real.sin, Real.sqrt, Real.pi⟩ c.Pitch) *
          Real.cos (radians ⟨Real.cos, Real.sin, Real.sqrt, Real.pi⟩ c.Yaw),
        Real.sin (radians ⟨Real.cos, Real.sin, Real.sqrt, Real.pi⟩ c.Pitch),
        Real.cos (radians ⟨Real.cos, Real.sin, Real.sqrt, Real.pi⟩ c.Pitch) *
          Real.sin (radians ⟨Real.cos, Real.sin, Real.sqrt, Real.pi⟩ c.Yaw)⟩ ∧
    Orthonormal (updateCameraVectors ⟨Real.cos, Real.sin, Real.sqrt, Real.pi⟩ c) ∧
    Vec3.cross (updateCameraVectors ⟨Real.cos, Real.sin, Real.sqrt, Real.pi⟩ c).Right
        (updateCameraVectors ⟨Real.cos, Real.sin, Real.sqrt, Real.pi⟩ c).Front =
      (updateCameraVectors ⟨Real.cos, Real.sin, Real.sqrt, Real.pi⟩ c).Up ∧
    Vec3.cross (updateCameraVectors ⟨Real.cos, Real.sin, Real.sqrt, Real.pi⟩ c).Front
        (updateCameraVectors ⟨Real.cos, Real.sin, Real.sqrt, Real.pi⟩ c).Up =
      (updateCameraVectors ⟨Real.cos, Real.sin, Real.sqrt, Real.pi⟩ c).Right ∧
    Vec3.cross (updateCameraVectors ⟨Real.cos, Real.sin, Real.sqrt, Real.pi⟩ c).Right
        (updateCameraVectors ⟨Real.cos, Real.sin, Real.sqrt, Real.pi⟩ c).Up =
      ⟨-(updateCameraVectors ⟨Real.cos, Real.sin, Real.sqrt, Real.pi⟩ c).Front.x,
       -(updateCameraVectors ⟨Real.cos, Real.sin, Real.sqrt, Real.pi⟩ c).Front.y,
       -(updateCameraVectors ⟨Real.cos, Real.sin, Real.sqrt, Real.pi⟩ c).Front.z⟩ := by
  set d : Vec3 ℝ :=
    ⟨Real.cos (radians ⟨Real.cos, Real.sin, Real.sqrt, Real.pi⟩ c.Pitch) *
        Real.cos (radians ⟨Real.cos, Real.sin, Real.sqrt, Real.pi⟩ c.Yaw),
      Real.sin (radians ⟨Real.cos, Real.sin, Real.sqrt, Real.pi⟩ c.Pitch),
      Real.cos (radians ⟨Real.cos, Real.sin, Real.sqrt, Real.pi⟩ c.Pitch) *
        Real.sin (radians ⟨Real.cos, Real.sin, Real.sqrt, Real.pi⟩ c.Yaw)⟩ with hd
  have hdd : Vec3.dot d d = 1 := direction_unit _ _
  have hF : (updateCameraVectors ⟨Real.cos, Real.sin, Real.sqrt, Real.pi⟩ c).Front = d :=
    Vec3.normalize_real_of_unit d hdd
  have hR : (updateCameraVectors ⟨Real.cos, Real.sin, Real.sqrt, Real.pi⟩ c).Right =
      Vec3.normalize ⟨Real.cos, Real.sin, Real.sqrt, Real.pi⟩ (Vec3.cross d c.WorldUp) := by
    show Vec3.normalize _ (Vec3.cross (Vec3.normalize _ d) c.WorldUp) = _
    rw [Vec3.normalize_real_of_unit d hdd]
  have hv1 : Vec3.cross d c.WorldUp ≠ ⟨0, 0, 0⟩ := by
    intro h0
    exact hpar _ (Vec3.eq_smul_of_cross_eq_zero d c.WorldUp hdd h0)
  have hv1d : Vec3.dot (Vec3.cross d c.WorldUp) (Vec3.cross d c.WorldUp) ≠ 0 :=
    Vec3.dot_self_ne_zero_real _ hv1
  set R := Vec3.normalize ⟨Real.cos, Real.sin, Real.sqrt, Real.pi⟩ (Vec3.cross d c.WorldUp)
    with hRdef
  have hRR : Vec3.dot R R = 1 :=
    Vec3.normalize_dot_self _ _ (Real.mul_self_sqrt (Vec3.dot_self_nonneg_real _)) hv1d
  have hdR : Vec3.dot d R = 0 := by
    rw [hRdef, Vec3.normalize, Vec3.dot_smul_right, Vec3.dot_cross_self_left, mul_zero]
  have hv2 : Vec3.dot (Vec3.cross R d) (Vec3.cross R d) = 1 := by
    rw [Vec3.dot_cross_cross, hRR, hdd, Vec3.dot_comm R d, hdR]
    ring
  have hU : (updateCameraVectors ⟨Real.cos, Real.sin, Real.sqrt, Real.pi⟩ c).Up =
      Vec3.cross R d := by
    show Vec3.normalize _ (Vec3.cross (Vec3.normalize _
      (Vec3.cross (Vec3.normalize _ d) c.WorldUp)) (Vec3.normalize _ d)) = _
    rw [Vec3.normalize_real_of_unit d hdd]
    exact Vec3.normalize_real_of_unit _ hv2
  rw [hF, hR, hU]
  refine ⟨rfl, ?_, rfl, ?_, ?_⟩
  · refine ⟨?_, ?_, ?_, ?_, ?_, ?_⟩
    · rw [hF]; exact hdd
    · rw [hR]; exact hRR
    · rw [hU]; exact hv2
    · rw [hF, hR]; exact hdR
    · rw [hF, hU]; exact Vec3.dot_cross_self_right R d
    · rw [hR, hU]; exact Vec3.dot_cross_self_left R d
  · rw [Vec3.cross_cross_self, hdd, hdR]
    cases R
    simp [Vec3.sub, Vec3.smul]
  · rw [Vec3.cross_self_cross, hRR, Vec3.dot_comm R d, hdR]
    cases d
    simp [Vec3.sub, Vec3.smul]

/-- Witness for C22: world-up `(0,1,0)`, pitch 0 and yaw 0, where the direction is
`(1,0,0)`. -/
theorem updateCameraVectors_right_handed_witness :
    Orthonormal (updateCameraVectors ⟨Real.cos, Real.sin, Real.sqrt, Real.pi⟩
      (⟨⟨0, 0, 0⟩, ⟨0, 0, -1⟩, ⟨0, 0, 0⟩, ⟨0, 0, 0⟩, ⟨0, 1, 0⟩, 0, 0, 5, 1 / 10, 45⟩ :
        Camera ℝ)) ∧
    Vec3.cross
      (updateCameraVectors ⟨Real.cos, Real.sin, Real.sqrt, Real.pi⟩
        (⟨⟨0, 0, 0⟩, ⟨0, 0, -1⟩, ⟨0, 0, 0⟩, ⟨0, 0, 0⟩, ⟨0, 1, 0⟩, 0, 0, 5, 1 / 10, 45⟩ :
          Camera ℝ)).Right
      (updateCameraVectors ⟨Real.cos, Real.sin, Real.sqrt, Real.pi⟩
        (⟨⟨0, 0, 0⟩, ⟨0, 0, -1⟩, ⟨0, 0, 0⟩, ⟨0, 0, 0⟩, ⟨0, 1, 0⟩, 0, 0, 5, 1 / 10, 45⟩ :
          Camera ℝ)).Front =
      (updateCameraVectors ⟨Real.cos, Real.sin, Real.sqrt, Real.pi⟩
        (⟨⟨0, 0, 0⟩, ⟨0, 0, -1⟩, ⟨0, 0, 0⟩, ⟨0, 0, 0⟩, ⟨0, 1, 0⟩, 0, 0, 5, 1 / 10, 45⟩ :
          Camera ℝ)).Up :=
  ⟨(updateCameraVectors_right_handed
      (⟨⟨0, 0, 0⟩, ⟨0, 0, -1⟩, ⟨0, 0, 0⟩, ⟨0, 0, 0⟩, ⟨0, 1, 0⟩, 0, 0, 5, 1 / 10, 45⟩ : Camera ℝ)
      (by simp) (by intro k h; simp [Vec3.smul, radians] at h)).2.1,
   (updateCameraVectors_right_handed
      (⟨⟨0, 0, 0⟩, ⟨0, 0, -1⟩, ⟨0, 0, 0⟩, ⟨0, 0, 0⟩, ⟨0, 1, 0⟩, 0, 0, 5, 1 / 10, 45⟩ : Camera ℝ)
      (by simp) (by intro k h; simp [Vec3.smul, radians] at h)).2.2.1⟩

theorem cos_radians_pos (p : ℝ) (hlo : -89 ≤ p) (hhi : p ≤ 89) :
    0 < Real.cos (radians ⟨Real.cos, Real.sin, Real.sqrt, Real.pi⟩ p) := by
  apply Real.cos_pos_of_mem_Ioo
  simp only [radians, Set.mem_Ioo]
  have hpi := Real.pi_pos
  constructor <;> nlinarith

/-- C24: after `processMouseMovement` with `constrainPitch = true` on a camera whose
`WorldUp` is `(0,1,0)`, `|Pitch| <= 89`, `Front.y = sin(Pitch)`, `Front` is not parallel
to `WorldUp`: `cross(Front, WorldUp)` is not the zero vector and `Front` is no multiple
of `WorldUp`; `Right` and `Up` are then well defined, and `Front`, `Right`, `Up` are
orthonormal (exact real arithmetic). -/
theorem processMouseMovement_not_parallel (c : Camera ℝ) (hW : c.WorldUp = ⟨0, 1, 0⟩)
    (xoffset yoffset : ℝ) :
    (-89 ≤ (processMouseMovement ⟨Real.cos, Real.sin, Real.sqrt, Real.pi⟩ c xoffset yoffset
        true).Pitch ∧
      (processMouseMovement ⟨Real.cos, Real.sin, Real.sqrt, Real.pi⟩ c xoffset yoffset
        true).Pitch ≤ 89) ∧
    (processMouseMovement ⟨Real.cos, Real.sin, Real.sqrt, Real.pi⟩ c xoffset yoffset
        true).Front.y =
      Real.sin (radians ⟨Real.cos, Real.sin, Real.sqrt, Real.pi⟩
        (processMouseMovement ⟨Real.cos, Real.sin, Real.sqrt, Real.pi⟩ c xoffset yoffset
          true).Pitch) ∧
    Vec3.cross
      (processMouseMovement ⟨Real.cos, Real.sin, Real.sqrt, Real.pi⟩ c xoffset yoffset
        true).Front
      (processMouseMovement ⟨Real.cos, Real.sin, Real.sqrt, Real.pi⟩ c xoffset yoffset
        true).WorldUp ≠ ⟨0, 0, 0⟩ ∧
    (∀ k : ℝ,
      (processMouseMovement ⟨Real.cos, Real.sin, Real.sqrt, Real.pi⟩ c xoffset yoffset
        true).Front ≠
      Vec3.smul (processMouseMovement ⟨Real.cos, Real.sin, Real.sqrt, Real.pi⟩ c xoffset
        yoffset true).WorldUp k) ∧
    Orthonormal (processMouseMovement ⟨Real.cos, Real.sin, Real.sqrt, Real.pi⟩ c xoffset
      yoffset true) := by
  obtain ⟨hlo, hhi⟩ := processMouseMovement_pitch_constrained
    (⟨Real.cos, Real.sin, Real.sqrt, Real.pi⟩ : MathLib ℝ) c xoffset yoffset
  set c' := processMouseMovement ⟨Real.cos, Real.sin, Real.sqrt, Real.pi⟩ c xoffset yoffset
    true with hc'
  have hcos := cos_radians_pos c'.Pitch hlo hhi
  have hWc' : c'.WorldUp = ⟨0, 1, 0⟩ := hW
  set cp := Real.cos (radians ⟨Real.cos, Real.sin, Real.sqrt, Real.pi⟩ c'.Pitch) with hcp
  have hFront : c'.Front =
      ⟨cp * Real.cos (radians ⟨Real.cos, Real.sin, Real.sqrt, Real.pi⟩ c'.Yaw),
        Real.sin (radians ⟨Real.cos, Real.sin, Real.sqrt, Real.pi⟩ c'.Pitch),
        cp * Real.sin (radians ⟨Real.cos, Real.sin, Real.sqrt, Real.pi⟩ c'.Yaw)⟩ :=
    Vec3.normalize_real_of_unit _ (direction_unit _ _)
  have htrig := Real.cos_sq_add_sin_sq
    (radians ⟨Real.cos, Real.sin, Real.sqrt, Real.pi⟩ c'.Yaw)
  have hnz : ¬ (cp * Real.cos (radians ⟨Real.cos, Real.sin, Real.sqrt, Real.pi⟩ c'.Yaw) = 0 ∧
      cp * Real.sin (radians ⟨Real.cos, Real.sin, Real.sqrt, Real.pi⟩ c'.Yaw) = 0) := by
    rintro ⟨h1, h2⟩
    have h1' := (mul_eq_zero.mp h1).resolve_left hcos.ne'
    have h2' := (mul_eq_zero.mp h2).resolve_left hcos.ne'
    rw [h1', h2'] at htrig
    norm_num at htrig
  refine ⟨⟨hlo, hhi⟩, by rw [hFront], ?_, ?_, ?_⟩
  · rw [hWc', hFront]
    intro h0
    simp only [Vec3.cross, Vec3.mk.injEq] at h0
    apply hnz
    constructor
    · linarith [h0.2.2]
    · linarith [h0.1]
  · intro k hk
    rw [hWc', hFront] at hk
    simp only [Vec3.smul, Vec3.mk.injEq, zero_mul] at hk
    exact hnz ⟨hk.1, hk.2.2⟩
  · exact updateCameraVectors_orthonormal _ (fun a ha => Real.mul_self_sqrt ha)
      (fun a => Real.cos_sq_add_sin_sq a) _ hW hcos.ne'

/-- Witness for C24: the default camera and the offsets `(10, 2000)`. -/
theorem processMouseMovement_not_parallel_witness :
    Orthonormal (processMouseMovement ⟨Real.cos, Real.sin, Real.sqrt, Real.pi⟩
      (Camera.new ⟨Real.cos, Real.sin, Real.sqrt, Real.pi⟩ ⟨0, 0, 0⟩ ⟨0, 1, 0⟩ YAW PITCH)
      10 2000 true) :=
  (processMouseMovement_not_parallel
    (Camera.new ⟨Real.cos, Real.sin, Real.sqrt, Real.pi⟩ ⟨0, 0, 0⟩ ⟨0, 1, 0⟩ YAW PITCH)
    rfl 10 2000).2.2.2.2

end Camera
end Homework5

/-! ## Bresenham circle rasteriser: positive radii and the loop invariant -/

namespace Homework3
variable {K : Type} [Field K]

theorem circleInit_inv (radius : Int) (scale : K) :
    CircleInv radius scale (circleInit radius : CircleState K) := by
  refine ⟨?_, rfl, rfl, le_rfl, le_rfl, ?_, ?_⟩
  · simp [circleInit]
  · intro h
    simp only [circleInit] at h ⊢
    constructor <;> omega
  · intro p hp
    simp [circleInit] at hp

theorem circleStep_tight (radius : Int) (hr : 1 ≤ radius) (scale : K) (s : CircleState K)
    (hinv : CircleInv radius scale s) (ht : CircleTight radius s) (hguard : s.y ≤ s.x) :
    CircleTight radius (circleStep scale s) := by
  obtain ⟨herr, hxc, hyc, hx, hy, hbound, _⟩ := hinv
  obtain ⟨htight, hyr⟩ := ht
  obtain ⟨hlo, hhi⟩ := hbound hguard
  have hylt : s.y ≤ radius - 1 := by
    by_contra hc
    have hyr' : s.y = radius := by omega
    have hxr : s.x = radius := by omega
    have h1 : s.radius_error ≤ s.x - 1 := htight (by omega) hguard
    rw [herr, hxr, hyr'] at h1
    nlinarith
  unfold circleStep
  simp only []
  split_ifs with hdec
  · refine ⟨?_, ?_⟩ <;> simp only []
    · intro _ hg
      omega
    · omega
  · refine ⟨?_, ?_⟩ <;> simp only []
    · intro _ _
      omega
    · omega

/-- The three invariants of the octant loop hold together along the loop. -/
theorem circleLoop_tight (radius : Int) (hr : 1 ≤ radius) (scale : K) (fuel : Nat)
    (s : CircleState K) (hinv : CircleInv radius scale s) (ht : CircleTight radius s) :
    CircleTight radius (circleLoop scale fuel s) := by
  induction fuel generalizing s with
  | zero => exact ht
  | succ fuel ih =>
    simp only [circleLoop]
    split_ifs with hg
    · exact ih _ (circleStep_inv radius scale s hinv hg)
        (circleStep_tight radius hr scale s hinv ht hg)
    · exact ht

theorem circleStep_count_succ (scale : K) (s : CircleState K) :
    (circleStep scale s).count = s.count + 1 := by
  unfold circleStep
  simp only []
  split_ifs <;> rfl

theorem circleLoop_steps (scale : K) (n : Nat) (s : CircleState K) :
    (circleLoop scale n s).count ≤ s.count + n ∧
    ((circleLoop scale n s).x ≥ (circleLoop scale n s).y →
      (circleLoop scale n s).count = s.count + n) ∧
    (circleLoop scale n s).y - (circleLoop scale n s).count = s.y - s.count := by
  induction n generalizing s with
  | zero => simp [circleLoop]
  | succ n ih =>
    simp only [circleLoop]
    split_ifs with hg
    · obtain ⟨h1, h2, h3⟩ := ih (circleStep scale s)
      rw [circleStep_count_succ, circleStep_y] at *
      push_cast
      refine ⟨by omega, fun h => by have := h2 h; omega, by omega⟩
    · push_cast
      refine ⟨by omega, fun h => absurd h hg, rfl⟩

/-- C29: at every evaluation of the loop condition of `Bresenham_circle`, that is in the
state reached after `n` iterations for every `n` (the final state once the loop has
stopped), `radius_error = x^2 + y^2 - radius^2`, `xchange = 1 - 2x`, `ychange = 2y + 1`,
and `y` equals `count`, the number of octant steps completed: at most `n`, and exactly
`n` while the loop condition still holds. -/
theorem Bresenham_circle_loop_invariant (radius : Int) (_hr : 0 ≤ radius) (scale : K)
    (n : Nat) :
    (circleLoop (scale * 2 / ((MESH_NUM - 1 : Int) : K)) n (circleInit radius)).radius_error =
      (circleLoop (scale * 2 / ((MESH_NUM - 1 : Int) : K)) n (circleInit radius)).x ^ 2 +
      (circleLoop (scale * 2 / ((MESH_NUM - 1 : Int) : K)) n (circleInit radius)).y ^ 2 -
      radius ^ 2 ∧
    (circleLoop (scale * 2 / ((MESH_NUM - 1 : Int) : K)) n (circleInit radius)).xchange =
      1 - 2 * (circleLoop (scale * 2 / ((MESH_NUM - 1 : Int) : K)) n (circleInit radius)).x ∧
    (circleLoop (scale * 2 / ((MESH_NUM - 1 : Int) : K)) n (circleInit radius)).ychange =
      2 * (circleLoop (scale * 2 / ((MESH_NUM - 1 : Int) : K)) n (circleInit radius)).y + 1 ∧
    (circleLoop (scale * 2 / ((MESH_NUM - 1 : Int) : K)) n (circleInit radius)).y =
      (circleLoop (scale * 2 / ((MESH_NUM - 1 : Int) : K)) n (circleInit radius)).count ∧
    (circleLoop (scale * 2 / ((MESH_NUM - 1 : Int) : K)) n (circleInit radius)).count ≤ n ∧
    ((circleLoop (scale * 2 / ((MESH_NUM - 1 : Int) : K)) n (circleInit radius)).x ≥
        (circleLoop (scale * 2 / ((MESH_NUM - 1 : Int) : K)) n (circleInit radius)).y →
      (circleLoop (scale * 2 / ((MESH_NUM - 1 : Int) : K)) n (circleInit radius)).count = n) := by
  have hinv := circleLoop_inv radius (scale * 2 / ((MESH_NUM - 1 : Int) : K)) n
    (circleInit radius) (circleInit_inv radius _)
  obtain ⟨h1, h2, h3⟩ := circleLoop_steps (scale * 2 / ((MESH_NUM - 1 : Int) : K)) n
    (circleInit radius)
  have h0 : (circleInit radius : CircleState K).count = 0 := rfl
  have hy0 : (circleInit radius : CircleState K).y = 0 := rfl
  rw [h0] at h1 h2 h3
  rw [hy0] at h3
  refine ⟨hinv.herr, hinv.hxc, hinv.hyc, by omega, by omega, fun h => by have := h2 h; omega⟩

/-- Witness for C29: radius 4 after 2 iterations. -/
theorem Bresenham_circle_loop_invariant_witness :
    (circleLoop ((10 : ℚ) * 2 / ((MESH_NUM - 1 : Int) : ℚ)) 2 (circleInit 4)).radius_error =
      (circleLoop ((10 : ℚ) * 2 / ((MESH_NUM - 1 : Int) : ℚ)) 2 (circleInit 4)).x ^ 2 +
      (circleLoop ((10 : ℚ) * 2 / ((MESH_NUM - 1 : Int) : ℚ)) 2 (circleInit 4)).y ^ 2 -
      (4 : Int) ^ 2 ∧
    (circleLoop ((10 : ℚ) * 2 / ((MESH_NUM - 1 : Int) : ℚ)) 2 (circleInit 4)).y =
      (circleLoop ((10 : ℚ) * 2 / ((MESH_NUM - 1 : Int) : ℚ)) 2 (circleInit 4)).count :=
  ⟨(Bresenham_circle_loop_invariant 4 (by decide) (10 : ℚ) 2).1,
   (Bresenham_circle_loop_invariant 4 (by decide) (10 : ℚ) 2).2.2.2.1⟩

end Homework3

/-! ## Bresenham line rasteriser: the path and its distance from the segment -/

namespace Homework3
variable {K : Type} [Field K]

theorem plotLineLow_eq_map_points (x0 y0 x1 y1 : Int) (scale : K) :
    plotLineLow x0 y0 x1 y1 scale =
      (plotLineLowPoints x0 y0 x1 y1).map (fun q => ((q.1 : K) * scale, (q.2 : K) * scale)) :=
  plotLineLowLoop_eq_map_lattice _ _ _ _ scale _ _ _ _

theorem Bresenham_line_eq_map_points (x0 y0 x1 y1 : Int) (scale : K) :
    (Bresenham_line x0 y0 x1 y1 scale).2 =
      (Bresenham_linePoints x0 y0 x1 y1).map
        (fun q => ((q.1 : K) * (scale * 2 / ((MESH_NUM - 1 : Int) : K)),
                   (q.2 : K) * (scale * 2 / ((MESH_NUM - 1 : Int) : K)))) := by
  unfold Bresenham_line Bresenham_linePoints
  by_cases h1 : |y1 - y0| < |x1 - x0|
  · by_cases h2 : x0 > x1
    · simp only [if_pos h1, if_pos h2]; exact plotLineLow_eq_map_points _ _ _ _ _
    · simp only [if_pos h1, if_neg h2]; exact plotLineLow_eq_map_points _ _ _ _ _
  · by_cases h2 : y0 > y1
    · simp only [if_neg h1, if_pos h2]
      rw [plotLineHigh_eq_swap, plotLineLow_eq_map_points, List.map_map, List.map_map]
      rfl
    · simp only [if_neg h1, if_neg h2]
      rw [plotLineHigh_eq_swap, plotLineLow_eq_map_points, List.map_map, List.map_map]
      rfl

theorem Bresenham_line_unit_scale (x0 y0 x1 y1 : Int) :
    (Bresenham_line x0 y0 x1 y1 (10 : ℚ)).2 =
      (Bresenham_linePoints x0 y0 x1 y1).map (fun q => ((q.1 : ℚ), (q.2 : ℚ))) := by
  rw [Bresenham_line_eq_map_points]
  apply List.map_congr_left
  intro q _
  norm_num [MESH_NUM]

/-- Consecutive lattice points of the loop of `plotLineLow` differ by `+1` in `x` and by
`0` or `yi` in `y`; the first one is `(x0 + i, y)`. -/
theorem plotLineLowLattice_chain (x0 dx dy yi : Int) (fuel : Nat) (i y D : Int) :
    List.Chain' (fun p q : Int × Int => q.1 = p.1 + 1 ∧ (q.2 = p.2 ∨ q.2 = p.2 + yi))
      (plotLineLowLattice x0 dx dy yi fuel i y D) ∧
    ∀ p ∈ (plotLineLowLattice x0 dx dy yi fuel i y D).head?, p = (x0 + i, y) := by
  induction fuel generalizing i y D with
  | zero => simp [plotLineLowLattice]
  | succ fuel ih =>
    simp only [plotLineLowLattice]
    by_cases hi : i ≤ dx
    · rw [if_pos hi]
      refine ⟨?_, by simp⟩
      rw [List.chain'_cons']
      by_cases hD : D > 0
      · rw [if_pos hD]
        obtain ⟨hc, hh⟩ := ih (i + 1) (y + yi) (D - 2 * dx + 2 * dy)
        refine ⟨fun q hq => ?_, hc⟩
        rw [hh q hq]
        exact ⟨by ring, Or.inr rfl⟩
      · rw [if_neg hD]
        obtain ⟨hc, hh⟩ := ih (i + 1) y (D + 2 * dy)
        refine ⟨fun q hq => ?_, hc⟩
        rw [hh q hq]
        exact ⟨by ring, Or.inl rfl⟩
    · rw [if_neg hi]
      simp

theorem plotLineLowPoints_chain (x0 y0 x1 y1 : Int) :
    List.Chain' (fun p q : Int × Int =>
        q.1 = p.1 + 1 ∧ (q.2 = p.2 ∨ q.2 = p.2 + (if y1 - y0 < 0 then -1 else 1)))
      (plotLineLowPoints x0 y0 x1 y1) :=
  (plotLineLowLattice_chain _ _ _ _ _ _ _ _).1

theorem plotLineLowPoints_head (x0 y0 x1 y1 : Int) (h : x0 ≤ x1) :
    (plotLineLowPoints x0 y0 x1 y1).head? = some (x0, y0) := by
  obtain ⟨n, hn⟩ : ∃ n : Nat, (x1 - x0 + 1).toNat = n + 1 := ⟨(x1 - x0).toNat, by omega⟩
  have h0 : (0 : Int) ≤ x1 - x0 := by omega
  simp [plotLineLowPoints, hn, plotLineLowLattice, h0]

theorem plotLineLowPoints_length (x0 y0 x1 y1 : Int) :
    (plotLineLowPoints x0 y0 x1 y1).length = (x1 - x0 + 1).toNat := by
  have h := plotLineLow_length x0 y0 x1 y1 (1 : ℚ)
  rw [plotLineLow_eq_map_points, List.length_map] at h
  exact h

theorem plotLineLowPoints_getLast (x0 y0 x1 y1 : Int) (h : x0 ≤ x1)
    (hs : |y1 - y0| ≤ x1 - x0) :
    (plotLineLowPoints x0 y0 x1 y1).getLast? = some (x1, y1) := by
  have hl := plotLineLow_getLast x0 y0 x1 y1 (1 : ℚ) h hs
  rw [plotLineLow_eq_map_points, List.getLast?_map] at hl
  obtain ⟨q, hq, hqe⟩ := Option.map_eq_some'.mp hl
  rw [hq]
  simp only [mul_one, Prod.mk.injEq, Int.cast_inj] at hqe
  exact congrArg some (Prod.ext hqe.1 hqe.2)

/-- C23: for all integer endpoints the lattice points written by `Bresenham_line` (the
list `L` it returns at scale factor 1, every other output being `L` times the scale
factor) form a connected monotone path of `max(|dx|,|dy|) + 1` points from the endpoint
with the smaller driving coordinate to the other endpoint: each point differs from the
one before by exactly `+1` on the driving axis (`x` in the shallow case, `y` in the steep
case) and by `0` or the step `yi` (resp. `xi`) of the call on the other axis, where
`yi` (resp. `xi`) is `-1` if the normalised minor delta is negative and `1` otherwise,
the same for the whole call. -/
theorem Bresenham_line_connected_path (x0 y0 x1 y1 : Int) (scale : K) :
    ∃ L : List (Int × Int),
      (Bresenham_line x0 y0 x1 y1 (10 : ℚ)).2 = L.map (fun q => ((q.1 : ℚ), (q.2 : ℚ))) ∧
      (Bresenham_line x0 y0 x1 y1 scale).2 =
        L.map (fun q => ((q.1 : K) * (scale * 2 / ((MESH_NUM - 1 : Int) : K)),
                         (q.2 : K) * (scale * 2 / ((MESH_NUM - 1 : Int) : K)))) ∧
      L.length = (max |x1 - x0| |y1 - y0| + 1).toNat ∧
      (if |y1 - y0| < |x1 - x0| then
        L.head? = some (if x0 > x1 then (x1, y1) else (x0, y0)) ∧
        L.getLast? = some (if x0 > x1 then (x0, y0) else (x1, y1)) ∧
        List.Chain' (fun p q : Int × Int =>
          q.1 = p.1 + 1 ∧ (q.2 = p.2 ∨ q.2 = p.2 +
            (if x0 > x1 then (if y0 - y1 < 0 then -1 else 1)
              else (if y1 - y0 < 0 then -1 else 1)))) L
      else
        L.head? = some (if y0 > y1 then (x1, y1) else (x0, y0)) ∧
        L.getLast? = some (if y0 > y1 then (x0, y0) else (x1, y1)) ∧
        List.Chain' (fun p q : Int × Int =>
          q.2 = p.2 + 1 ∧ (q.1 = p.1 ∨ q.1 = p.1 +
            (if y0 > y1 then (if x0 - x1 < 0 then -1 else 1)
              else (if x1 - x0 < 0 then -1 else 1)))) L) := by
  refine ⟨Bresenham_linePoints x0 y0 x1 y1, Bresenham_line_unit_scale _ _ _ _,
    Bresenham_line_eq_map_points _ _ _ _ _, ?_, ?_⟩
  · by_cases h1 : |y1 - y0| < |x1 - x0|
    · rw [max_eq_left h1.le]
      by_cases h2 : x0 > x1
      · simp only [Bresenham_linePoints, if_pos h1, if_pos h2]
        rw [plotLineLowPoints_length, abs_of_neg (by omega)]
        congr 1; ring
      · simp only [Bresenham_linePoints, if_pos h1, if_neg h2]
        rw [plotLineLowPoints_length, abs_of_nonneg (by omega)]
    · rw [max_eq_right (not_lt.mp h1)]
      by_cases h2 : y0 > y1
      · simp only [Bresenham_linePoints, if_neg h1, if_pos h2]
        rw [List.length_map, plotLineLowPoints_length, abs_of_neg (by omega)]
        congr 1; ring
      · simp only [Bresenham_linePoints, if_neg h1, if_neg h2]
        rw [List.length_map, plotLineLowPoints_length, abs_of_nonneg (by omega)]
  · by_cases h1 : |y1 - y0| < |x1 - x0|
    · rw [if_pos h1]
      by_cases h2 : x0 > x1
      · simp only [Bresenham_linePoints, if_pos h1, if_pos h2]
        have hs : |y0 - y1| ≤ x0 - x1 := by
          rw [abs_sub_comm y0 y1]
          rw [abs_of_neg (show x1 - x0 < 0 by omega)] at h1
          omega
        exact ⟨plotLineLowPoints_head _ _ _ _ (by omega),
          plotLineLowPoints_getLast _ _ _ _ (by omega) hs, plotLineLowPoints_chain x1 y1 x0 y0⟩
      · simp only [Bresenham_linePoints, if_pos h1, if_neg h2]
        have hs : |y1 - y0| ≤ x1 - x0 := by
          rw [abs_of_nonneg (show 0 ≤ x1 - x0 by omega)] at h1
          omega
        exact ⟨plotLineLowPoints_head _ _ _ _ (by omega),
          plotLineLowPoints_getLast _ _ _ _ (by omega) hs, plotLineLowPoints_chain x0 y0 x1 y1⟩
    · rw [if_neg h1]
      have h1' := not_lt.mp h1
      by_cases h2 : y0 > y1
      · simp only [Bresenham_linePoints, if_neg h1, if_pos h2]
        have hs : |x0 - x1| ≤ y0 - y1 := by
          rw [abs_sub_comm x0 x1]
          rw [abs_of_neg (show y1 - y0 < 0 by omega)] at h1'
          omega
        refine ⟨?_, ?_, ?_⟩
        · rw [List.head?_map, plotLineLowPoints_head _ _ _ _ (by omega)]; rfl
        · rw [List.getLast?_map, plotLineLowPoints_getLast _ _ _ _ (by omega) hs]; rfl
        · rw [List.chain'_map]
          exact plotLineLowPoints_chain y1 x1 y0 x0
      · simp only [Bresenham_linePoints, if_neg h1, if_neg h2]
        have hs : |x1 - x0| ≤ y1 - y0 := by
          rw [abs_of_nonneg (show 0 ≤ y1 - y0 by omega)] at h1'
          omega
        refine ⟨?_, ?_, ?_⟩
        · rw [List.head?_map, plotLineLowPoints_head _ _ _ _ (by omega)]; rfl
        · rw [List.getLast?_map, plotLineLowPoints_getLast _ _ _ _ (by omega) hs]; rfl
        · rw [List.chain'_map]
          exact plotLineLowPoints_chain y0 x0 y1 x1

end Homework3

/-! ## Bresenham circle rasteriser: the buffer in 32-bit arithmetic and the octant walk -/

namespace Homework3
variable {K : Type} [Field K]

theorem int32_eq_self (v : Int) (hlo : -2147483648 ≤ v) (hhi : v ≤ 2147483647) :
    int32 v = v := by
  unfold int32
  omega

theorem circleLoop_count_mono (scale : K) (fuel : Nat) (s : CircleState K) :
    s.count ≤ (circleLoop scale fuel s).count := by
  induction fuel generalizing s with
  | zero => exact le_rfl
  | succ fuel ih =>
    simp only [circleLoop]
    split_ifs with hg
    · have := ih (circleStep scale s)
      rw [circleStep_count_succ] at this
      omega
    · exact le_rfl

/-- For `radius >= 0` the loop of `Bresenham_circle` executes its body at least once. -/
theorem circleLoop_count_pos (radius : Int) (hr : 0 ≤ radius) (scale : K) :
    1 ≤ (circleLoop scale (radius + 1).toNat (circleInit radius)).count := by
  obtain ⟨n, hn⟩ : ∃ n : Nat, (radius + 1).toNat = n + 1 := ⟨radius.toNat, by omega⟩
  rw [hn]
  have hg : (circleInit radius : CircleState K).x ≥ (circleInit radius : CircleState K).y := hr
  simp only [circleLoop, if_pos hg]
  have := circleLoop_count_mono scale n (circleStep scale (circleInit radius))
  rw [circleStep_count_succ] at this
  have h0 : (circleInit radius : CircleState K).count = 0 := rfl
  omega

/-- What the final state of the loop of `Bresenham_circle` satisfies for `radius >= 1`:
between 1 and `radius` steps, eight points per step. -/
theorem circleLoop_final (radius : Int) (hr : 1 ≤ radius) (scale : K) :
    1 ≤ (circleLoop scale (radius + 1).toNat (circleInit radius)).count ∧
    (circleLoop scale (radius + 1).toNat (circleInit radius)).count ≤ radius ∧
    ((circleLoop scale (radius + 1).toNat (circleInit radius)).points.length : Int) =
      8 * (circleLoop scale (radius + 1).toNat (circleInit radius)).count := by
  have hc := circleLoop_count radius scale (radius + 1).toNat (circleInit radius)
    ⟨rfl, le_rfl, le_rfl, by simp only [circleInit]; omega, by simp [circleInit]⟩
  have ht := circleLoop_tight radius hr scale (radius + 1).toNat (circleInit radius)
    (circleInit_inv radius _)
    ⟨fun h => by simp [circleInit] at h, by simp only [circleInit]; omega⟩
  refine ⟨circleLoop_count_pos radius (by omega) scale, ?_, hc.hlen⟩
  rw [hc.hcount]
  exact ht.2

/-- For `radius >= 1` with `radius * 48` representable in 32-bit `int`, nothing overflows
and the floats written fit in the buffer. -/
theorem Bresenham_circle_fits_of_small (radius : Int) (hr : 1 ≤ radius)
    (hmax : radius * 48 ≤ 2147483647) (scale : K) :
    (Bresenham_circle radius scale).capacity = radius * 48 ∧
    (Bresenham_circle radius scale).ret =
      (circleLoop (scale * 2 / ((MESH_NUM - 1 : Int) : K)) (radius + 1).toNat
        (circleInit radius)).count * 8 * 6 ∧
    (Bresenham_circle radius scale).ret ≤ (Bresenham_circle radius scale).capacity ∧
    ((Bresenham_circle radius scale).points.length : Int) * 6 ≤
      (Bresenham_circle radius scale).capacity := by
  obtain ⟨h1, h2, h3⟩ := circleLoop_final radius hr (scale * 2 / ((MESH_NUM - 1 : Int) : K))
  have hcap : (Bresenham_circle radius scale).capacity = radius * 48 :=
    int32_eq_self _ (by omega) hmax
  have hret : (Bresenham_circle radius scale).ret =
      (circleLoop (scale * 2 / ((MESH_NUM - 1 : Int) : K)) (radius + 1).toNat
        (circleInit radius)).count * 8 * 6 := by
    show int32 ((circleLoop (scale * 2 / ((MESH_NUM - 1 : Int) : K)) (radius + 1).toNat
      (circleInit radius)).count * 8 * 6) = _
    exact int32_eq_self _ (by omega) (by omega)
  refine ⟨hcap, hret, ?_, ?_⟩
  · rw [hcap, hret]; omega
  · rw [hcap]
    show ((circleLoop (scale * 2 / ((MESH_NUM - 1 : Int) : K)) (radius + 1).toNat
      (circleInit radius)).points.length : Int) * 6 ≤ radius * 48
    omega

theorem Bresenham_circle_capacity (radius : Int) (scale : K) :
    (Bresenham_circle radius scale).capacity = int32 (radius * 48) := rfl

/-- For `radius >= 0` the first octant step alone writes 8 points, that is 48 floats. -/
theorem Bresenham_circle_writes_first_step (radius : Int) (hr : 0 ≤ radius) (scale : K) :
    48 ≤ ((Bresenham_circle radius scale).points.length : Int) * 6 := by
  have hc := circleLoop_count radius (scale * 2 / ((MESH_NUM - 1 : Int) : K))
    (radius + 1).toNat (circleInit radius)
    ⟨rfl, le_rfl, le_rfl, by simp only [circleInit]; omega, by simp [circleInit]⟩
  have h1 := circleLoop_count_pos radius hr (scale * 2 / ((MESH_NUM - 1 : Int) : K))
  have h3 := hc.hlen
  show 48 ≤ ((circleLoop (scale * 2 / ((MESH_NUM - 1 : Int) : K)) (radius + 1).toNat
    (circleInit radius)).points.length : Int) * 6
  omega

/-- C26 fails as stated: for radius 89478486 the product `radius * 48 = 4294967328` wraps
to 32 in 32-bit `int`, so 32 floats are allocated, while the first octant step alone
writes 48 floats. -/
theorem Bresenham_circle_large_radius_overrun :
    (Bresenham_circle 89478486 (1 : ℚ)).capacity = 32 ∧
    48 ≤ ((Bresenham_circle 89478486 (1 : ℚ)).points.length : Int) * 6 ∧
    ¬ ((Bresenham_circle 89478486 (1 : ℚ)).points.length : Int) * 6 ≤
      (Bresenham_circle 89478486 (1 : ℚ)).capacity := by
  have hcap : (Bresenham_circle 89478486 (1 : ℚ)).capacity = 32 := by
    rw [Bresenham_circle_capacity]
    norm_num [int32]
  have hlen := Bresenham_circle_writes_first_step 89478486 (by norm_num) (1 : ℚ)
  refine ⟨hcap, hlen, ?_⟩
  rw [hcap]
  omega

/-- C26 (as amended): for every `radius >= 1` whose product `radius * 48` is representable
in 32-bit `int` (`radius <= 44739242`), the number of octant steps of `Bresenham_circle`
is at most `radius`, whatever fuel beyond `radius + 1` iterations the loop is given, so
the `count * 48` floats it writes fit in the `radius * 48` floats it allocates. -/
theorem Bresenham_circle_fits (radius : Int) (hr : 1 ≤ radius)
    (hmax : radius * 48 ≤ 2147483647) (scale : K) (extra : Nat) :
    (circleLoop (scale * 2 / ((MESH_NUM - 1 : Int) : K)) ((radius + 1).toNat + extra)
        (circleInit radius)).count ≤ radius ∧
    (Bresenham_circle radius scale).capacity = radius * 48 ∧
    (Bresenham_circle radius scale).ret =
      (circleLoop (scale * 2 / ((MESH_NUM - 1 : Int) : K)) ((radius + 1).toNat + extra)
        (circleInit radius)).count * 48 ∧
    (Bresenham_circle radius scale).ret ≤ (Bresenham_circle radius scale).capacity ∧
    ((Bresenham_circle radius scale).points.length : Int) * 6 ≤
      (Bresenham_circle radius scale).capacity := by
  have hfuel : (circleInit radius : CircleState K).x - (circleInit radius : CircleState K).y + 1
      ≤ (((radius + 1).toNat : Nat) : Int) := by
    simp only [circleInit]; omega
  have hsame := circleLoop_fuel (scale * 2 / ((MESH_NUM - 1 : Int) : K)) (radius + 1).toNat
    extra (circleInit radius) hfuel
  obtain ⟨_, h2, _⟩ := circleLoop_final radius hr (scale * 2 / ((MESH_NUM - 1 : Int) : K))
  obtain ⟨hcap, hret, hle, hlen⟩ := Bresenham_circle_fits_of_small radius hr hmax scale
  refine ⟨by rw [hsame]; exact h2, hcap, ?_, hle, hlen⟩
  rw [hsame, hret]
  ring

/-- Witness for C26 (as amended): radius 44739242, the largest one whose buffer size is
representable, with three iterations of fuel to spare. -/
theorem Bresenham_circle_fits_witness :
    (circleLoop ((10 : ℚ) * 2 / ((MESH_NUM - 1 : Int) : ℚ))
        (((44739242 : Int) + 1).toNat + 3) (circleInit 44739242)).count ≤ (44739242 : Int) ∧
    (Bresenham_circle 44739242 (10 : ℚ)).capacity = 44739242 * 48 ∧
    (Bresenham_circle 44739242 (10 : ℚ)).ret =
      (circleLoop ((10 : ℚ) * 2 / ((MESH_NUM - 1 : Int) : ℚ))
        (((44739242 : Int) + 1).toNat + 3) (circleInit 44739242)).count * 48 ∧
    (Bresenham_circle 44739242 (10 : ℚ)).ret ≤ (Bresenham_circle 44739242 (10 : ℚ)).capacity ∧
    ((Bresenham_circle 44739242 (10 : ℚ)).points.length : Int) * 6 ≤
      (Bresenham_circle 44739242 (10 : ℚ)).capacity :=
  Bresenham_circle_fits 44739242 (by norm_num) (by norm_num) (10 : ℚ) 3

theorem circleStep_points (scale : K) (s : CircleState K) :
    (circleStep scale s).points = s.points ++ octantGroup scale (s.x, s.y) := by
  unfold circleStep
  simp only []
  split_ifs <;> rfl

/-- With the bookkeeping invariant, the next `x` is decided by the sign of
`2 (x^2 + (y+1)^2 - radius^2) + 1 - 2x`. -/
theorem circleStep_x (radius : Int) (scale : K) (s : CircleState K)
    (hinv : CircleInv radius scale s) :
    (circleStep scale s).x =
      if 2 * (s.x ^ 2 + (s.y + 1) ^ 2 - radius ^ 2) + 1 - 2 * s.x > 0 then s.x - 1 else s.x := by
  obtain ⟨herr, hxc, hyc, _, _, _, _⟩ := hinv
  have e : 2 * (s.radius_error + s.ychange) + s.xchange =
      2 * (s.x ^ 2 + (s.y + 1) ^ 2 - radius ^ 2) + 1 - 2 * s.x := by
    rw [herr, hxc, hyc]; ring
  unfold circleStep
  simp only [e]
  split_ifs <;> rfl

theorem circleLoop_points_walk (scale : K) (fuel : Nat) (s : CircleState K) :
    (circleLoop scale fuel s).points =
      s.points ++ (circleWalk scale fuel s).flatMap (octantGroup scale) ∧
    (circleLoop scale fuel s).count = s.count + ((circleWalk scale fuel s).length : Int) := by
  induction fuel generalizing s with
  | zero => simp [circleLoop, circleWalk]
  | succ fuel ih =>
    simp only [circleLoop, circleWalk]
    split_ifs with hg
    · obtain ⟨h1, h2⟩ := ih (circleStep scale s)
      rw [h1, h2, circleStep_points, circleStep_count_succ]
      refine ⟨by simp, ?_⟩
      rw [List.length_cons]
      push_cast
      ring
    · simp

/-- The octant walk: its first step is the current `(x, y)`, every step has `x >= y`,
its `j`-th step has `y` advanced by `j`, and each step follows from the one before by the
midpoint decision. -/
theorem circleWalk_spec (radius : Int) (scale : K) (fuel : Nat) (s : CircleState K)
    (hinv : CircleInv radius scale s) :
    (∀ p ∈ (circleWalk scale fuel s).head?, p = (s.x, s.y)) ∧
    List.Chain' (fun p q : Int × Int => q.2 = p.2 + 1 ∧
      q.1 = (if 2 * (p.1 ^ 2 + (p.2 + 1) ^ 2 - radius ^ 2) + 1 - 2 * p.1 > 0
        then p.1 - 1 else p.1)) (circleWalk scale fuel s) ∧
    (∀ q ∈ circleWalk scale fuel s, q.1 ≥ q.2 ∧ q.2 ≥ 0) ∧
    (∀ (j : Nat) (q : Int × Int), (circleWalk scale fuel s)[j]? = some q → q.2 = s.y + j) := by
  induction fuel generalizing s with
  | zero => simp [circleWalk]
  | succ fuel ih =>
    simp only [circleWalk]
    by_cases hg : s.x ≥ s.y
    · rw [if_pos hg]
      obtain ⟨h1, h2, h3, h4⟩ := ih (circleStep scale s) (circleStep_inv radius scale s hinv hg)
      refine ⟨by simp, ?_, ?_, ?_⟩
      · rw [List.chain'_cons']
        refine ⟨fun q hq => ?_, h2⟩
        rw [h1 q hq]
        exact ⟨circleStep_y scale s, circleStep_x radius scale s hinv⟩
      · intro q hq
        rcases List.mem_cons.mp hq with e | e
        · rw [e]; exact ⟨hg, hinv.hy⟩
        · exact h3 q e
      · intro j q hq
        cases j with
        | zero =>
          simp only [List.getElem?_cons_zero, Option.some.injEq] at hq
          rw [← hq]; simp
        | succ j =>
          simp only [List.getElem?_cons_succ] at hq
          rw [h4 j q hq, circleStep_y]
          push_cast
          ring
    · rw [if_neg hg]
      simp

/-- With enough fuel the octant walk is maximal: the step after its last one fails the
loop condition `x >= y`. -/
theorem circleWalk_last (radius : Int) (scale : K) (fuel : Nat) (s : CircleState K)
    (hinv : CircleInv radius scale s) (hfuel : s.x - s.y + 1 ≤ (fuel : Int)) :
    ∀ p ∈ (circleWalk scale fuel s).getLast?,
      (if 2 * (p.1 ^ 2 + (p.2 + 1) ^ 2 - radius ^ 2) + 1 - 2 * p.1 > 0
        then p.1 - 1 else p.1) < p.2 + 1 := by
  induction fuel generalizing s with
  | zero => simp [circleWalk]
  | succ fuel ih =>
    simp only [circleWalk]
    by_cases hg : s.x ≥ s.y
    · rw [if_pos hg]
      have hx := circleStep_x_le scale s
      have hy := circleStep_y scale s
      have hf : (circleStep scale s).x - (circleStep scale s).y + 1 ≤ (fuel : Int) := by
        push_cast at hfuel
        omega
      have hrec := ih (circleStep scale s) (circleStep_inv radius scale s hinv hg) hf
      intro p hp
      rw [List.getLast?_cons] at hp
      cases hw : (circleWalk scale fuel (circleStep scale s)).getLast? with
      | none =>
        rw [hw] at hp
        simp only [Option.getD_none, Option.mem_def, Option.some.injEq] at hp
        subst hp
        have hnil : circleWalk scale fuel (circleStep scale s) = [] :=
          List.getLast?_eq_none_iff.mp hw
        have hstop : (circleStep scale s).x < (circleStep scale s).y := by
          cases fuel with
          | zero => push_cast at hf; omega
          | succ f =>
            simp only [circleWalk] at hnil
            by_contra hc
            rw [if_pos (not_lt.mp hc)] at hnil
            simp at hnil
        rw [circleStep_x radius scale s hinv, hy] at hstop
        exact hstop
      | some q =>
        rw [hw] at hp
        simp only [Option.getD_some, Option.mem_def, Option.some.injEq] at hp
        subst hp
        exact hrec q hw
    · rw [if_neg hg]
      simp

/-- C17: for every `radius >= 0` the points written by `Bresenham_circle` are the
concatenation of groups of 8 consecutive points, one group per octant step of the loop.
The steps are the octant walk itself: the first is `(radius, 0)`, the `j`-th has `y = j`,
each follows from the one before by the midpoint decision (`y + 1`, and `x - 1` or `x`),
all have `x >= y >= 0`, the step after the last would have `x < y`, and there are `count`
of them.  Each group is exactly `(x,y)`, `(-x,y)`, `(-x,-y)`, `(x,-y)`, `(y,x)`, `(-y,x)`,
`(-y,-x)`, `(y,-x)` times the scale factor; hence the set of points written is closed
under `x -> -x`, `y -> -y` and `(x,y) -> (y,x)`. -/
theorem Bresenham_circle_octant_groups (radius : Int) (hr : 0 ≤ radius) (scale : K) :
    ∃ steps : List (Int × Int),
      steps.head? = some (radius, 0) ∧
      List.Chain' (fun p q : Int × Int => q.2 = p.2 + 1 ∧
        q.1 = (if 2 * (p.1 ^ 2 + (p.2 + 1) ^ 2 - radius ^ 2) + 1 - 2 * p.1 > 0
          then p.1 - 1 else p.1)) steps ∧
      (∀ q ∈ steps, q.1 ≥ q.2 ∧ q.2 ≥ 0) ∧
      (∀ (j : Nat) (q : Int × Int), steps[j]? = some q → q.2 = j) ∧
      (∀ p ∈ steps.getLast?,
        (if 2 * (p.1 ^ 2 + (p.2 + 1) ^ 2 - radius ^ 2) + 1 - 2 * p.1 > 0
          then p.1 - 1 else p.1) < p.2 + 1) ∧
      (Bresenham_circle radius scale).ret = int32 ((steps.length : Int) * 8 * 6) ∧
      (Bresenham_circle radius scale).points =
        steps.flatMap (fun q =>
          [((q.1 : K) * (scale * 2 / ((MESH_NUM - 1 : Int) : K)),
              (q.2 : K) * (scale * 2 / ((MESH_NUM - 1 : Int) : K))),
           (-((q.1 : K) * (scale * 2 / ((MESH_NUM - 1 : Int) : K))),
              (q.2 : K) * (scale * 2 / ((MESH_NUM - 1 : Int) : K))),
           (-((q.1 : K) * (scale * 2 / ((MESH_NUM - 1 : Int) : K))),
              -((q.2 : K) * (scale * 2 / ((MESH_NUM - 1 : Int) : K)))),
           ((q.1 : K) * (scale * 2 / ((MESH_NUM - 1 : Int) : K)),
              -((q.2 : K) * (scale * 2 / ((MESH_NUM - 1 : Int) : K)))),
           ((q.2 : K) * (scale * 2 / ((MESH_NUM - 1 : Int) : K)),
              (q.1 : K) * (scale * 2 / ((MESH_NUM - 1 : Int) : K))),
           (-((q.2 : K) * (scale * 2 / ((MESH_NUM - 1 : Int) : K))),
              (q.1 : K) * (scale * 2 / ((MESH_NUM - 1 : Int) : K))),
           (-((q.2 : K) * (scale * 2 / ((MESH_NUM - 1 : Int) : K))),
              -((q.1 : K) * (scale * 2 / ((MESH_NUM - 1 : Int) : K)))),
           ((q.2 : K) * (scale * 2 / ((MESH_NUM - 1 : Int) : K)),
              -((q.1 : K) * (scale * 2 / ((MESH_NUM - 1 : Int) : K))))]) ∧
      ∀ p ∈ (Bresenham_circle radius scale).points,
        (-p.1, p.2) ∈ (Bresenham_circle radius scale).points ∧
        (p.1, -p.2) ∈ (Bresenham_circle radius scale).points ∧
        (p.2, p.1) ∈ (Bresenham_circle radius scale).points := by
  have hinv : CircleInv radius (scale * 2 / ((MESH_NUM - 1 : Int) : K))
      (circleInit radius : CircleState K) := circleInit_inv radius _
  have hfuel : (circleInit radius : CircleState K).x - (circleInit radius : CircleState K).y + 1
      ≤ (((radius + 1).toNat : Nat) : Int) := by
    simp only [circleInit]; omega
  obtain ⟨h1, h2, h3, h4⟩ := circleWalk_spec radius (scale * 2 / ((MESH_NUM - 1 : Int) : K))
    (radius + 1).toNat (circleInit radius) hinv
  have h5 := circleWalk_last radius (scale * 2 / ((MESH_NUM - 1 : Int) : K))
    (radius + 1).toNat (circleInit radius) hinv hfuel
  obtain ⟨hp, hc⟩ := circleLoop_points_walk (scale * 2 / ((MESH_NUM - 1 : Int) : K))
    (radius + 1).toNat (circleInit radius)
  have hhead : (circleWalk (scale * 2 / ((MESH_NUM - 1 : Int) : K)) (radius + 1).toNat
      (circleInit radius)).head? = some (radius, 0) := by
    obtain ⟨n, hn⟩ : ∃ n : Nat, (radius + 1).toNat = n + 1 := ⟨radius.toNat, by omega⟩
    have hg : (circleInit radius : CircleState K).x ≥ (circleInit radius : CircleState K).y :=
      hr
    rw [hn]
    simp only [circleWalk, if_pos hg, List.head?_cons]
    rfl
  have hpts : (Bresenham_circle radius scale).points =
      (circleWalk (scale * 2 / ((MESH_NUM - 1 : Int) : K)) (radius + 1).toNat
        (circleInit radius)).flatMap (octantGroup (scale * 2 / ((MESH_NUM - 1 : Int) : K))) := by
    show (circleLoop (scale * 2 / ((MESH_NUM - 1 : Int) : K)) (radius + 1).toNat
      (circleInit radius)).points = _
    rw [hp]
    rfl
  refine ⟨_, hhead, h2, h3, ?_, h5, ?_, hpts, ?_⟩
  · intro j q hq
    have := h4 j q hq
    simpa [circleInit] using this
  · show int32 ((circleLoop (scale * 2 / ((MESH_NUM - 1 : Int) : K)) (radius + 1).toNat
      (circleInit radius)).count * 8 * 6) = _
    rw [hc]
    simp [circleInit]
  · intro p hp'
    rw [hpts] at hp' ⊢
    obtain ⟨q, hq, hpq⟩ := List.mem_flatMap.mp hp'
    obtain ⟨e1, e2, e3⟩ := octantGroup_closed _ q p hpq
    exact ⟨List.mem_flatMap.mpr ⟨q, hq, e1⟩, List.mem_flatMap.mpr ⟨q, hq, e2⟩,
      List.mem_flatMap.mpr ⟨q, hq, e3⟩⟩

/-- Witness for C17: radius 1 at scale factor 1. -/
theorem Bresenham_circle_octant_groups_witness :
    ∃ steps : List (Int × Int),
      steps.head? = some ((1 : Int), (0 : Int)) ∧
      List.Chain' (fun p q : Int × Int => q.2 = p.2 + 1 ∧
        q.1 = (if 2 * (p.1 ^ 2 + (p.2 + 1) ^ 2 - (1 : Int) ^ 2) + 1 - 2 * p.1 > 0
          then p.1 - 1 else p.1)) steps ∧
      (∀ q ∈ steps, q.1 ≥ q.2 ∧ q.2 ≥ 0) ∧
      (∀ (j : Nat) (q : Int × Int), steps[j]? = some q → q.2 = j) ∧
      (∀ p ∈ steps.getLast?,
        (if 2 * (p.1 ^ 2 + (p.2 + 1) ^ 2 - (1 : Int) ^ 2) + 1 - 2 * p.1 > 0
          then p.1 - 1 else p.1) < p.2 + 1) ∧
      (Bresenham_circle 1 (10 : ℚ)).ret = int32 ((steps.length : Int) * 8 * 6) ∧
      (Bresenham_circle 1 (10 : ℚ)).points =
        steps.flatMap (fun q =>
          [((q.1 : ℚ) * ((10 : ℚ) * 2 / ((MESH_NUM - 1 : Int) : ℚ)),
              (q.2 : ℚ) * ((10 : ℚ) * 2 / ((MESH_NUM - 1 : Int) : ℚ))),
           (-((q.1 : ℚ) * ((10 : ℚ) * 2 / ((MESH_NUM - 1 : Int) : ℚ))),
              (q.2 : ℚ) * ((10 : ℚ) * 2 / ((MESH_NUM - 1 : Int) : ℚ))),
           (-((q.1 : ℚ) * ((10 : ℚ) * 2 / ((MESH_NUM - 1 : Int) : ℚ))),
              -((q.2 : ℚ) * ((10 : ℚ) * 2 / ((MESH_NUM - 1 : Int) : ℚ)))),
           ((q.1 : ℚ) * ((10 : ℚ) * 2 / ((MESH_NUM - 1 : Int) : ℚ)),
              -((q.2 : ℚ) * ((10 : ℚ) * 2 / ((MESH_NUM - 1 : Int) : ℚ)))),
           ((q.2 : ℚ) * ((10 : ℚ) * 2 / ((MESH_NUM - 1 : Int) : ℚ)),
              (q.1 : ℚ) * ((10 : ℚ) * 2 / ((MESH_NUM - 1 : Int) : ℚ))),
           (-((q.2 : ℚ) * ((10 : ℚ) * 2 / ((MESH_NUM - 1 : Int) : ℚ))),
              (q.1 : ℚ) * ((10 : ℚ) * 2 / ((MESH_NUM - 1 : Int) : ℚ))),
           (-((q.2 : ℚ) * ((10 : ℚ) * 2 / ((MESH_NUM - 1 : Int) : ℚ))),
              -((q.1 : ℚ) * ((10 : ℚ) * 2 / ((MESH_NUM - 1 : Int) : ℚ)))),
           ((q.2 : ℚ) * ((10 : ℚ) * 2 / ((MESH_NUM - 1 : Int) : ℚ)),
              -((q.1 : ℚ) * ((10 : ℚ) * 2 / ((MESH_NUM - 1 : Int) : ℚ))))]) ∧
      ∀ p ∈ (Bresenham_circle 1 (10 : ℚ)).points,
        (-p.1, p.2) ∈ (Bresenham_circle 1 (10 : ℚ)).points ∧
        (p.1, -p.2) ∈ (Bresenham_circle 1 (10 : ℚ)).points ∧
        (p.2, p.1) ∈ (Bresenham_circle 1 (10 : ℚ)).points :=
  Bresenham_circle_octant_groups 1 (by decide) (10 : ℚ)

end Homework3

/-! ## Bezier evaluation in the range of `float` -/

namespace Homework8

theorem Flt.ofRat_eq_fin (max q : ℚ) (hlo : -max ≤ q) (hhi : q ≤ max) :
    Flt.ofRat max q = Flt.fin q := by
  unfold Flt.ofRat
  rw [if_neg (not_lt.mpr hhi), if_neg (not_lt.mpr hlo)]

theorem Flt.mul_nan (max : ℚ) (x : Flt) : Flt.mul max x Flt.nan = Flt.nan := by
  cases x <;> rfl

theorem Flt.add_nan (max : ℚ) (x : Flt) : Flt.add max x Flt.nan = Flt.nan := by
  cases x <;> rfl

theorem Flt.nan_add (max : ℚ) (x : Flt) : Flt.add max Flt.nan x = Flt.nan := by
  cases x <;> rfl

theorem FLT_MAX_pos : (1 : ℚ) ≤ FLT_MAX := by norm_num [FLT_MAX]

theorem FLT_MAX_le_DBL_MAX : FLT_MAX ≤ DBL_MAX := by norm_num [FLT_MAX, DBL_MAX]

theorem DBL_MAX_pos : (1 : ℚ) ≤ DBL_MAX := le_trans FLT_MAX_pos FLT_MAX_le_DBL_MAX

/-- The factorial of 34 is the last one in the range of `float`. -/
theorem factorial_le_FLT_MAX (n : Nat) (hn : n ≤ 34) : (n.factorial : ℚ) ≤ FLT_MAX := by
  have h1 : n.factorial ≤ (34 : Nat).factorial := Nat.factorial_le hn
  have h2 : ((34 : Nat).factorial : ℚ) ≤ FLT_MAX := by
    norm_num [Nat.factorial, FLT_MAX]
  exact le_trans (by exact_mod_cast h1) h2

theorem Flt.mul_fin_nat (a : ℚ) (m : Nat) (ha : 0 ≤ a) (h : a * (m : ℚ) ≤ FLT_MAX) :
    Flt.mul FLT_MAX (Flt.fin a) (Flt.fin (((m : Int)) : ℚ)) = Flt.fin (a * (m : ℚ)) := by
  have hm : (0 : ℚ) ≤ (m : ℚ) := Nat.cast_nonneg m
  have h0 : 0 ≤ a * (m : ℚ) := mul_nonneg ha hm
  have hpos := FLT_MAX_pos
  show Flt.ofRat FLT_MAX (a * (((m : Int)) : ℚ)) = _
  rw [Int.cast_natCast]
  exact Flt.ofRat_eq_fin _ _ (by linarith) h

theorem BernsteinLoop32_eq (i n : Nat) (hin : i ≤ n) (fuel k : Nat) (hk : k ≤ fuel + 1)
    (a b c : ℚ) (ha : 0 ≤ a) (hb : 0 ≤ b) (hc : 0 ≤ c)
    (hA : a * (k.factorial : ℚ) ≤ FLT_MAX)
    (hB : b * ((min k i).factorial : ℚ) ≤ FLT_MAX)
    (hC : c * ((min k (n - i)).factorial : ℚ) ≤ FLT_MAX) :
    BernsteinLoop32 (i : Int) (n : Int) fuel (k : Int) (Flt.fin a, Flt.fin b, Flt.fin c) =
      (Flt.fin (a * (k.factorial : ℚ)), Flt.fin (b * ((min k i).factorial : ℚ)),
        Flt.fin (c * ((min k (n - i)).factorial : ℚ))) := by
  induction fuel generalizing k a b c with
  | zero =>
    have h1 : k.factorial = 1 := by interval_cases k <;> rfl
    have h2 : (min k i).factorial = 1 := by
      have : min k i ≤ 1 := le_trans (min_le_left _ _) hk
      interval_cases (min k i) <;> rfl
    have h3 : (min k (n - i)).factorial = 1 := by
      have : min k (n - i) ≤ 1 := le_trans (min_le_left _ _) hk
      interval_cases (min k (n - i)) <;> rfl
    simp [BernsteinLoop32, h1, h2, h3]
  | succ fuel ih =>
    by_cases hgt : 1 < k
    · obtain ⟨k', rfl⟩ : ∃ k', k = k' + 1 := ⟨k - 1, by omega⟩
      have hcast : (((k' + 1 : Nat) : Int) - 1) = (k' : Int) := by push_cast; ring
      have hg : ((k' + 1 : Nat) : Int) > 1 := by omega
      have hstep : ∀ (x : ℚ) (m : Nat), 0 ≤ x → x * ((m + 1).factorial : ℚ) ≤ FLT_MAX →
          x * ((m + 1 : Nat) : ℚ) ≤ FLT_MAX := by
        intro x m hx h
        have hf : (1 : ℚ) ≤ (m.factorial : ℚ) := by exact_mod_cast Nat.factorial_pos m
        have hm : (0 : ℚ) ≤ ((m + 1 : Nat) : ℚ) := Nat.cast_nonneg _
        have e : x * ((m + 1).factorial : ℚ) = x * ((m + 1 : Nat) : ℚ) * (m.factorial : ℚ) := by
          rw [Nat.factorial_succ]; push_cast; ring
        rw [e] at h
        nlinarith [mul_nonneg hx hm]
      have hmA := Flt.mul_fin_nat a (k' + 1) ha (hstep a k' ha hA)
      have hB' : ∃ b' : ℚ,
          (if ((k' + 1 : Nat) : Int) ≤ (i : Int)
            then Flt.mul FLT_MAX (Flt.fin b) (Flt.fin ((((k' + 1 : Nat) : Int)) : ℚ))
            else Flt.fin b) = Flt.fin b' ∧ 0 ≤ b' ∧
          b' * ((min k' i).factorial : ℚ) = b * ((min (k' + 1) i).factorial : ℚ) := by
        by_cases hle : k' + 1 ≤ i
        · have hle' : ((k' + 1 : Nat) : Int) ≤ (i : Int) := by omega
          rw [min_eq_left hle] at hB
          refine ⟨b * ((k' + 1 : Nat) : ℚ), ?_, mul_nonneg hb (Nat.cast_nonneg _), ?_⟩
          · rw [if_pos hle']
            exact Flt.mul_fin_nat b (k' + 1) hb (hstep b k' hb hB)
          · rw [min_eq_left hle, min_eq_left (by omega : k' ≤ i), Nat.factorial_succ]
            push_cast
            ring
        · have hle' : ¬ ((k' + 1 : Nat) : Int) ≤ (i : Int) := by omega
          refine ⟨b, by rw [if_neg hle'], hb, ?_⟩
          rw [min_eq_right (by omega : i ≤ k' + 1), min_eq_right (by omega : i ≤ k')]
      have hC' : ∃ c' : ℚ,
          (if ((k' + 1 : Nat) : Int) ≤ (n : Int) - (i : Int)
            then Flt.mul FLT_MAX (Flt.fin c) (Flt.fin ((((k' + 1 : Nat) : Int)) : ℚ))
            else Flt.fin c) = Flt.fin c' ∧ 0 ≤ c' ∧
          c' * ((min k' (n - i)).factorial : ℚ) =
            c * ((min (k' + 1) (n - i)).factorial : ℚ) := by
        by_cases hle : k' + 1 ≤ n - i
        · have hle' : ((k' + 1 : Nat) : Int) ≤ (n : Int) - (i : Int) := by omega
          rw [min_eq_left hle] at hC
          refine ⟨c * ((k' + 1 : Nat) : ℚ), ?_, mul_nonneg hc (Nat.cast_nonneg _), ?_⟩
          · rw [if_pos hle']
            exact Flt.mul_fin_nat c (k' + 1) hc (hstep c k' hc hC)
          · rw [min_eq_left hle, min_eq_left (by omega : k' ≤ n - i), Nat.factorial_succ]
            push_cast
            ring
        · have hle' : ¬ ((k' + 1 : Nat) : Int) ≤ (n : Int) - (i : Int) := by omega
          refine ⟨c, by rw [if_neg hle'], hc, ?_⟩
          rw [min_eq_right (by omega : n - i ≤ k' + 1), min_eq_right (by omega : n - i ≤ k')]
      obtain ⟨b', hb1, hb2, hb3⟩ := hB'
      obtain ⟨c', hc1, hc2, hc3⟩ := hC'
      have eA : a * ((k' + 1 : Nat) : ℚ) * (k'.factorial : ℚ) = a * ((k' + 1).factorial : ℚ) := by
        rw [Nat.factorial_succ]; push_cast; ring
      simp only [BernsteinLoop32, if_pos hg, hcast, hmA, hb1, hc1]
      rw [ih k' (by omega) _ _ _ (mul_nonneg ha (Nat.cast_nonneg _)) hb2 hc2
        (by rw [eA]; exact hA) (by rw [hb3]; exact hB) (by rw [hc3]; exact hC)]
      rw [eA, hb3, hc3]
    · have hg : ¬ ((k : Nat) : Int) > 1 := by omega
      have h1 : k.factorial = 1 := by interval_cases k <;> rfl
      have h2 : (min k i).factorial = 1 := by
        have : min k i ≤ 1 := le_trans (min_le_left _ _) (by omega)
        interval_cases (min k i) <;> rfl
      have h3 : (min k (n - i)).factorial = 1 := by
        have : min k (n - i) ≤ 1 := le_trans (min_le_left _ _) (by omega)
        interval_cases (min k (n - i)) <;> rfl
      simp [BernsteinLoop32, hg, h1, h2, h3]

/-- Up to `n = 34` the three accumulators of `Bernstein` stay in the range of `float`:
they end as `n!`, `i!` and `(n - i)!`. -/
theorem BernsteinLoop32_factorials (i n : Nat) (hin : i ≤ n) (hn : n ≤ 34) :
    BernsteinLoop32 (i : Int) (n : Int) ((n : Int) - 1).toNat (n : Int)
        (Flt.fin 1, Flt.fin 1, Flt.fin 1) =
      (Flt.fin (n.factorial : ℚ), Flt.fin (i.factorial : ℚ),
        Flt.fin ((n - i).factorial : ℚ)) := by
  rw [BernsteinLoop32_eq i n hin _ n (by omega) 1 1 1 (by norm_num) (by norm_num) (by norm_num)
    (by rw [one_mul]; exact factorial_le_FLT_MAX n hn)
    (by rw [one_mul]; exact factorial_le_FLT_MAX _ (le_trans (min_le_left _ _) hn))
    (by rw [one_mul]; exact factorial_le_FLT_MAX _ (le_trans (min_le_left _ _) hn))]
  rw [min_eq_right hin, min_eq_right (Nat.sub_le n i)]
  simp

theorem Flt.ofRat_zero (max : ℚ) (h : 1 ≤ max) : Flt.ofRat max 0 = Flt.fin 0 :=
  Flt.ofRat_eq_fin _ _ (by linarith) (by linarith)

theorem Flt.ofRat_one (max : ℚ) (h : 1 ≤ max) : Flt.ofRat max 1 = Flt.fin 1 :=
  Flt.ofRat_eq_fin _ _ (by linarith) (by linarith)

theorem Flt.pow_one (max : ℚ) (h : 1 ≤ max) (m : Int) :
    Flt.pow max (Flt.fin 1) m = Flt.fin 1 := by
  unfold Flt.pow
  by_cases hm : m = 0
  · rw [if_pos hm]
  · rw [if_neg hm]
    simp [Flt.ofRat_one max h]

theorem Flt.pow_zero_base (max : ℚ) (h : 1 ≤ max) (m : Nat) :
    Flt.pow max (Flt.fin 0) (m : Int) = Flt.fin (if m = 0 then 1 else 0) := by
  unfold Flt.pow
  by_cases hm : m = 0
  · subst hm; simp
  · have hm' : ¬ ((m : Int) = 0) := by omega
    have hneg : ¬ ((0 : ℚ) = 0 ∧ (m : Int) < 0) := by omega
    rw [if_neg hm', if_neg hm]
    show (if (0 : ℚ) = 0 ∧ (m : Int) < 0 then _ else _) = _
    rw [if_neg hneg, zero_zpow _ hm', Flt.ofRat_zero max h]

/-- At `t = 0` and for at most 35 control points (`n ≤ 34`) the weight computed by
`Bernstein` is exactly 1 for `i = 0` and 0 otherwise. -/
theorem Bernstein32_at_zero (i n : Nat) (hin : i ≤ n) (hn : n ≤ 34) :
    Bernstein32 (Flt.fin 0) (i : Int) (n : Int) = Flt.fin (if i = 0 then 1 else 0) := by
  have hD := DBL_MAX_pos
  have hF := FLT_MAX_pos
  have hFD := FLT_MAX_le_DBL_MAX
  have hnf : (n.factorial : ℚ) ≤ FLT_MAX := factorial_le_FLT_MAX n hn
  have hn1 : (1 : ℚ) ≤ (n.factorial : ℚ) := by exact_mod_cast Nat.factorial_pos n
  have hden : ((i.factorial * (n - i).factorial : Nat) : ℚ) ≤ (n.factorial : ℚ) := by
    exact_mod_cast Nat.le_of_dvd (Nat.factorial_pos n) (Nat.factorial_mul_factorial_dvd_factorial hin)
  have hden1 : (1 : ℚ) ≤ ((i.factorial * (n - i).factorial : Nat) : ℚ) := by
    exact_mod_cast Nat.mul_pos (Nat.factorial_pos i) (Nat.factorial_pos (n - i))
  have e : (n : Int) - (i : Int) = ((n - i : Nat) : Int) := by omega
  unfold Bernstein32
  simp only [BernsteinLoop32_factorials i n hin hn]
  have hsub : Flt.sub FLT_MAX (Flt.fin 1) (Flt.fin 0) = Flt.fin 1 := by
    show Flt.ofRat FLT_MAX (1 - 0) = _
    rw [sub_zero, Flt.ofRat_one _ hF]
  have hdenF : Flt.mul FLT_MAX (Flt.fin (i.factorial : ℚ)) (Flt.fin ((n - i).factorial : ℚ)) =
      Flt.fin ((i.factorial * (n - i).factorial : Nat) : ℚ) := by
    show Flt.ofRat FLT_MAX _ = _
    rw [← Nat.cast_mul]
    exact Flt.ofRat_eq_fin _ _ (by linarith) (by linarith)
  rw [hsub, Flt.pow_one _ hD, Flt.pow_zero_base _ hD, hdenF]
  have hnum : ∀ w : ℚ, w = 0 ∨ w = 1 →
      Flt.mul DBL_MAX (Flt.mul DBL_MAX (Flt.fin (n.factorial : ℚ)) (Flt.fin w)) (Flt.fin 1) =
        Flt.fin ((n.factorial : ℚ) * w) := by
    intro w hw
    have h1 : Flt.mul DBL_MAX (Flt.fin (n.factorial : ℚ)) (Flt.fin w) =
        Flt.fin ((n.factorial : ℚ) * w) := by
      show Flt.ofRat DBL_MAX _ = _
      rcases hw with rfl | rfl
      · rw [mul_zero]; exact Flt.ofRat_zero _ hD
      · rw [mul_one]; exact Flt.ofRat_eq_fin _ _ (by linarith) (by linarith)
    rw [h1]
    show Flt.ofRat DBL_MAX _ = _
    rw [mul_one]
    rcases hw with rfl | rfl
    · rw [mul_zero]; exact Flt.ofRat_zero _ hD
    · rw [mul_one]; exact Flt.ofRat_eq_fin _ _ (by linarith) (by linarith)
  by_cases hi : i = 0
  · subst hi
    rw [if_pos rfl, hnum 1 (Or.inr rfl)]
    have hne : ((((Nat.factorial 0) * (n - 0).factorial : Nat)) : ℚ) ≠ 0 := by linarith
    have hq : (n.factorial : ℚ) * 1 / ((((Nat.factorial 0) * (n - 0).factorial : Nat)) : ℚ) = 1 := by
      simp only [Nat.factorial_zero, Nat.sub_zero, one_mul, mul_one]
      exact div_self (by linarith)
    show Flt.narrow (if _ = (0 : ℚ) then _ else Flt.ofRat DBL_MAX _) = _
    rw [if_neg hne, hq, Flt.ofRat_one _ hD]
    show Flt.ofRat FLT_MAX 1 = _
    rw [Flt.ofRat_one _ hF]
  · rw [if_neg hi, hnum 0 (Or.inl rfl)]
    have hne : ((i.factorial * (n - i).factorial : Nat) : ℚ) ≠ 0 := by linarith
    show Flt.narrow (if _ = (0 : ℚ) then _ else Flt.ofRat DBL_MAX _) = _
    rw [if_neg hne, mul_zero, zero_div, Flt.ofRat_zero _ hD]
    show Flt.ofRat FLT_MAX 0 = _
    rw [Flt.ofRat_zero _ hF]

/-- At `t = 1` and for at most 35 control points (`n ≤ 34`) the weight computed by
`Bernstein` is exactly 1 for `i = n` and 0 otherwise. -/
theorem Bernstein32_at_one (i n : Nat) (hin : i ≤ n) (hn : n ≤ 34) :
    Bernstein32 (Flt.fin 1) (i : Int) (n : Int) = Flt.fin (if i = n then 1 else 0) := by
  have hD := DBL_MAX_pos
  have hF := FLT_MAX_pos
  have hFD := FLT_MAX_le_DBL_MAX
  have hnf : (n.factorial : ℚ) ≤ FLT_MAX := factorial_le_FLT_MAX n hn
  have hn1 : (1 : ℚ) ≤ (n.factorial : ℚ) := by exact_mod_cast Nat.factorial_pos n
  have hden : ((i.factorial * (n - i).factorial : Nat) : ℚ) ≤ (n.factorial : ℚ) := by
    exact_mod_cast Nat.le_of_dvd (Nat.factorial_pos n) (Nat.factorial_mul_factorial_dvd_factorial hin)
  have hden1 : (1 : ℚ) ≤ ((i.factorial * (n - i).factorial : Nat) : ℚ) := by
    exact_mod_cast Nat.mul_pos (Nat.factorial_pos i) (Nat.factorial_pos (n - i))
  have e : (n : Int) - (i : Int) = ((n - i : Nat) : Int) := by omega
  unfold Bernstein32
  simp only [BernsteinLoop32_factorials i n hin hn]
  have hsub : Flt.sub FLT_MAX (Flt.fin 1) (Flt.fin 1) = Flt.fin 0 := by
    show Flt.ofRat FLT_MAX (1 - 1) = _
    rw [sub_self, Flt.ofRat_zero _ hF]
  have hdenF : Flt.mul FLT_MAX (Flt.fin (i.factorial : ℚ)) (Flt.fin ((n - i).factorial : ℚ)) =
      Flt.fin ((i.factorial * (n - i).factorial : Nat) : ℚ) := by
    show Flt.ofRat FLT_MAX _ = _
    rw [← Nat.cast_mul]
    exact Flt.ofRat_eq_fin _ _ (by linarith) (by linarith)
  rw [hsub, Flt.pow_one _ hD, e, Flt.pow_zero_base _ hD, hdenF]
  have hnum : ∀ w : ℚ, w = 0 ∨ w = 1 →
      Flt.mul DBL_MAX (Flt.mul DBL_MAX (Flt.fin (n.factorial : ℚ)) (Flt.fin 1)) (Flt.fin w) =
        Flt.fin ((n.factorial : ℚ) * w) := by
    intro w hw
    have h1 : Flt.mul DBL_MAX (Flt.fin (n.factorial : ℚ)) (Flt.fin 1) =
        Flt.fin (n.factorial : ℚ) := by
      show Flt.ofRat DBL_MAX _ = _
      rw [mul_one]; exact Flt.ofRat_eq_fin _ _ (by linarith) (by linarith)
    rw [h1]
    show Flt.ofRat DBL_MAX _ = _
    rcases hw with rfl | rfl
    · rw [mul_zero]; exact Flt.ofRat_zero _ hD
    · rw [mul_one]; exact Flt.ofRat_eq_fin _ _ (by linarith) (by linarith)
  have hne : ((i.factorial * (n - i).factorial : Nat) : ℚ) ≠ 0 := by linarith
  by_cases hi : i = n
  · subst hi
    have hz : i - i = 0 := Nat.sub_self i
    rw [if_pos hz, if_pos rfl, hnum 1 (Or.inr rfl)]
    have hq : (i.factorial : ℚ) * 1 / ((i.factorial * (i - i).factorial : Nat) : ℚ) = 1 := by
      simp only [Nat.sub_self, Nat.factorial_zero, mul_one]
      exact div_self (by linarith)
    show Flt.narrow (if _ = (0 : ℚ) then _ else Flt.ofRat DBL_MAX _) = _
    rw [if_neg hne, hq, Flt.ofRat_one _ hD]
    show Flt.ofRat FLT_MAX 1 = _
    rw [Flt.ofRat_one _ hF]
  · have hz : ¬ (n - i = 0) := by omega
    rw [if_neg hz, if_neg hi, hnum 0 (Or.inl rfl)]
    show Flt.narrow (if _ = (0 : ℚ) then _ else Flt.ofRat DBL_MAX _) = _
    rw [if_neg hne, mul_zero, zero_div, Flt.ofRat_zero _ hD]
    show Flt.ofRat FLT_MAX 0 = _
    rw [Flt.ofRat_zero _ hF]

theorem Flt.step_zero (c px : ℚ) (hc : |c| ≤ FLT_MAX) :
    Flt.add FLT_MAX (Flt.fin c) (Flt.mul FLT_MAX (Flt.fin px) (Flt.fin 0)) = Flt.fin c := by
  have hF := FLT_MAX_pos
  have h1 : Flt.mul FLT_MAX (Flt.fin px) (Flt.fin 0) = Flt.fin 0 := by
    show Flt.ofRat FLT_MAX _ = _
    rw [mul_zero, Flt.ofRat_zero _ hF]
  rw [h1]
  show Flt.ofRat FLT_MAX _ = _
  rw [add_zero]
  exact Flt.ofRat_eq_fin _ _ (neg_le_of_abs_le hc) (le_of_abs_le hc)

theorem Flt.step_one (px : ℚ) (hp : |px| ≤ FLT_MAX) :
    Flt.add FLT_MAX (Flt.fin 0) (Flt.mul FLT_MAX (Flt.fin px) (Flt.fin 1)) = Flt.fin px := by
  have h1 : Flt.mul FLT_MAX (Flt.fin px) (Flt.fin 1) = Flt.fin px := by
    show Flt.ofRat FLT_MAX _ = _
    rw [mul_one]
    exact Flt.ofRat_eq_fin _ _ (neg_le_of_abs_le hp) (le_of_abs_le hp)
  rw [h1]
  show Flt.ofRat FLT_MAX _ = _
  rw [zero_add]
  exact Flt.ofRat_eq_fin _ _ (neg_le_of_abs_le hp) (le_of_abs_le hp)

theorem evaluateLoop32_zero_tail (n : Nat) (hn : n ≤ 34) (rest : List (Point ℚ)) :
    ∀ (i : Nat), 1 ≤ i → i + rest.length ≤ n + 1 → ∀ (cx cy : ℚ),
      |cx| ≤ FLT_MAX → |cy| ≤ FLT_MAX →
      evaluateLoop32 (Flt.fin 0) (n : Int) (rest.map Point.toFlt) (i : Int)
        (Flt.fin cx, Flt.fin cy) = (Flt.fin cx, Flt.fin cy) := by
  induction rest with
  | nil => intro i _ _ cx cy _ _; rfl
  | cons p rest ih =>
    intro i hi hlen cx cy hcx hcy
    simp only [List.length_cons] at hlen
    have hb : Bernstein32 (Flt.fin 0) (i : Int) (n : Int) = Flt.fin 0 := by
      rw [Bernstein32_at_zero i n (by omega) hn, if_neg (by omega)]
    have e : (i : Int) + 1 = ((i + 1 : Nat) : Int) := by push_cast; ring
    simp only [List.map_cons, evaluateLoop32, hb, Point.toFlt, Flt.step_zero _ _ hcx,
      Flt.step_zero _ _ hcy, e]
    exact ih (i + 1) (by omega) (by omega) cx cy hcx hcy

theorem evaluateLoop32_one (n : Nat) (hn : n ≤ 34) (pts : List (Point ℚ)) :
    ∀ (i : Nat), i + pts.length = n + 1 →
      (∀ q ∈ pts, |q.x| ≤ FLT_MAX ∧ |q.y| ≤ FLT_MAX) →
      ∀ p : Point ℚ, pts.getLast? = some p →
      evaluateLoop32 (Flt.fin 1) (n : Int) (pts.map Point.toFlt) (i : Int)
        (Flt.fin 0, Flt.fin 0) = (Flt.fin p.x, Flt.fin p.y) := by
  induction pts with
  | nil => intro i _ _ p hp; simp at hp
  | cons q rest ih =>
    intro i hlen hfin p hp
    have h0 : |(0 : ℚ)| ≤ FLT_MAX := by rw [abs_zero]; linarith [FLT_MAX_pos]
    cases rest with
    | nil =>
      simp only [List.length_cons, List.length_nil] at hlen
      have hi : i = n := by omega
      subst hi
      have hb : Bernstein32 (Flt.fin 1) (i : Int) (i : Int) = Flt.fin 1 := by
        rw [Bernstein32_at_one i i le_rfl hn, if_pos rfl]
      have hq := hfin q (List.mem_cons_self _ _)
      have hpq : q = p := by simpa using hp
      subst hpq
      simp only [List.map_cons, List.map_nil, evaluateLoop32, hb, Point.toFlt,
        Flt.step_one _ hq.1, Flt.step_one _ hq.2]
    | cons r rest =>
      simp only [List.length_cons] at hlen
      have hb : Bernstein32 (Flt.fin 1) (i : Int) (n : Int) = Flt.fin 0 := by
        rw [Bernstein32_at_one i n (by omega) hn, if_neg (by omega)]
      have e : (i : Int) + 1 = ((i + 1 : Nat) : Int) := by push_cast; ring
      have hp' : (r :: rest).getLast? = some p := by
        rw [List.getLast?_cons_cons] at hp; exact hp
      have ih' := ih (i + 1) (by simp only [List.length_cons]; omega)
        (fun x hx => hfin x (List.mem_cons_of_mem _ hx)) p hp'
      rw [List.map_cons]
      simp only [evaluateLoop32, hb, Point.toFlt, Flt.step_zero _ _ h0, e]
      exact ih'

theorem BernsteinLoop32_35 :
    BernsteinLoop32 0 35 34 35 (Flt.fin 1, Flt.fin 1, Flt.fin 1) =
      (Flt.inf false, Flt.fin 1, Flt.inf false) := by
  norm_num [BernsteinLoop32, Flt.mul, Flt.ofRat, FLT_MAX]

/-- With 36 control points the factorial of 35 leaves the range of `float`: the first
weight is the quotient of two infinities at `t = 0`. -/
theorem Bernstein32_at_zero_35 : Bernstein32 (Flt.fin 0) 0 35 = Flt.nan := by
  have e : ((35 : Int) - 1).toNat = 34 := by decide
  unfold Bernstein32
  rw [e]
  simp only [BernsteinLoop32_35]
  norm_num [Flt.mul, Flt.ofRat, FLT_MAX, DBL_MAX, Flt.pow, Flt.div, Flt.narrow, Flt.sub]

/-- With 36 control points the first weight is the product of an infinity and zero at
`t = 1`. -/
theorem Bernstein32_at_one_35 : Bernstein32 (Flt.fin 1) 0 35 = Flt.nan := by
  have e : ((35 : Int) - 1).toNat = 34 := by decide
  unfold Bernstein32
  rw [e]
  simp only [BernsteinLoop32_35]
  norm_num [Flt.mul, Flt.ofRat, FLT_MAX, DBL_MAX, Flt.pow, Flt.div, Flt.narrow, Flt.sub]

theorem evaluateLoop32_nan (t : Flt) (n : Int) (pts : List (Point Flt)) :
    ∀ i : Int, evaluateLoop32 t n pts i (Flt.nan, Flt.nan) = (Flt.nan, Flt.nan) := by
  induction pts with
  | nil => intro i; rfl
  | cons p rest ih =>
    intro i
    simp only [evaluateLoop32, Flt.nan_add]
    exact ih (i + 1)

/-- With 36 control points the Bernstein evaluation is NaN in both coordinates at `t = 0`
and at `t = 1`, whatever the points are. -/
theorem evaluate32_nan (points : List (Point Flt)) (h : points.length = 36) :
    evaluate32 (Flt.fin 0) points = ⟨Flt.nan, Flt.nan⟩ ∧
      evaluate32 (Flt.fin 1) points = ⟨Flt.nan, Flt.nan⟩ := by
  have e : ((36 : Nat) : Int) - 1 = 35 := by norm_num
  cases points with
  | nil => simp at h
  | cons p rest =>
    constructor
    · simp only [evaluate32, h, e, evaluateLoop32, Bernstein32_at_zero_35, Flt.mul_nan,
        Flt.add_nan, evaluateLoop32_nan]
    · simp only [evaluate32, h, e, evaluateLoop32, Bernstein32_at_one_35, Flt.mul_nan,
        Flt.add_nan, evaluateLoop32_nan]

/-- C4 fails on the code for 36 control points: the evaluation at `t = 0` is not the
first control point and the evaluation at `t = 1` is not the last one, since `35!` is
beyond the range of `float` and both evaluations are NaN. -/
theorem evaluate32_endpoints_overflow :
    evaluate32 (Flt.fin 0) (controlPolygon36.map Point.toFlt) = ⟨Flt.nan, Flt.nan⟩ ∧
      evaluate32 (Flt.fin 1) (controlPolygon36.map Point.toFlt) = ⟨Flt.nan, Flt.nan⟩ ∧
      controlPolygon36.length = 36 ∧
      some (evaluate32 (Flt.fin 0) (controlPolygon36.map Point.toFlt)) ≠
        (controlPolygon36.map Point.toFlt).head? ∧
      some (evaluate32 (Flt.fin 1) (controlPolygon36.map Point.toFlt)) ≠
        (controlPolygon36.map Point.toFlt).getLast? := by
  have hlen : (controlPolygon36.map Point.toFlt).length = 36 := by
    simp [controlPolygon36]
  have hnan := evaluate32_nan (controlPolygon36.map Point.toFlt) hlen
  have hmem : (⟨Flt.nan, Flt.nan⟩ : Point Flt) ∉ controlPolygon36.map Point.toFlt := by
    intro hm
    obtain ⟨q, _, hq⟩ := List.mem_map.mp hm
    simp [Point.toFlt] at hq
  refine ⟨hnan.1, hnan.2, by simp [controlPolygon36], ?_, ?_⟩
  · rw [hnan.1]
    intro h
    exact hmem (List.mem_of_mem_head? (by rw [← h]; exact rfl))
  · rw [hnan.2]
    intro h
    exact hmem (List.mem_of_mem_getLast? (by rw [← h]; exact rfl))

/-- C4 (as amended): for a control polygon of at least two and at most 35 points with
finite coordinates, the Bernstein evaluation at `t = 0` is the first control point and at
`t = 1` the last control point, with the factorials followed in the range of `float`. -/
theorem evaluate32_endpoints (points : List (Point ℚ))
    (hfin : ∀ p ∈ points, |p.x| ≤ FLT_MAX ∧ |p.y| ≤ FLT_MAX)
    (h2 : 2 ≤ points.length) (h35 : points.length ≤ 35) :
    some (evaluate32 (Flt.fin 0) (points.map Point.toFlt)) =
        (points.map Point.toFlt).head? ∧
      some (evaluate32 (Flt.fin 1) (points.map Point.toFlt)) =
        (points.map Point.toFlt).getLast? := by
  obtain ⟨m, hm⟩ : ∃ m : Nat, points.length = m + 1 := ⟨points.length - 1, by omega⟩
  have hn : (((points.map Point.toFlt).length : Nat) : Int) - 1 = (m : Int) := by
    rw [List.length_map, hm]; push_cast; ring
  have hm34 : m ≤ 34 := by omega
  constructor
  · cases points with
    | nil => simp at hm
    | cons p rest =>
      have hp := hfin p (List.mem_cons_self _ _)
      simp only [List.length_cons] at hm
      have hb : Bernstein32 (Flt.fin 0) (0 : Int) (m : Int) = Flt.fin 1 := by
        have := Bernstein32_at_zero 0 m (Nat.zero_le _) hm34
        simpa using this
      have e : (0 : Int) + 1 = ((1 : Nat) : Int) := by norm_num
      unfold evaluate32
      rw [hn]
      simp only [List.map_cons, evaluateLoop32, hb, Point.toFlt, Flt.step_one _ hp.1,
        Flt.step_one _ hp.2, e, List.head?_cons]
      rw [evaluateLoop32_zero_tail m hm34 rest 1 le_rfl (by omega) p.x p.y hp.1 hp.2]
  · obtain ⟨p, hp⟩ : ∃ p, points.getLast? = some p := by
      cases hl : points.getLast? with
      | none => rw [List.getLast?_eq_none_iff] at hl; subst hl; simp at hm
      | some p => exact ⟨p, rfl⟩
    unfold evaluate32
    rw [hn]
    have h := evaluateLoop32_one m hm34 points 0 (by omega) hfin p hp
    simp only [Nat.cast_zero] at h
    rw [h, List.getLast?_map, hp]
    rfl

/-- Witness for C4 (as amended): a control polygon of three points. -/
theorem evaluate32_endpoints_witness :
    (∀ p ∈ [(⟨0, 0⟩ : Point ℚ), ⟨1, 2⟩, ⟨3, 1⟩], |p.x| ≤ FLT_MAX ∧ |p.y| ≤ FLT_MAX) ∧
      2 ≤ [(⟨0, 0⟩ : Point ℚ), ⟨1, 2⟩, ⟨3, 1⟩].length ∧
      [(⟨0, 0⟩ : Point ℚ), ⟨1, 2⟩, ⟨3, 1⟩].length ≤ 35 ∧
      some (evaluate32 (Flt.fin 0) ([(⟨0, 0⟩ : Point ℚ), ⟨1, 2⟩, ⟨3, 1⟩].map Point.toFlt)) =
        ([(⟨0, 0⟩ : Point ℚ), ⟨1, 2⟩, ⟨3, 1⟩].map Point.toFlt).head? ∧
      some (evaluate32 (Flt.fin 1) ([(⟨0, 0⟩ : Point ℚ), ⟨1, 2⟩, ⟨3, 1⟩].map Point.toFlt)) =
        ([(⟨0, 0⟩ : Point ℚ), ⟨1, 2⟩, ⟨3, 1⟩].map Point.toFlt).getLast? :=
  have hfin : ∀ p ∈ [(⟨0, 0⟩ : Point ℚ), ⟨1, 2⟩, ⟨3, 1⟩],
      |p.x| ≤ FLT_MAX ∧ |p.y| ≤ FLT_MAX := by
    simp [FLT_MAX, abs_le]
    norm_num
  ⟨hfin, by decide, by decide,
    evaluate32_endpoints [(⟨0, 0⟩ : Point ℚ), ⟨1, 2⟩, ⟨3, 1⟩] hfin (by decide) (by decide)⟩

end Homework8
